import Mathlib

/-!
A verification development for the Go-DB storage core.

The Go sources model a copy-on-write B+-tree over 4096-byte pages
(`refactor_code/internal/storage/btree/operations.go`, `unnamed/part_000`,
`unnamed/part_001`, `unnamed/part_012`), a free list and reader registry
(`concurrent-reader-writer/define.go`), and a transaction layer
(`transaction/define.go`).

Modelling conventions:
* byte strings are `List Nat`;
* a `BNode` page is modelled by its decoded content: a type tag and the
  list of (pointer, key, value) entries.  The byte-level quantities of the
  codec (`getOffset`, `kvPos`, `nbytes` from `unnamed/part_012`) are
  recovered arithmetically from entry lengths, exactly following the page
  layout `| type 2B | nkeys 2B | ptrs 8B each | offsets 2B each | 4B-sized KVs |`;
* the page store (`get`/`new`/`del` callbacks, wired to an in-memory map in
  `kv-store/test_btree.go` and `transaction/define.go`) is a function
  `Nat → Option BNode` plus a fresh-pointer counter; allocation returns the
  counter where the Go test harness uses the slice address (both are fresh);
* recursion through the store uses an explicit fuel argument; all theorems
  either evaluate at concrete inputs or carry a fuel hypothesis.
-/

namespace GoDB

/-- `BTREE_PAGE_SIZE` from `kv-store/define.go`. -/
def BTREE_PAGE_SIZE : Nat := 4096

/-- `BTREE_MAX_KEY_SIZE` from `kv-store/define.go`. -/
def BTREE_MAX_KEY_SIZE : Nat := 1000

/-- `BTREE_MAX_VAL_SIZE` from `kv-store/define.go`. -/
def BTREE_MAX_VAL_SIZE : Nat := 3000

/-- `HEADER` (type + nkeys, 4 bytes) from `kv-store/define.go`. -/
def HEADER : Nat := 4

/-- `BNODE_NODE` tag: internal node. -/
def BNODE_NODE : Nat := 1

/-- `BNODE_LEAF` tag: leaf node. -/
def BNODE_LEAF : Nat := 2

/-- `bytes.Compare`: lexicographic comparison of byte strings. -/
def bytesCmp : List Nat → List Nat → Ordering
  | [], [] => .eq
  | [], _ :: _ => .lt
  | _ :: _, [] => .gt
  | a :: as, b :: bs =>
    if a < b then .lt
    else if b < a then .gt
    else bytesCmp as bs

/-- Strict lexicographic order on byte strings (`bytes.Compare(a,b) < 0`). -/
def bytesLt (a b : List Nat) : Prop := bytesCmp a b = .lt

instance : DecidablePred fun p : List Nat × List Nat => bytesLt p.1 p.2 := by
  intro p; unfold bytesLt; infer_instance

instance (a b : List Nat) : Decidable (bytesLt a b) := by
  unfold bytesLt; infer_instance

theorem bytesCmp_self (a : List Nat) : bytesCmp a a = .eq := by
  induction a with
  | nil => rfl
  | cons x xs ih => simp [bytesCmp, ih]

theorem bytesCmp_eq_iff {a b : List Nat} : bytesCmp a b = .eq ↔ a = b := by
  constructor
  · intro h
    induction a generalizing b with
    | nil => cases b with
      | nil => rfl
      | cons y ys => simp [bytesCmp] at h
    | cons x xs ih =>
      cases b with
      | nil => simp [bytesCmp] at h
      | cons y ys =>
        by_cases hxy : x < y
        · simp [bytesCmp, hxy] at h
        · by_cases hyx : y < x
          · simp [bytesCmp, hxy, hyx] at h
          · have hx : x = y := Nat.le_antisymm (Nat.le_of_not_lt hyx) (Nat.le_of_not_lt hxy)
            simp only [bytesCmp, if_neg hxy, if_neg hyx] at h
            rw [hx, ih h]
  · intro h; subst h; exact bytesCmp_self a

theorem bytesCmp_swap (a b : List Nat) : bytesCmp b a = (bytesCmp a b).swap := by
  induction a generalizing b with
  | nil => cases b <;> rfl
  | cons x xs ih =>
    cases b with
    | nil => rfl
    | cons y ys =>
      by_cases hxy : x < y
      · have hyx : ¬ y < x := Nat.lt_asymm hxy
        simp [bytesCmp, hxy, hyx, Ordering.swap]
      · by_cases hyx : y < x
        · simp [bytesCmp, hxy, hyx, Ordering.swap]
        · simp [bytesCmp, hxy, hyx, ih ys]

theorem bytesLt_trans {a b c : List Nat} (h1 : bytesLt a b) (h2 : bytesLt b c) :
    bytesLt a c := by
  unfold bytesLt at *
  induction a generalizing b c with
  | nil =>
    cases c with
    | nil =>
      cases b with
      | nil => exact h1
      | cons y ys => simp [bytesCmp] at h2
    | cons z zs => rfl
  | cons x xs ih =>
    cases b with
    | nil => simp [bytesCmp] at h1
    | cons y ys =>
      cases c with
      | nil => simp [bytesCmp] at h2
      | cons z zs =>
        by_cases hxy : x < y
        · -- x < y; from h2, y ≤ z, so x < z
          by_cases hyz : y < z
          · have hxz : x < z := Nat.lt_trans hxy hyz
            simp [bytesCmp, hxz]
          · by_cases hzy : z < y
            · simp [bytesCmp, hyz, hzy] at h2
            · have hyz2 : y = z := Nat.le_antisymm (Nat.le_of_not_lt hzy) (Nat.le_of_not_lt hyz)
              subst hyz2
              simp [bytesCmp, hxy]
        · by_cases hyx : y < x
          · simp [bytesCmp, hxy, hyx] at h1
          · have hx : x = y := Nat.le_antisymm (Nat.le_of_not_lt hyx) (Nat.le_of_not_lt hxy)
            subst hx
            simp only [bytesCmp, if_neg hxy, if_neg hyx] at h1
            by_cases hxz : x < z
            · simp [bytesCmp, hxz]
            · by_cases hzx : z < x
              · simp [bytesCmp, hxz, hzx] at h2
              · have hx2 : x = z := Nat.le_antisymm (Nat.le_of_not_lt hzx) (Nat.le_of_not_lt hxz)
                subst hx2
                simp only [bytesCmp, if_neg hxz, if_neg hzx] at h2 ⊢
                exact ih h1 h2

theorem bytesLt_irrefl (a : List Nat) : ¬ bytesLt a a := by
  unfold bytesLt; rw [bytesCmp_self]; simp

theorem bytesLt_asymm {a b : List Nat} (h : bytesLt a b) : ¬ bytesLt b a := by
  intro h2
  exact bytesLt_irrefl a (bytesLt_trans h h2)

/-- Trichotomy for `bytesCmp`: `gt` means the swapped comparison is `lt`. -/
theorem bytesCmp_gt_iff {a b : List Nat} : bytesCmp a b = .gt ↔ bytesLt b a := by
  unfold bytesLt
  rw [bytesCmp_swap a b]
  rcases h : bytesCmp a b <;> simp [Ordering.swap]

/-- The empty byte string is `≤` every byte string (it is `lt` unless equal). -/
theorem bytesCmp_nil_ne_gt (a : List Nat) : bytesCmp [] a ≠ .gt := by
  cases a <;> simp [bytesCmp]

/-- One decoded entry of a B+-tree page: child pointer (internal nodes),
key bytes and value bytes, as laid out by `nodeAppendKV`
(`refactor_code/internal/storage/btree/operations.go`). -/
structure Entry where
  ptr : Nat
  key : List Nat
  val : List Nat
  deriving Repr, DecidableEq

/-- A decoded `BNode` (`unnamed/part_012`): type tag plus entries. -/
structure BNode where
  btype : Nat
  entries : List Entry
  deriving Repr, DecidableEq

/-- A default entry, standing for the Go zero value read out of bounds. -/
def defEntry : Entry := ⟨0, [], []⟩

/-- `node.nkeys()`: the number of entries. -/
def BNode.nkeys (node : BNode) : Nat := node.entries.length

/-- `node.getKey(idx)`. -/
def BNode.getKey (node : BNode) (idx : Nat) : List Nat :=
  (node.entries.getD idx defEntry).key

/-- `node.getVal(idx)`. -/
def BNode.getVal (node : BNode) (idx : Nat) : List Nat :=
  (node.entries.getD idx defEntry).val

/-- `node.getPtr(idx)`. -/
def BNode.getPtr (node : BNode) (idx : Nat) : Nat :=
  (node.entries.getD idx defEntry).ptr

/-- The 4-byte-header KV pair size of one entry (`4 + klen + vlen`),
the amount `nodeAppendKV` adds to the offset array. -/
def kvSize (e : Entry) : Nat := 4 + e.key.length + e.val.length

/-- `node.getOffset(idx)`: end position of the `idx`-th KV pair relative to
the start of the KV area, i.e. the sum of the KV sizes of the first `idx`
entries (`unnamed/part_012`, `getOffset`/`setOffset` as maintained by
`nodeAppendKV` and `nodeAppendRange`). -/
def BNode.getOffset (node : BNode) (idx : Nat) : Nat :=
  ((node.entries.take idx).map kvSize).sum

/-- `node.kvPos(idx) = HEADER + 8*nkeys + 2*nkeys + getOffset(idx)`. -/
def BNode.kvPos (node : BNode) (idx : Nat) : Nat :=
  HEADER + 8 * node.nkeys + 2 * node.nkeys + node.getOffset idx

/-- `node.nbytes() = kvPos(nkeys)`: encoded size of the page. -/
def BNode.nbytes (node : BNode) : Nat := node.kvPos node.nkeys

/-- Inner loop of `nodeLookupLE`
(`refactor_code/internal/storage/btree/operations.go:257`): scan entries
from index 1, remember the last index whose key compares `≤ key`, stop at
the first index comparing `≥ key`. -/
def lookupLEFrom (key : List Nat) : List Entry → Nat → Nat → Nat
  | [], _, found => found
  | e :: rest, i, found =>
    match bytesCmp e.key key with
    | .lt => lookupLEFrom key rest (i + 1) i
    | .eq => i
    | .gt => found

/-- `nodeLookupLE(node, key)`: the first key (index 0) is never compared. -/
def nodeLookupLE (node : BNode) (key : List Nat) : Nat :=
  lookupLEFrom key (node.entries.drop 1) 1 0

/-- The `nodeLookupLE` variant of `unnamed/part_001:494`: scans from index 0,
returns `i` on an exact match, `i - 1` at the first greater key or at the
end (`i - 1` is truncating at `i = 0`, as Go's `uint16` underflow wraps; the
wrapped value is modelled by `65535`, `2^16 - 1`). -/
def lookupLEv2From (key : List Nat) : List Entry → Nat → Nat
  | [], i => if i = 0 then 65535 else i - 1
  | e :: rest, i =>
    match bytesCmp e.key key with
    | .eq => i
    | .gt => if i = 0 then 65535 else i - 1
    | .lt => lookupLEv2From key rest (i + 1)

/-- `nodeLookupLE` of `unnamed/part_001` (used by `unnamed/part_000`'s and
`unnamed/part_001`'s tree operations, which live in the same package). -/
def nodeLookupLEv2 (node : BNode) (key : List Nat) : Nat :=
  lookupLEv2From key node.entries 0

theorem lookupLEFrom_lt {key : List Nat} {rest : List Entry} {i found n : Nat}
    (hf : found < n) (hi : i + rest.length ≤ n) :
    lookupLEFrom key rest i found < n := by
  induction rest generalizing i found with
  | nil => exact hf
  | cons e r ih =>
    have hilt : i < n := by
      simp only [List.length_cons] at hi; omega
    have hi2 : i + 1 + r.length ≤ n := by
      simp only [List.length_cons] at hi; omega
    unfold lookupLEFrom
    rcases h : bytesCmp e.key key with _ | _ | _
    · exact ih hilt hi2
    · exact hilt
    · exact hf

/-- The loop remembers only `found` when every remaining key is greater than
the search key. -/
theorem lookupLEFrom_all_gt {key : List Nat} {rest : List Entry} {i found : Nat}
    (h : ∀ e ∈ rest, bytesLt key e.key) :
    lookupLEFrom key rest i found = found := by
  cases rest with
  | nil => rfl
  | cons e r =>
    have hgt : bytesCmp e.key key = .gt :=
      bytesCmp_gt_iff.mpr (h e (List.mem_cons_self e r))
    unfold lookupLEFrom
    rw [hgt]

/-- C10: `nodeLookupLE` stays in `[0, nkeys)` for nonempty nodes; it returns 0
when every key at positions `≥ 1` is greater than the search key; and the
first key takes no part in the comparison. -/
theorem nodeLookupLE_bounds (node : BNode) (key : List Nat) (h : 1 ≤ node.nkeys) :
    nodeLookupLE node key < node.nkeys ∧
    ((∀ j, 1 ≤ j → j < node.nkeys → bytesLt key (node.getKey j)) →
      nodeLookupLE node key = 0) ∧
    (∀ b b2 : Nat, ∀ e e2 : Entry, ∀ rest : List Entry, node.entries = e :: rest →
      nodeLookupLE ⟨b2, e2 :: rest⟩ key = nodeLookupLE ⟨b, e :: rest⟩ key) := by
  refine ⟨?_, ?_, ?_⟩
  · unfold nodeLookupLE
    apply lookupLEFrom_lt h
    have : (node.entries.drop 1).length = node.entries.length - 1 := by
      simp
    unfold BNode.nkeys at *
    omega
  · intro hall
    unfold nodeLookupLE
    apply lookupLEFrom_all_gt
    intro e he
    -- e sits at some position j ≥ 1 in the entries
    rcases List.mem_iff_getElem.mp he with ⟨j, hj, hget⟩
    have hjlen : 1 + j < node.entries.length := by
      have := List.length_drop 1 node.entries
      omega
    have hkey : node.getKey (1 + j) = e.key := by
      unfold BNode.getKey
      rw [List.getD_eq_getElem?_getD, List.getElem?_eq_getElem hjlen]
      have := List.getElem_drop' node.entries (i := 1) (j := j) hjlen
      simp only [this, hget]
      simp
    have := hall (1 + j) (by omega) hjlen
    rw [hkey] at this
    exact this
  · intro b b2 e e2 rest hrest
    unfold nodeLookupLE
    simp [hrest]

theorem nodeLookupLE_bounds_witness :
    nodeLookupLE ⟨BNODE_LEAF, [⟨0, [], []⟩, ⟨0, [3], [9]⟩]⟩ [2]
      < (BNode.mk BNODE_LEAF [⟨0, [], []⟩, ⟨0, [3], [9]⟩]).nkeys ∧
    ((∀ j, 1 ≤ j → j < (BNode.mk BNODE_LEAF [⟨0, [], []⟩, ⟨0, [3], [9]⟩]).nkeys →
        bytesLt [2] ((BNode.mk BNODE_LEAF [⟨0, [], []⟩, ⟨0, [3], [9]⟩]).getKey j)) →
      nodeLookupLE ⟨BNODE_LEAF, [⟨0, [], []⟩, ⟨0, [3], [9]⟩]⟩ [2] = 0) ∧
    (∀ b b2 : Nat, ∀ e e2 : Entry, ∀ rest : List Entry,
      (BNode.mk BNODE_LEAF [⟨0, [], []⟩, ⟨0, [3], [9]⟩]).entries = e :: rest →
      nodeLookupLE ⟨b2, e2 :: rest⟩ [2] = nodeLookupLE ⟨b, e :: rest⟩ [2]) :=
  nodeLookupLE_bounds ⟨BNODE_LEAF, [⟨0, [], []⟩, ⟨0, [3], [9]⟩]⟩ [2] (by decide)

/-! ### Node construction operations

`nodeAppendRange` copies a consecutive range of entries and `nodeAppendKV`
writes one entry; on the decoded view the leaf/internal constructors below
are exactly their composition
(`refactor_code/internal/storage/btree/operations.go:274-324,368-394`). -/

/-- `leafInsert(new, old, idx, key, val)`: entries before `idx`, the new
`(0, key, val)` entry, then entries from `idx` on. -/
def leafInsert (old : BNode) (idx : Nat) (key val : List Nat) : BNode :=
  ⟨BNODE_LEAF, old.entries.take idx ++ ⟨0, key, val⟩ :: old.entries.drop idx⟩

/-- `leafUpdate(new, old, idx, key, val)`: entry `idx` replaced by
`(0, key, val)`. -/
def leafUpdate (old : BNode) (idx : Nat) (key val : List Nat) : BNode :=
  ⟨BNODE_LEAF, old.entries.take idx ++ ⟨0, key, val⟩ :: old.entries.drop (idx + 1)⟩

/-- `leafDelete(new, old, idx)`: entry `idx` removed. -/
def leafDelete (old : BNode) (idx : Nat) : BNode :=
  ⟨BNODE_LEAF, old.entries.take idx ++ old.entries.drop (idx + 1)⟩

/-- `nodeMerge(new, left, right)`: all of `left`'s entries then all of
`right`'s, with `left`'s type. -/
def nodeMerge (left right : BNode) : BNode :=
  ⟨left.btype, left.entries ++ right.entries⟩

/-- `nodeReplace2Kid(new, old, idx, ptr, key)`: entries `idx` and `idx+1`
replaced by the single entry `(ptr, key, nil)`. -/
def nodeReplace2Kid (old : BNode) (idx : Nat) (ptr : Nat) (key : List Nat) : BNode :=
  ⟨BNODE_NODE, old.entries.take idx ++ ⟨ptr, key, []⟩ :: old.entries.drop (idx + 2)⟩

/-! ### The node splitter (`nodeSplit2` / `nodeSplit3`)

`nodeSplit2` (`refactor_code/internal/storage/btree/operations.go:409`)
first guesses `nleft = nkeys/2`, decrements it while the left half exceeds
one page, then increments it while the right half exceeds one page.  The
Go loops are modelled structurally: the decrementing loop recurses on
`nleft` itself (at `nleft = 0` the loop guard is false since the left half
is only the 4-byte header); the incrementing loop carries fuel, and
`old.nkeys` fuel always suffices because the right half of an `nkeys`-sized
left part is only the header. -/

/-- `left_bytes()` in `nodeSplit2`: `4 + 8*nleft + 2*nleft + getOffset(nleft)`. -/
def leftBytes (old : BNode) (nleft : Nat) : Nat :=
  4 + 8 * nleft + 2 * nleft + old.getOffset nleft

/-- `right_bytes()` in `nodeSplit2`: `nbytes() - left_bytes() + 4`. -/
def rightBytes (old : BNode) (nleft : Nat) : Nat :=
  old.nbytes - leftBytes old nleft + 4

/-- The decrementing loop `for left_bytes() > BTREE_PAGE_SIZE { nleft-- }`. -/
def shrinkNleft (old : BNode) : Nat → Nat
  | 0 => 0
  | m + 1 =>
    if BTREE_PAGE_SIZE < leftBytes old (m + 1) then shrinkNleft old m else m + 1

/-- The incrementing loop `for right_bytes() > BTREE_PAGE_SIZE { nleft++ }`. -/
def growNleft (old : BNode) : Nat → Nat → Nat
  | 0, m => m
  | f + 1, m =>
    if BTREE_PAGE_SIZE < rightBytes old m then growNleft old f (m + 1) else m

/-- The final `nleft` computed by `nodeSplit2`. -/
def splitPos (old : BNode) : Nat :=
  growNleft old old.nkeys (shrinkNleft old (old.nkeys / 2))

/-- `nodeSplit2(left, right, old)`: `left` takes the first `nleft` entries,
`right` the rest, both with `old`'s type. -/
def nodeSplit2 (old : BNode) : BNode × BNode :=
  (⟨old.btype, old.entries.take (splitPos old)⟩,
   ⟨old.btype, old.entries.drop (splitPos old)⟩)

/-- `nodeSplit3(old)`
(`refactor_code/internal/storage/btree/operations.go:348`): a fitting node
is returned whole; otherwise split two ways, and split the left part again
if it still exceeds one page. -/
def nodeSplit3 (old : BNode) : Nat × List BNode :=
  if old.nbytes ≤ BTREE_PAGE_SIZE then (1, [old])
  else
    let lr := nodeSplit2 old
    if lr.1.nbytes ≤ BTREE_PAGE_SIZE then (2, [lr.1, lr.2])
    else
      let lm := nodeSplit2 lr.1
      (3, [lm.1, lm.2, lr.2])

/-- The full page cost of one entry: pointer (8) + offset slot (2) + KV pair. -/
def entryCost (e : Entry) : Nat := 10 + kvSize e

theorem getOffset_zero (node : BNode) : node.getOffset 0 = 0 := by
  simp [BNode.getOffset]

theorem getOffset_clamp (node : BNode) {m : Nat} (h : node.nkeys ≤ m) :
    node.getOffset m = node.getOffset node.nkeys := by
  unfold BNode.getOffset BNode.nkeys at *
  rw [List.take_of_length_le h, List.take_of_length_le (le_refl _)]

theorem costSum_split10 (l : List Entry) :
    (l.map entryCost).sum = 10 * l.length + (l.map kvSize).sum := by
  induction l with
  | nil => simp
  | cons e t ih =>
    simp only [List.map_cons, List.sum_cons, List.length_cons, entryCost] at *
    omega

theorem nbytes_eq_costSum (node : BNode) :
    node.nbytes = 4 + (node.entries.map entryCost).sum := by
  unfold BNode.nbytes BNode.kvPos BNode.getOffset BNode.nkeys HEADER
  rw [List.take_of_length_le (le_refl _), costSum_split10]
  omega

theorem leftBytes_eq_costSum (node : BNode) {m : Nat} (h : m ≤ node.nkeys) :
    leftBytes node m = 4 + ((node.entries.take m).map entryCost).sum := by
  unfold leftBytes BNode.getOffset
  have hlen : (node.entries.take m).length = m := by
    simp [BNode.nkeys] at h ⊢; omega
  rw [costSum_split10, hlen]
  omega

theorem costSum_take_add_drop (l : List Entry) (m : Nat) :
    ((l.take m).map entryCost).sum + ((l.drop m).map entryCost).sum
      = (l.map entryCost).sum := by
  conv_rhs => rw [← List.take_append_drop m l]
  rw [List.map_append, List.sum_append]

theorem costSum_take_mono (l : List Entry) {a b : Nat} (h : a ≤ b) :
    ((l.take a).map entryCost).sum ≤ ((l.take b).map entryCost).sum := by
  have : (l.take b).take a = l.take a := by
    rw [List.take_take, Nat.min_eq_left h]
  calc ((l.take a).map entryCost).sum
      = (((l.take b).take a).map entryCost).sum := by rw [this]
    _ ≤ (((l.take b).take a).map entryCost).sum
        + ((((l.take b).drop a)).map entryCost).sum := Nat.le_add_right _ _
    _ = ((l.take b).map entryCost).sum := costSum_take_add_drop _ _

theorem rightBytes_eq_costSum (node : BNode) {m : Nat} (h : m ≤ node.nkeys) :
    rightBytes node m = 4 + ((node.entries.drop m).map entryCost).sum := by
  unfold rightBytes
  rw [nbytes_eq_costSum, leftBytes_eq_costSum node h,
    ← costSum_take_add_drop node.entries m]
  omega

theorem rightBytes_of_nkeys_le (node : BNode) {m : Nat} (h : node.nkeys ≤ m) :
    rightBytes node m = 4 := by
  unfold rightBytes leftBytes
  rw [getOffset_clamp node h, nbytes_eq_costSum]
  have : leftBytes node node.nkeys = node.nbytes := by
    unfold leftBytes BNode.nbytes BNode.kvPos HEADER
    omega
  unfold leftBytes at this
  rw [nbytes_eq_costSum] at this
  omega

/-! Specifications for the two `nodeSplit2` loops. -/

theorem shrinkNleft_le (old : BNode) (m : Nat) : shrinkNleft old m ≤ m := by
  induction m with
  | zero => simp [shrinkNleft]
  | succ k ih =>
    unfold shrinkNleft
    split
    · omega
    · omega

theorem shrinkNleft_fits (old : BNode) (m : Nat) :
    leftBytes old (shrinkNleft old m) ≤ BTREE_PAGE_SIZE := by
  induction m with
  | zero =>
    simp [shrinkNleft, leftBytes, getOffset_zero, BTREE_PAGE_SIZE]
  | succ k ih =>
    unfold shrinkNleft
    split
    · exact ih
    · omega

theorem shrinkNleft_pos (old : BNode) (m : Nat) (hm : 1 ≤ m)
    (h1 : leftBytes old 1 ≤ BTREE_PAGE_SIZE) : 1 ≤ shrinkNleft old m := by
  induction m with
  | zero => omega
  | succ k ih =>
    unfold shrinkNleft
    split
    · rename_i hguard
      rcases Nat.eq_zero_or_pos k with hk | hk
      · subst hk
        simp only [Nat.zero_add] at hguard
        omega
      · exact ih hk
    · omega

theorem growNleft_ge (old : BNode) (f m : Nat) : m ≤ growNleft old f m := by
  induction f generalizing m with
  | zero => simp [growNleft]
  | succ k ih =>
    unfold growNleft
    split
    · exact Nat.le_trans (Nat.le_succ m) (ih (m + 1))
    · exact le_refl m

theorem growNleft_fits (old : BNode) (f m : Nat) (h : old.nkeys ≤ m + f) :
    rightBytes old (growNleft old f m) ≤ BTREE_PAGE_SIZE := by
  induction f generalizing m with
  | zero =>
    simp only [growNleft]
    rw [rightBytes_of_nkeys_le old (by omega)]
    simp [BTREE_PAGE_SIZE]
  | succ k ih =>
    unfold growNleft
    split
    · exact ih (m + 1) (by omega)
    · omega

/-- First-exit minimality of the incrementing loop. -/
theorem growNleft_le_of (old : BNode) (f m k : Nat) (hmk : m ≤ k)
    (hk : rightBytes old k ≤ BTREE_PAGE_SIZE) : growNleft old f m ≤ k := by
  induction f generalizing m with
  | zero => simpa [growNleft] using hmk
  | succ j ih =>
    unfold growNleft
    split
    · rename_i hguard
      have hne : m ≠ k := by
        intro h; subst h; omega
      exact ih (m + 1) (by omega)
    · exact hmk

/-- The loop either never ran or the previous right half overflowed. -/
theorem growNleft_exit (old : BNode) (f m : Nat) :
    growNleft old f m = m ∨
      (BTREE_PAGE_SIZE < rightBytes old (growNleft old f m - 1) ∧
        m < growNleft old f m) := by
  induction f generalizing m with
  | zero => left; rfl
  | succ k ih =>
    unfold growNleft
    split
    · rename_i hguard
      rcases ih (m + 1) with h | h
      · right
        rw [h]
        simpa using hguard
      · right
        refine ⟨h.1, by omega⟩
    · left; rfl

/-- Entry limits bound the page cost of an entry by `14 + 1000 + 3000`. -/
theorem entryCost_le_of_limits {e : Entry}
    (hk : e.key.length ≤ BTREE_MAX_KEY_SIZE) (hv : e.val.length ≤ BTREE_MAX_VAL_SIZE) :
    entryCost e ≤ 4014 := by
  unfold entryCost kvSize BTREE_MAX_KEY_SIZE BTREE_MAX_VAL_SIZE at *
  omega

theorem costSum_le (l : List Entry) (C : Nat) (h : ∀ e ∈ l, entryCost e ≤ C) :
    (l.map entryCost).sum ≤ C * l.length := by
  induction l with
  | nil => simp
  | cons e t ih =>
    simp only [List.map_cons, List.sum_cons, List.length_cons]
    have h1 := h e (List.mem_cons_self e t)
    have h2 := ih fun x hx => h x (List.mem_cons_of_mem e hx)
    calc entryCost e + (t.map entryCost).sum ≤ C + C * t.length := by omega
      _ = C * (t.length + 1) := by ring

/-- Size limits on the entries of a node. -/
def entriesWithinLimits (node : BNode) : Prop :=
  ∀ e ∈ node.entries,
    e.key.length ≤ BTREE_MAX_KEY_SIZE ∧ e.val.length ≤ BTREE_MAX_VAL_SIZE

instance (node : BNode) : Decidable (entriesWithinLimits node) := by
  unfold entriesWithinLimits; infer_instance

/-- Under the entry limits, the split position of a node with `≥ 2` keys is
interior (`1 ≤ splitPos < nkeys`), the right half fits on a page, and either
the left half fits or the loop overshot past a right half that overflowed. -/
theorem splitPos_spec (old : BNode) (h2 : 2 ≤ old.nkeys)
    (hc : entriesWithinLimits old) :
    1 ≤ splitPos old ∧ splitPos old < old.nkeys ∧
    rightBytes old (splitPos old) ≤ BTREE_PAGE_SIZE ∧
    (leftBytes old (splitPos old) ≤ BTREE_PAGE_SIZE ∨
      BTREE_PAGE_SIZE < rightBytes old (splitPos old - 1)) := by
  have hn1 : 1 ≤ old.nkeys := by omega
  -- leftBytes old 1 = 4 + cost of the first entry ≤ 4018
  have hfst : ∃ e t, old.entries = e :: t := by
    cases hent : old.entries with
    | nil => unfold BNode.nkeys at h2; rw [hent] at h2; simp at h2
    | cons e t => exact ⟨e, t, rfl⟩
  rcases hfst with ⟨e0, t0, hent⟩
  have hcost0 : entryCost e0 ≤ 4014 := by
    have := hc e0 (by rw [hent]; exact List.mem_cons_self e0 t0)
    exact entryCost_le_of_limits this.1 this.2
  have hlb1 : leftBytes old 1 ≤ BTREE_PAGE_SIZE := by
    rw [leftBytes_eq_costSum old hn1, hent]
    simp only [List.take_succ_cons, List.take_zero, List.map_cons, List.map_nil,
      List.sum_cons, List.sum_nil, BTREE_PAGE_SIZE]
    omega
  have hlast : rightBytes old (old.nkeys - 1) ≤ BTREE_PAGE_SIZE := by
    rw [rightBytes_eq_costSum old (by omega)]
    have hbd : ∀ e ∈ old.entries.drop (old.nkeys - 1), entryCost e ≤ 4014 := by
      intro e he
      have hmem : e ∈ old.entries := List.mem_of_mem_drop he
      have := hc e hmem
      exact entryCost_le_of_limits this.1 this.2
    have hlen : (old.entries.drop (old.nkeys - 1)).length = 1 := by
      unfold BNode.nkeys at *
      rw [List.length_drop]
      omega
    have := costSum_le _ 4014 hbd
    rw [hlen] at this
    unfold BTREE_PAGE_SIZE
    omega
  have hm1pos : 1 ≤ shrinkNleft old (old.nkeys / 2) :=
    shrinkNleft_pos old _ (by omega) hlb1
  have hm1le : shrinkNleft old (old.nkeys / 2) ≤ old.nkeys / 2 :=
    shrinkNleft_le old _
  constructor
  · exact Nat.le_trans hm1pos (growNleft_ge old _ _)
  constructor
  · have : splitPos old ≤ old.nkeys - 1 :=
      growNleft_le_of old _ _ _ (by omega) hlast
    omega
  constructor
  · exact growNleft_fits old _ _ (by omega)
  · rcases growNleft_exit old old.nkeys (shrinkNleft old (old.nkeys / 2)) with h | h
    · left
      unfold splitPos
      rw [h]
      exact shrinkNleft_fits old _
    · right
      exact h.1

theorem nbytes_take_piece (b : Nat) (old : BNode) {m : Nat} (h : m ≤ old.nkeys) :
    (BNode.mk b (old.entries.take m)).nbytes = leftBytes old m := by
  rw [nbytes_eq_costSum, leftBytes_eq_costSum old h]

theorem nbytes_drop_piece (b : Nat) (old : BNode) {m : Nat} (h : m ≤ old.nkeys) :
    (BNode.mk b (old.entries.drop m)).nbytes = rightBytes old m := by
  rw [nbytes_eq_costSum, rightBytes_eq_costSum old h]

/-- `nodeSplit3` always yields 1 to 3 pieces whose entries concatenate, in
order, to the input's entries. -/
theorem nodeSplit3_partition (old : BNode) :
    ((nodeSplit3 old).2.map BNode.entries).flatten = old.entries ∧
    (nodeSplit3 old).2.length = (nodeSplit3 old).1 ∧
    1 ≤ (nodeSplit3 old).1 ∧ (nodeSplit3 old).1 ≤ 3 := by
  unfold nodeSplit3 nodeSplit2
  by_cases h1 : old.nbytes ≤ BTREE_PAGE_SIZE
  · simp [h1]
  · rw [if_neg h1]
    simp only
    by_cases h2 : (BNode.mk old.btype (old.entries.take (splitPos old))).nbytes
        ≤ BTREE_PAGE_SIZE
    · rw [if_pos h2]
      simp
    · rw [if_neg h2]
      refine ⟨?_, by simp, by simp, by simp⟩
      simp only [List.map_cons, List.map_nil, List.flatten_cons,
        List.flatten_nil, List.append_nil]
      rw [← List.append_assoc, List.take_append_drop, List.take_append_drop]

/-- Under entry limits, a node of encoded size at most `8189` splits into
pieces that each fit on a page. -/
theorem nodeSplit3_fits (old : BNode)
    (hkeys : BTREE_PAGE_SIZE < old.nbytes → 2 ≤ old.nkeys)
    (hc : entriesWithinLimits old)
    (hsz : old.nbytes ≤ 8189) :
    ∀ piece ∈ (nodeSplit3 old).2, piece.nbytes ≤ BTREE_PAGE_SIZE := by
  intro piece hp
  unfold nodeSplit3 nodeSplit2 at hp
  by_cases h1 : old.nbytes ≤ BTREE_PAGE_SIZE
  · rw [if_pos h1] at hp
    simp at hp
    subst hp
    exact h1
  · rw [if_neg h1] at hp
    have h2 : 2 ≤ old.nkeys := hkeys (by omega)
    obtain ⟨hs1, hslt, hrfit, hldisj⟩ := splitPos_spec old h2 hc
    have hsle : splitPos old ≤ old.nkeys := by omega
    have hrn : (BNode.mk old.btype (old.entries.drop (splitPos old))).nbytes
        ≤ BTREE_PAGE_SIZE := by
      rw [nbytes_drop_piece _ _ hsle]; exact hrfit
    by_cases hl : (BNode.mk old.btype (old.entries.take (splitPos old))).nbytes
        ≤ BTREE_PAGE_SIZE
    · rw [if_pos hl] at hp
      simp only [List.mem_cons, List.mem_singleton, List.not_mem_nil,
        or_false] at hp
      rcases hp with hp | hp <;> subst hp
      · exact hl
      · exact hrn
    · rw [if_neg hl] at hp
      -- three-way case
      set lft : BNode := BNode.mk old.btype (old.entries.take (splitPos old)) with hlft
      have hlb : BTREE_PAGE_SIZE < leftBytes old (splitPos old) := by
        have hnb := nbytes_take_piece old.btype old hsle
        rw [← hlft] at hnb
        omega
      -- the left part has at least 2 keys
      have hlftn : lft.nkeys = splitPos old := by
        rw [hlft]
        unfold BNode.nkeys
        simp
        unfold BNode.nkeys at hsle
        omega
      have hlft2 : 2 ≤ lft.nkeys := by
        rw [hlftn]
        by_contra hcon
        have hs1eq : splitPos old = 1 := by omega
        -- leftBytes at 1 is at most 4018, contradiction
        have hfste : ∃ e t, old.entries = e :: t := by
          cases hent : old.entries with
          | nil => unfold BNode.nkeys at h2; rw [hent] at h2; simp at h2
          | cons e t => exact ⟨e, t, rfl⟩
        rcases hfste with ⟨e0, t0, hent⟩
        have hcost0 : entryCost e0 ≤ 4014 := by
          have := hc e0 (by rw [hent]; exact List.mem_cons_self e0 t0)
          exact entryCost_le_of_limits this.1 this.2
        have : leftBytes old 1 ≤ BTREE_PAGE_SIZE := by
          rw [leftBytes_eq_costSum old (by omega), hent]
          simp only [List.take_succ_cons, List.take_zero, List.map_cons,
            List.map_nil, List.sum_cons, List.sum_nil, BTREE_PAGE_SIZE]
          omega
        rw [hs1eq] at hlb
        omega
      have hclft : entriesWithinLimits lft := by
        intro e he
        exact hc e (List.mem_of_mem_take he)
      obtain ⟨ht1, htlt, htrfit, htldisj⟩ := splitPos_spec lft hlft2 hclft
      have htle : splitPos lft ≤ lft.nkeys := by omega
      simp only [List.mem_cons, List.not_mem_nil, or_false] at hp
      rcases hp with hp | hp | hp
      · -- leftleft: the central size argument
        subst hp
        rw [nbytes_take_piece _ _ htle]
        by_contra hcon
        push_neg at hcon
        -- leftleft overflowed: the prefix up to splitPos lft already costs ≥ 4093
        have hA : 4093 ≤ ((lft.entries.take (splitPos lft)).map entryCost).sum := by
          have := leftBytes_eq_costSum lft htle
          unfold BTREE_PAGE_SIZE at hcon
          omega
        -- the prefix of lft is a prefix of old
        have hts : splitPos lft ≤ splitPos old := by
          have h := htlt
          rw [hlftn] at h
          omega
        have he2 : lft.entries = old.entries.take (splitPos old) := by rw [hlft]
        have htake2 : lft.entries.take (splitPos lft)
            = old.entries.take (splitPos lft) := by
          rw [he2, List.take_take, Nat.min_eq_left hts]
        -- the first split overshot: its previous right half overflowed
        have hover : BTREE_PAGE_SIZE < rightBytes old (splitPos old - 1) := by
          rcases hldisj with hld | hld
          · omega
          · exact hld
        have hB : 4093 ≤ ((old.entries.drop (splitPos old - 1)).map entryCost).sum := by
          have := rightBytes_eq_costSum old
            (show splitPos old - 1 ≤ old.nkeys by omega)
          unfold BTREE_PAGE_SIZE at hover
          omega
        -- the prefix is inside take (splitPos old - 1)
        have hmono : ((old.entries.take (splitPos lft)).map entryCost).sum
            ≤ ((old.entries.take (splitPos old - 1)).map entryCost).sum := by
          apply costSum_take_mono
          rw [← hlftn]
          omega
        have hsplit := costSum_take_add_drop old.entries (splitPos old - 1)
        have htot : (old.entries.map entryCost).sum ≤ 8185 := by
          rw [nbytes_eq_costSum] at hsz
          omega
        rw [htake2] at hA
        omega
      · -- middle
        subst hp
        rw [nbytes_drop_piece _ _ htle]
        exact htrfit
      · -- right
        subst hp
        exact hrn

/-- Unfolding step of the decrementing loop. -/
theorem shrinkNleft_succ (old : BNode) (m : Nat) :
    shrinkNleft old (m + 1) =
      if BTREE_PAGE_SIZE < leftBytes old (m + 1) then shrinkNleft old m
      else m + 1 := rfl

/-- Unfolding step of the incrementing loop. -/
theorem growNleft_succ (old : BNode) (f m : Nat) :
    growNleft old (f + 1) m =
      if BTREE_PAGE_SIZE < rightBytes old m then growNleft old f (m + 1)
      else m := rfl

/-- A node whose encoded size is `8190 ≤ 2 * 4096`, with 4 keys, all
key/value sizes within the limits, on which the 3-way split emits an
oversized first piece (4097 bytes): the two big entries measure
`10 + 4 + 1000 + 3000 = 4014` bytes each, the two small ones 79 bytes. -/
def splitBadNode : BNode :=
  ⟨BNODE_LEAF,
    [⟨0, [0], List.replicate 64 0⟩,
     ⟨0, 1 :: List.replicate 999 0, List.replicate 3000 0⟩,
     ⟨0, [2], List.replicate 64 0⟩,
     ⟨0, 3 :: List.replicate 999 0, List.replicate 3000 0⟩]⟩

theorem splitBadNode_costs :
    splitBadNode.entries.map entryCost = [79, 4014, 79, 4014] := by
  simp only [splitBadNode, List.map_cons, List.map_nil, entryCost, kvSize,
    List.length_replicate, List.length_cons, List.length_nil]

theorem splitBadNode_nbytes : splitBadNode.nbytes = 8190 := by
  rw [nbytes_eq_costSum, splitBadNode_costs]
  norm_num [List.sum_cons, List.sum_nil]

theorem splitBadNode_nkeys : splitBadNode.nkeys = 4 := rfl

theorem splitBadNode_leftBytes_1 : leftBytes splitBadNode 1 = 83 := by
  rw [leftBytes_eq_costSum splitBadNode (by rw [splitBadNode_nkeys]; omega)]
  rw [show splitBadNode.entries.take 1 = [⟨0, [0], List.replicate 64 0⟩] from rfl]
  simp only [List.map_cons, List.map_nil, List.sum_cons, List.sum_nil,
    entryCost, kvSize, List.length_replicate, List.length_cons, List.length_nil]
  norm_num

theorem splitBadNode_leftBytes_2 : leftBytes splitBadNode 2 = 4097 := by
  rw [leftBytes_eq_costSum splitBadNode (by rw [splitBadNode_nkeys]; omega)]
  rw [show splitBadNode.entries.take 2
    = [⟨0, [0], List.replicate 64 0⟩,
       ⟨0, 1 :: List.replicate 999 0, List.replicate 3000 0⟩] from rfl]
  simp only [List.map_cons, List.map_nil, List.sum_cons, List.sum_nil,
    entryCost, kvSize, List.length_replicate, List.length_cons, List.length_nil]
  norm_num

theorem splitBadNode_leftBytes_3 : leftBytes splitBadNode 3 = 4176 := by
  rw [leftBytes_eq_costSum splitBadNode (by rw [splitBadNode_nkeys]; omega)]
  rw [show splitBadNode.entries.take 3
    = [⟨0, [0], List.replicate 64 0⟩,
       ⟨0, 1 :: List.replicate 999 0, List.replicate 3000 0⟩,
       ⟨0, [2], List.replicate 64 0⟩] from rfl]
  simp only [List.map_cons, List.map_nil, List.sum_cons, List.sum_nil,
    entryCost, kvSize, List.length_replicate, List.length_cons, List.length_nil]
  norm_num

theorem splitBadNode_splitPos : splitPos splitBadNode = 3 := by
  unfold splitPos
  rw [splitBadNode_nkeys]
  have hsh1 : shrinkNleft splitBadNode 1 = 1 := by
    rw [show (1 : Nat) = 0 + 1 from rfl, shrinkNleft_succ]
    rw [if_neg (by
      rw [show (0 : Nat) + 1 = 1 from rfl, splitBadNode_leftBytes_1]
      norm_num [BTREE_PAGE_SIZE])]
  have hsh : shrinkNleft splitBadNode 2 = 1 := by
    rw [show (2 : Nat) = 1 + 1 from rfl, shrinkNleft_succ]
    rw [if_pos (by
      rw [show (1 : Nat) + 1 = 2 from rfl, splitBadNode_leftBytes_2]
      norm_num [BTREE_PAGE_SIZE])]
    exact hsh1
  have hr1 : rightBytes splitBadNode 1 = 8111 := by
    unfold rightBytes
    rw [splitBadNode_nbytes, splitBadNode_leftBytes_1]
  have hr2 : rightBytes splitBadNode 2 = 4097 := by
    unfold rightBytes
    rw [splitBadNode_nbytes, splitBadNode_leftBytes_2]
  have hr3 : rightBytes splitBadNode 3 = 4018 := by
    unfold rightBytes
    rw [splitBadNode_nbytes, splitBadNode_leftBytes_3]
  rw [show (4 : Nat) / 2 = 2 from rfl, hsh]
  show growNleft splitBadNode 4 1 = 3
  rw [show (4 : Nat) = 3 + 1 from rfl, growNleft_succ,
    if_pos (by rw [hr1]; norm_num [BTREE_PAGE_SIZE])]
  show growNleft splitBadNode 3 2 = 3
  rw [show (3 : Nat) = 2 + 1 from rfl, growNleft_succ,
    if_pos (by rw [hr2]; norm_num [BTREE_PAGE_SIZE])]
  show growNleft splitBadNode 2 3 = 3
  rw [show (2 : Nat) = 1 + 1 from rfl, growNleft_succ,
    if_neg (by rw [hr3]; norm_num [BTREE_PAGE_SIZE])]

/-- The left part of the first split of `splitBadNode`: 4176 bytes, still
over one page. -/
def splitBadLeft : BNode :=
  ⟨BNODE_LEAF,
    [⟨0, [0], List.replicate 64 0⟩,
     ⟨0, 1 :: List.replicate 999 0, List.replicate 3000 0⟩,
     ⟨0, [2], List.replicate 64 0⟩]⟩

theorem splitBadNode_split2 :
    nodeSplit2 splitBadNode =
      (splitBadLeft,
       ⟨BNODE_LEAF, [⟨0, 3 :: List.replicate 999 0, List.replicate 3000 0⟩]⟩) := by
  unfold nodeSplit2
  rw [splitBadNode_splitPos]
  rfl

theorem splitBadLeft_nbytes : splitBadLeft.nbytes = 4176 := by
  rw [nbytes_eq_costSum]
  rw [show splitBadLeft.entries.map entryCost = [79, 4014, 79] by
    simp only [splitBadLeft, List.map_cons, List.map_nil, entryCost, kvSize,
      List.length_replicate, List.length_cons, List.length_nil]]
  norm_num [List.sum_cons, List.sum_nil]

theorem splitBadLeft_leftBytes_1 : leftBytes splitBadLeft 1 = 83 := by
  rw [leftBytes_eq_costSum splitBadLeft (by norm_num [splitBadLeft, BNode.nkeys])]
  rw [show splitBadLeft.entries.take 1 = [⟨0, [0], List.replicate 64 0⟩] from rfl]
  simp only [List.map_cons, List.map_nil, List.sum_cons, List.sum_nil,
    entryCost, kvSize, List.length_replicate, List.length_cons, List.length_nil]
  norm_num

theorem splitBadLeft_leftBytes_2 : leftBytes splitBadLeft 2 = 4097 := by
  rw [leftBytes_eq_costSum splitBadLeft (by norm_num [splitBadLeft, BNode.nkeys])]
  rw [show splitBadLeft.entries.take 2
    = [⟨0, [0], List.replicate 64 0⟩,
       ⟨0, 1 :: List.replicate 999 0, List.replicate 3000 0⟩] from rfl]
  simp only [List.map_cons, List.map_nil, List.sum_cons, List.sum_nil,
    entryCost, kvSize, List.length_replicate, List.length_cons, List.length_nil]
  norm_num

theorem splitBadLeft_splitPos : splitPos splitBadLeft = 2 := by
  unfold splitPos
  rw [show splitBadLeft.nkeys = 3 from rfl]
  have hr1 : rightBytes splitBadLeft 1 = 4097 := by
    unfold rightBytes
    rw [splitBadLeft_nbytes, splitBadLeft_leftBytes_1]
  have hr2 : rightBytes splitBadLeft 2 = 83 := by
    unfold rightBytes
    rw [splitBadLeft_nbytes, splitBadLeft_leftBytes_2]
  have hsh1 : shrinkNleft splitBadLeft 1 = 1 := by
    rw [show (1 : Nat) = 0 + 1 from rfl, shrinkNleft_succ]
    rw [if_neg (by
      rw [show (0 : Nat) + 1 = 1 from rfl, splitBadLeft_leftBytes_1]
      norm_num [BTREE_PAGE_SIZE])]
  rw [show (3 : Nat) / 2 = 1 from rfl, hsh1]
  show growNleft splitBadLeft 3 1 = 2
  rw [show (3 : Nat) = 2 + 1 from rfl, growNleft_succ,
    if_pos (by rw [hr1]; norm_num [BTREE_PAGE_SIZE])]
  show growNleft splitBadLeft 2 2 = 2
  rw [show (2 : Nat) = 1 + 1 from rfl, growNleft_succ,
    if_neg (by rw [hr2]; norm_num [BTREE_PAGE_SIZE])]

/-- The first piece produced by the 3-way split of `splitBadNode`. -/
def splitBadPiece : BNode :=
  ⟨BNODE_LEAF,
    [⟨0, [0], List.replicate 64 0⟩,
     ⟨0, 1 :: List.replicate 999 0, List.replicate 3000 0⟩]⟩

theorem splitBadPiece_nbytes : splitBadPiece.nbytes = 4097 := by
  rw [nbytes_eq_costSum]
  rw [show splitBadPiece.entries.map entryCost = [79, 4014] by
    simp only [splitBadPiece, List.map_cons, List.map_nil, entryCost, kvSize,
      List.length_replicate, List.length_cons, List.length_nil]]
  norm_num [List.sum_cons, List.sum_nil]

theorem splitBadNode_split3 :
    nodeSplit3 splitBadNode =
      (3, [splitBadPiece,
           ⟨BNODE_LEAF, [⟨0, [2], List.replicate 64 0⟩]⟩,
           ⟨BNODE_LEAF, [⟨0, 3 :: List.replicate 999 0, List.replicate 3000 0⟩]⟩]) := by
  unfold nodeSplit3
  rw [if_neg (by rw [splitBadNode_nbytes]; norm_num [BTREE_PAGE_SIZE])]
  simp only [splitBadNode_split2]
  rw [if_neg (by rw [splitBadLeft_nbytes]; norm_num [BTREE_PAGE_SIZE])]
  unfold nodeSplit2
  rw [splitBadLeft_splitPos]
  rfl

theorem splitBadNode_limits : entriesWithinLimits splitBadNode := by
  intro e he
  simp only [splitBadNode, List.mem_cons, List.not_mem_nil, or_false] at he
  rcases he with he | he | he | he <;> subst he <;>
    constructor <;>
    simp only [List.length_replicate, List.length_cons, List.length_nil,
      BTREE_MAX_KEY_SIZE, BTREE_MAX_VAL_SIZE] <;>
    norm_num

/-- C4, counterexample: `splitBadNode` has 4 keys, all key/value sizes within
the limits, and encoded size `8190 ≤ 2 P`; yet `nodeSplit3` returns three
nodes whose first piece measures 4097 bytes, exceeding `P = 4096` (in the Go
code the assert `leftleft.nbytes() <= BTREE_PAGE_SIZE` fails).  So "size at
most 2P with at least 2 keys" does not guarantee that every piece fits. -/
theorem C4_counterexample :
    2 ≤ splitBadNode.nkeys ∧
    splitBadNode.nbytes ≤ 2 * BTREE_PAGE_SIZE ∧
    entriesWithinLimits splitBadNode ∧
    (nodeSplit3 splitBadNode).1 = 3 ∧
    ¬ (∀ piece ∈ (nodeSplit3 splitBadNode).2, piece.nbytes ≤ BTREE_PAGE_SIZE) := by
  refine ⟨by rw [splitBadNode_nkeys]; norm_num,
    by rw [splitBadNode_nbytes]; norm_num [BTREE_PAGE_SIZE],
    splitBadNode_limits,
    by rw [splitBadNode_split3],
    ?_⟩
  intro h
  have hm : splitBadPiece ∈ (nodeSplit3 splitBadNode).2 := by
    rw [splitBadNode_split3]
    exact List.mem_cons_self _ _
  have hple := h splitBadPiece hm
  rw [splitBadPiece_nbytes] at hple
  norm_num [BTREE_PAGE_SIZE] at hple

/-- C4 (amended): for every node with at least 2 keys when oversized, whose
entries respect the key/value size limits, and whose encoded size is at most
`8189` bytes (any node produced by a single insert is at most
`P + 4014 = 8110 ≤ 8189`; the unqualified bound `2 P = 8192` of the original
claim is refuted by `C4_counterexample`), `nodeSplit3` returns between 1 and
3 nodes, each of encoded size at most `P = 4096`, whose entry sequences
concatenated in order are exactly the entry sequence of the input node. -/
theorem C4_split3_amended (old : BNode)
    (hkeys : BTREE_PAGE_SIZE < old.nbytes → 2 ≤ old.nkeys)
    (hlim : entriesWithinLimits old)
    (hsz : old.nbytes ≤ 8189) :
    (1 ≤ (nodeSplit3 old).1 ∧ (nodeSplit3 old).1 ≤ 3) ∧
    (nodeSplit3 old).2.length = (nodeSplit3 old).1 ∧
    ((nodeSplit3 old).2.map BNode.entries).flatten = old.entries ∧
    ∀ piece ∈ (nodeSplit3 old).2, piece.nbytes ≤ BTREE_PAGE_SIZE := by
  obtain ⟨hflat, hlen, hone, hthree⟩ := nodeSplit3_partition old
  exact ⟨⟨hone, hthree⟩, hlen, hflat, nodeSplit3_fits old hkeys hlim hsz⟩

/-- An oversized node of 300 minimal entries (4204 bytes), genuinely split in
two by `nodeSplit3`. -/
def splitWitNode : BNode := ⟨BNODE_LEAF, List.replicate 300 defEntry⟩

set_option maxRecDepth 8000 in
theorem C4_split3_amended_witness :
    (1 ≤ (nodeSplit3 splitWitNode).1 ∧ (nodeSplit3 splitWitNode).1 ≤ 3) ∧
    (nodeSplit3 splitWitNode).2.length = (nodeSplit3 splitWitNode).1 ∧
    ((nodeSplit3 splitWitNode).2.map BNode.entries).flatten = splitWitNode.entries ∧
    ∀ piece ∈ (nodeSplit3 splitWitNode).2, piece.nbytes ≤ BTREE_PAGE_SIZE :=
  C4_split3_amended splitWitNode (by decide) (by decide) (by decide)

/-! ### The page store

`kv-store/test_btree.go` wires the tree's `get`/`new`/`del` callbacks to an
in-memory map `pages map[uint64]BNode`; `new` stores the node under a fresh
key (the slice address in Go, a fresh counter here) and `del` removes the
entry.  The map is modelled as an association list so that states remain
decidably comparable. -/

/-- Map lookup in the page table. -/
def pagesFind : List (Nat × BNode) → Nat → Option BNode
  | [], _ => none
  | pn :: rest, q => if q = pn.1 then some pn.2 else pagesFind rest q

/-- Map deletion in the page table. -/
def pagesDel : List (Nat × BNode) → Nat → List (Nat × BNode)
  | [], _ => []
  | pn :: rest, q =>
    if pn.1 = q then pagesDel rest q else pn :: pagesDel rest q

/-- The page store: table plus fresh-pointer counter (pointer 0 is the null
sentinel and never allocated). -/
structure Pages where
  tbl : List (Nat × BNode)
  next : Nat
  deriving Repr, DecidableEq

/-- `tree.get(ptr)` of the in-memory pager (asserts presence in Go). -/
def pageGet (pg : Pages) (ptr : Nat) : BNode :=
  (pagesFind pg.tbl ptr).getD ⟨0, []⟩

/-- `tree.new(node)`: store under a fresh pointer. -/
def pageNew (pg : Pages) (node : BNode) : Nat × Pages :=
  (pg.next, ⟨(pg.next, node) :: pg.tbl, pg.next + 1⟩)

/-- `tree.del(ptr)`: remove the page. -/
def pageDel (pg : Pages) (ptr : Nat) : Pages :=
  ⟨pagesDel pg.tbl ptr, pg.next⟩

/-- Errors of `checkLimit`
(`refactor_code/internal/storage/btree/operations.go:107`). -/
inductive BErr where
  | keyTooLarge
  | valTooLarge
  deriving Repr, DecidableEq

/-- `checkLimit(key, val)`. -/
def checkLimit (key val : List Nat) : Option BErr :=
  if BTREE_MAX_KEY_SIZE < key.length then some .keyTooLarge
  else if BTREE_MAX_VAL_SIZE < val.length then some .valTooLarge
  else none

/-- Allocate the kid nodes in order and form their parent entries
(`(tree.new(node), node.getKey(0), nil)`), as the loop in
`nodeReplaceKidN` does. -/
def allocKidEntries : Pages → List BNode → List Entry × Pages
  | pg, [] => ([], pg)
  | pg, k :: ks =>
    let np := pageNew pg k
    let rest := allocKidEntries np.2 ks
    (⟨np.1, k.getKey 0, []⟩ :: rest.1, rest.2)

/-- `nodeReplaceKidN(tree, new, old, idx, kids...)`: entry `idx` replaced by
one freshly allocated entry per kid
(`refactor_code/internal/storage/btree/operations.go:316`). -/
def nodeReplaceKidN (pg : Pages) (old : BNode) (idx : Nat) (kids : List BNode) :
    BNode × Pages :=
  let ae := allocKidEntries pg kids
  (⟨BNODE_NODE, old.entries.take idx ++ ae.1 ++ old.entries.drop (idx + 1)⟩, ae.2)

/-- `treeInsert(tree, node, key, val)`
(`refactor_code/internal/storage/btree/operations.go:326`), with the body of
`nodeInsert` (line 396) inlined in the internal-node case: fetch and
deallocate the kid, insert recursively, split the result up to three ways
and splice the pieces into the parent.  Fuel bounds the recursion depth
(the Go recursion descends one tree level per call). -/
def treeInsert : Nat → Pages → BNode → List Nat → List Nat → BNode × Pages
  | 0, pg, _, _, _ => (⟨0, []⟩, pg)
  | fuel + 1, pg, node, key, val =>
    let idx := nodeLookupLE node key
    if node.btype = BNODE_LEAF then
      if key = node.getKey idx then (leafUpdate node idx key val, pg)
      else (leafInsert node (idx + 1) key val, pg)
    else if node.btype = BNODE_NODE then
      let kptr := node.getPtr idx
      let knode := pageGet pg kptr
      let pg1 := pageDel pg kptr
      let ip := treeInsert fuel pg1 knode key val
      let ns := nodeSplit3 ip.1
      nodeReplaceKidN ip.2 node idx ns.2
    else (⟨0, []⟩, pg)

/-- A B+-tree handle: root pointer plus the pager state reached through the
`get`/`new`/`del` callbacks. -/
structure TreeState where
  root : Nat
  pg : Pages
  deriving Repr, DecidableEq

/-- `(*BTree).Insert(key, val)`
(`refactor_code/internal/storage/btree/operations.go:145`, identical in
`unnamed/part_000:139`): check limits, create the first leaf (sentinel entry
plus the new pair) on an empty tree, otherwise insert and grow the tree by
one level when the root splits. -/
def BTreeInsert (fuel : Nat) (st : TreeState) (key val : List Nat) :
    Option BErr × TreeState :=
  match checkLimit key val with
  | some e => (some e, st)
  | none =>
    if st.root = 0 then
      let firstRoot : BNode := ⟨BNODE_LEAF, [⟨0, [], []⟩, ⟨0, key, val⟩]⟩
      let np := pageNew st.pg firstRoot
      (none, ⟨np.1, np.2⟩)
    else
      let node := pageGet st.pg st.root
      let pg1 := pageDel st.pg st.root
      let ip := treeInsert fuel pg1 node key val
      let ns := nodeSplit3 ip.1
      if 1 < ns.1 then
        let ae := allocKidEntries ip.2 ns.2
        let np := pageNew ae.2 ⟨BNODE_NODE, ae.1⟩
        (none, ⟨np.1, np.2⟩)
      else
        let np := pageNew ip.2 (ns.2.headD ⟨0, []⟩)
        (none, ⟨np.1, np.2⟩)

/-- The loop body of `(*BTree).Get`
(`refactor_code/internal/storage/btree/operations.go:183`): at a leaf report
the entry if the key matches, at an internal node descend into the looked-up
child. -/
def treeGetNode : Nat → Pages → BNode → List Nat → Option (List Nat)
  | 0, _, _, _ => none
  | fuel + 1, pg, node, key =>
    let idx := nodeLookupLE node key
    if node.btype = BNODE_LEAF then
      if idx < node.nkeys ∧ node.getKey idx = key then some (node.getVal idx)
      else none
    else if node.btype = BNODE_NODE then
      treeGetNode fuel pg (pageGet pg (node.getPtr idx)) key
    else none

/-- `(*BTree).Get` of `refactor_code/internal/storage/btree/operations.go`:
descend from the root to a leaf. -/
def BTreeGet (fuel : Nat) (st : TreeState) (key : List Nat) : Option (List Nat) :=
  if st.root = 0 then none
  else treeGetNode fuel st.pg (pageGet st.pg st.root) key

/-- `(*BTree).Get` of `unnamed/part_000:177`: looks up ONLY the root node
(with its package's `nodeLookupLE`, `unnamed/part_001:494`) and never
descends into children. -/
def BTreeGetP0 (st : TreeState) (key : List Nat) : Option (List Nat) :=
  if st.root = 0 then none
  else
    let node := pageGet st.pg st.root
    let idx := nodeLookupLEv2 node key
    if idx < node.nkeys ∧ node.getKey idx = key then some (node.getVal idx)
    else none

/-! ### Delete -/

/-- `shouldMerge(tree, node, idx, updated)`
(`refactor_code/internal/storage/btree/operations.go:82`, identical in
`unnamed/part_001:121`): a merge candidate must be at most a quarter page;
try the left sibling then the right one, requiring the combined size
(minus one shared header) to fit on a page. -/
def shouldMerge (pg : Pages) (node : BNode) (idx : Nat) (updated : BNode) :
    Int × BNode :=
  if BTREE_PAGE_SIZE / 4 < updated.nbytes then (0, ⟨0, []⟩)
  else if 0 < idx ∧
      (pageGet pg (node.getPtr (idx - 1))).nbytes + updated.nbytes - HEADER
        ≤ BTREE_PAGE_SIZE then
    (-1, pageGet pg (node.getPtr (idx - 1)))
  else if idx + 1 < node.nkeys ∧
      (pageGet pg (node.getPtr (idx + 1))).nbytes + updated.nbytes - HEADER
        ≤ BTREE_PAGE_SIZE then
    (1, pageGet pg (node.getPtr (idx + 1)))
  else (0, ⟨0, []⟩)

/-- `treeDelete(tree, node, key)` of `unnamed/part_001:145`, with the body of
its `nodeDelete` (line 168) inlined into the internal-node case: recurse into
the kid; on success free the kid's old page, merge with a sibling when
`shouldMerge` says so, and otherwise either emit the parent with zero keys
(when the updated kid collapsed — the defensive branch of `unnamed/part_001`,
where `refactor_code`'s and `unnamed/part_000`'s `nodeDelete` instead assert
`updated.nkeys() > 0`), or splice the updated kid in place.  `none` models
the zero-length `BNode{}` "not found" sentinel. -/
def treeDeleteP1 : Nat → Pages → BNode → List Nat → Option BNode × Pages
  | 0, pg, _, _ => (none, pg)
  | fuel + 1, pg, node, key =>
    let idx := nodeLookupLEv2 node key
    if node.btype = BNODE_LEAF then
      if idx < node.nkeys ∧ node.getKey idx = key then
        (some (leafDelete node idx), pg)
      else (none, pg)
    else if node.btype = BNODE_NODE then
      let kptr := node.getPtr idx
      let td := treeDeleteP1 fuel pg (pageGet pg kptr) key
      match td.1 with
      | none => (none, td.2)
      | some updated =>
        let pg1 := pageDel td.2 kptr
        let sm := shouldMerge pg1 node idx updated
        if sm.1 < 0 then
          let merged := nodeMerge sm.2 updated
          let pg2 := pageDel pg1 (node.getPtr (idx - 1))
          let np := pageNew pg2 merged
          (some (nodeReplace2Kid node (idx - 1) np.1 (merged.getKey 0)), np.2)
        else if 0 < sm.1 then
          let merged := nodeMerge updated sm.2
          let pg2 := pageDel pg1 (node.getPtr (idx + 1))
          let np := pageNew pg2 merged
          (some (nodeReplace2Kid node idx np.1 (merged.getKey 0)), np.2)
        else if updated.nkeys = 0 then
          (some ⟨BNODE_NODE, []⟩, pg1)
        else
          let rk := nodeReplaceKidN pg1 node idx [updated]
          (some rk.1, rk.2)
    else (none, pg)

/-- `nodeDelete(tree, node, idx, key)` of `unnamed/part_001:168` as a
standalone function; `treeDeleteP1 (fuel+1)` on an internal node is exactly
`nodeDeleteP1 fuel` at the looked-up index (see
`treeDeleteP1_internal_eq`). -/
def nodeDeleteP1 (fuel : Nat) (pg : Pages) (node : BNode) (idx : Nat)
    (key : List Nat) : Option BNode × Pages :=
  let kptr := node.getPtr idx
  let td := treeDeleteP1 fuel pg (pageGet pg kptr) key
  match td.1 with
  | none => (none, td.2)
  | some updated =>
    let pg1 := pageDel td.2 kptr
    let sm := shouldMerge pg1 node idx updated
    if sm.1 < 0 then
      let merged := nodeMerge sm.2 updated
      let pg2 := pageDel pg1 (node.getPtr (idx - 1))
      let np := pageNew pg2 merged
      (some (nodeReplace2Kid node (idx - 1) np.1 (merged.getKey 0)), np.2)
    else if 0 < sm.1 then
      let merged := nodeMerge updated sm.2
      let pg2 := pageDel pg1 (node.getPtr (idx + 1))
      let np := pageNew pg2 merged
      (some (nodeReplace2Kid node idx np.1 (merged.getKey 0)), np.2)
    else if updated.nkeys = 0 then
      (some ⟨BNODE_NODE, []⟩, pg1)
    else
      let rk := nodeReplaceKidN pg1 node idx [updated]
      (some rk.1, rk.2)

theorem treeDeleteP1_internal_eq (fuel : Nat) (pg : Pages) (node : BNode)
    (key : List Nat) (hn : node.btype = BNODE_NODE) :
    treeDeleteP1 (fuel + 1) pg node key
      = nodeDeleteP1 fuel pg node (nodeLookupLEv2 node key) key := by
  unfold treeDeleteP1 nodeDeleteP1
  rw [if_neg (by rw [hn]; simp [BNODE_NODE, BNODE_LEAF]), if_pos hn]

/-- `(*BTree).Delete(key)` of `unnamed/part_001:54`: reports `KeyTooLarge`
as an error distinct from the boolean result; an emptied root drops the
whole tree (`tree.root = 0`). -/
def BTreeDeleteP1 (fuel : Nat) (st : TreeState) (key : List Nat) :
    (Bool × Option BErr) × TreeState :=
  if st.root = 0 then ((false, none), st)
  else
    match checkLimit key [] with
    | some e => ((false, some e), st)
    | none =>
      let td := treeDeleteP1 fuel st.pg (pageGet st.pg st.root) key
      match td.1 with
      | none => ((false, none), ⟨st.root, td.2⟩)
      | some node =>
        let pg1 := pageDel td.2 st.root
        if node.nkeys = 0 then ((true, none), ⟨0, pg1⟩)
        else
          let np := pageNew pg1 node
          ((true, none), ⟨np.1, np.2⟩)

/-- `treeDelete` as used by `unnamed/part_000` (its package's variant):
identical to `treeDeleteP1` except that the no-merge case does not handle a
collapsed kid specially — `unnamed/part_000:64` asserts `updated.nkeys() > 0`
(a Go panic when violated) and always splices the kid in place. -/
def treeDeleteP0 : Nat → Pages → BNode → List Nat → Option BNode × Pages
  | 0, pg, _, _ => (none, pg)
  | fuel + 1, pg, node, key =>
    let idx := nodeLookupLEv2 node key
    if node.btype = BNODE_LEAF then
      if key = node.getKey idx then (some (leafDelete node idx), pg)
      else (none, pg)
    else if node.btype = BNODE_NODE then
      let kptr := node.getPtr idx
      let td := treeDeleteP0 fuel pg (pageGet pg kptr) key
      match td.1 with
      | none => (none, td.2)
      | some updated =>
        let pg1 := pageDel td.2 kptr
        let sm := shouldMerge pg1 node idx updated
        if sm.1 < 0 then
          let merged := nodeMerge sm.2 updated
          let pg2 := pageDel pg1 (node.getPtr (idx - 1))
          let np := pageNew pg2 merged
          (some (nodeReplace2Kid node (idx - 1) np.1 (merged.getKey 0)), np.2)
        else if 0 < sm.1 then
          let merged := nodeMerge updated sm.2
          let pg2 := pageDel pg1 (node.getPtr (idx + 1))
          let np := pageNew pg2 merged
          (some (nodeReplace2Kid node idx np.1 (merged.getKey 0)), np.2)
        else
          let rk := nodeReplaceKidN pg1 node idx [updated]
          (some rk.1, rk.2)
    else (none, pg)

/-- `(*BTree).Delete(key)` of `unnamed/part_000:110`: returns ONLY a boolean;
an oversized key yields `false`, indistinguishable from an absent key.  The
root handler promotes a single-child internal root. -/
def BTreeDeleteP0 (fuel : Nat) (st : TreeState) (key : List Nat) :
    Bool × TreeState :=
  if st.root = 0 then (false, st)
  else
    match checkLimit key [] with
    | some _ => (false, st)
    | none =>
      let td := treeDeleteP0 fuel st.pg (pageGet st.pg st.root) key
      match td.1 with
      | none => (false, ⟨st.root, td.2⟩)
      | some updated =>
        let pg1 := pageDel td.2 st.root
        if updated.btype = BNODE_NODE ∧ updated.nkeys = 1 then
          (true, ⟨updated.getPtr 0, pg1⟩)
        else
          let np := pageNew pg1 updated
          (true, ⟨np.1, np.2⟩)

/-! ### Concrete states for the Get/Delete evaluations -/

/-- A fresh tree: null root, empty page table, first pointer 1. -/
def emptyTreeState : TreeState := ⟨0, ⟨[], 1⟩⟩

/-- Two-byte big-endian keys, ordered like the naturals below 65536. -/
def c1Key (i : Nat) : List Nat := [i / 256, i % 256]

/-- A 40-byte value: inserting 80 of these overflows one leaf page and forces
a root split. -/
def c1Val : List Nat := List.replicate 40 7

/-- The tree after inserting keys `c1Key 0 .. c1Key 79`, each bound to
`c1Val`, into an empty tree: the root is an internal node over two leaves. -/
def c1State : TreeState :=
  (List.range 80).foldl
    (fun st i => (BTreeInsert 10 st (c1Key i) c1Val).2) emptyTreeState

set_option maxRecDepth 200000 in
/-- C1, code bug in `unnamed/part_000`'s `Get`: after 80 inserts the tree
has an internal root; the key `c1Key 1`, inserted and never deleted, is
found (with the value of its most recent insert) by the descending `Get` of
`refactor_code/internal/storage/btree/operations.go`, but `unnamed/part_000`'s
`Get` — which inspects only the root node — reports it absent. -/
theorem C1_get_descends_code_bug :
    (pageGet c1State.pg c1State.root).btype = BNODE_NODE ∧
    BTreeGet 10 c1State (c1Key 1) = some c1Val ∧
    BTreeGetP0 c1State (c1Key 1) = none := by decide

/-- A one-leaf tree holding the sentinel and the pair `([1], [42])`. -/
def c6State : TreeState := (BTreeInsert 10 emptyTreeState [1] [42]).2

set_option maxRecDepth 5000 in
/-- C6, code bug in `unnamed/part_000`'s `Delete`: a 1001-byte key must be
rejected with `KeyTooLarge` (spec §4.B and `unnamed/part_001:60`, which
returns the error), but `unnamed/part_000:116` swallows the `checkLimit`
error and returns the bare boolean `false` — precisely the value that also
answers a delete of an absent key, so the error outcome is not
distinguishable.  On in-limit keys both return `true` for a present key and
`false` for an absent one (shown here at the concrete state). -/
theorem C6_delete_key_too_large_code_bug :
    (BTreeDeleteP0 10 c6State (List.replicate 1001 0)).1 = false ∧
    (BTreeDeleteP0 10 c6State (List.replicate 1001 0)).2 = c6State ∧
    (BTreeDeleteP0 10 c6State [9]).1 = false ∧
    (BTreeDeleteP0 10 c6State [1]).1 = true ∧
    (BTreeDeleteP1 10 c6State (List.replicate 1001 0)).1
      = (false, some BErr.keyTooLarge) ∧
    (BTreeDeleteP1 10 c6State [9]).1 = (false, none) ∧
    (BTreeDeleteP1 10 c6State [1]).1 = (true, none) := by decide

/-- C5: in `unnamed/part_001`'s `nodeDelete`, when the recursive delete
returns an updated child with zero keys and `shouldMerge` chooses no merge,
then — provided the two potentially consulted sibling pages fit on a page,
as every persisted node does — the parent necessarily had exactly one child
(`nkeys = 1`, `idx = 0`); `nodeDelete` emits the parent as an internal node
with zero keys without failing; and when that parent is the root, `Delete`
detects the empty result, shrinks the tree (root pointer 0) and returns
`true` with no error. -/
theorem C5_collapsed_child_shrinks_root (fuel : Nat) (st : TreeState)
    (node updated : BNode) (idx : Nat) (key : List Nat) (pg2 : Pages)
    (hbt : node.btype = BNODE_NODE)
    (hidx : idx < node.nkeys)
    (hrec : treeDeleteP1 fuel st.pg (pageGet st.pg (node.getPtr idx)) key
      = (some updated, pg2))
    (hku : updated.nkeys = 0)
    (hnm : (shouldMerge (pageDel pg2 (node.getPtr idx)) node idx updated).1 = 0)
    (hsibL : 0 < idx →
      (pageGet (pageDel pg2 (node.getPtr idx)) (node.getPtr (idx - 1))).nbytes
        ≤ BTREE_PAGE_SIZE)
    (hsibR : idx + 1 < node.nkeys →
      (pageGet (pageDel pg2 (node.getPtr idx)) (node.getPtr (idx + 1))).nbytes
        ≤ BTREE_PAGE_SIZE)
    (hroot : st.root ≠ 0)
    (hrn : pageGet st.pg st.root = node)
    (hlim : checkLimit key [] = none)
    (hidxeq : idx = nodeLookupLEv2 node key) :
    node.nkeys = 1 ∧ idx = 0 ∧
    nodeDeleteP1 fuel st.pg node idx key
      = (some ⟨BNODE_NODE, []⟩, pageDel pg2 (node.getPtr idx)) ∧
    BTreeDeleteP1 (fuel + 1) st key
      = ((true, none), ⟨0, pageDel (pageDel pg2 (node.getPtr idx)) st.root⟩) := by
  -- the collapsed child encodes to the bare 4-byte header
  have hupd4 : updated.nbytes = 4 := by
    have hent : updated.entries = [] := List.length_eq_zero.mp hku
    rw [nbytes_eq_costSum, hent]
    simp
  -- no merge forces the absence of both siblings
  have hidx0 : idx = 0 := by
    by_contra hne
    have hpos : 0 < idx := Nat.pos_of_ne_zero hne
    unfold shouldMerge at hnm
    rw [if_neg (by rw [hupd4]; norm_num [BTREE_PAGE_SIZE]),
      if_pos ⟨hpos, by
        have := hsibL hpos
        unfold HEADER
        omega⟩] at hnm
    norm_num at hnm
  have hnk1 : node.nkeys = 1 := by
    by_contra hne
    have h2 : idx + 1 < node.nkeys := by omega
    unfold shouldMerge at hnm
    rw [if_neg (by rw [hupd4]; norm_num [BTREE_PAGE_SIZE]),
      if_neg (by rw [hidx0]; simp),
      if_pos ⟨h2, by
        have := hsibR h2
        unfold HEADER
        omega⟩] at hnm
    norm_num at hnm
  have hnd : nodeDeleteP1 fuel st.pg node idx key
      = (some ⟨BNODE_NODE, []⟩, pageDel pg2 (node.getPtr idx)) := by
    unfold nodeDeleteP1
    simp only [hrec]
    rw [if_neg (by rw [hnm]; norm_num), if_neg (by rw [hnm]; norm_num),
      if_pos hku]
  refine ⟨hnk1, hidx0, hnd, ?_⟩
  have htd : treeDeleteP1 (fuel + 1) st.pg (pageGet st.pg st.root) key
      = (some ⟨BNODE_NODE, []⟩, pageDel pg2 (node.getPtr idx)) := by
    rw [hrn, treeDeleteP1_internal_eq fuel st.pg node key hbt, ← hidxeq, hnd]
  unfold BTreeDeleteP1
  rw [if_neg (by simpa using hroot)]
  simp only [hlim, htd]
  simp [BNode.nkeys]

/-- Concrete scenario for `C5_collapsed_child_shrinks_root`: the root is an
internal node whose only child is a leaf holding one key; deleting that key
collapses the child, empties the root and shrinks the tree. -/
def c5Leaf : BNode := ⟨BNODE_LEAF, [⟨0, [5], [7]⟩]⟩

def c5Root : BNode := ⟨BNODE_NODE, [⟨1, [5], []⟩]⟩

def c5State : TreeState := ⟨2, ⟨[(1, c5Leaf), (2, c5Root)], 3⟩⟩

theorem C5_collapsed_child_shrinks_root_witness :
    c5Root.nkeys = 1 ∧ (0 : Nat) = 0 ∧
    nodeDeleteP1 1 c5State.pg c5Root 0 [5]
      = (some ⟨BNODE_NODE, []⟩, pageDel c5State.pg (c5Root.getPtr 0)) ∧
    BTreeDeleteP1 (1 + 1) c5State [5]
      = ((true, none),
         ⟨0, pageDel (pageDel c5State.pg (c5Root.getPtr 0)) c5State.root⟩) :=
  C5_collapsed_child_shrinks_root 1 c5State c5Root ⟨BNODE_LEAF, []⟩ 0 [5]
    c5State.pg (by decide) (by decide) (by decide) (by decide) (by decide)
    (by intro h; exact absurd h (by decide)) (by intro h; exact absurd h (by decide))
    (by decide) (by decide) (by decide) (by decide)

/-! ### Free list, reader registry and transaction layer

From `concurrent-reader-writer/define.go` and `transaction/define.go`. -/

/-- `FreeListData` (`concurrent-reader-writer/define.go:120`): head pointer,
cached node pointers (tail to head), cached total, and the tail-discard
offset. -/
structure FreeListData where
  head : Nat
  nodes : List Nat
  total : Nat
  offset : Nat
  deriving Repr, DecidableEq

/-- `FreeList` (`concurrent-reader-writer/define.go:130`): the data plus the
per-transaction `version`, `minReader` and `freed` fields (the page
callbacks are omitted — none of the modelled operations invoke them). -/
structure FreeList where
  fld : FreeListData
  version : Nat
  minReader : Nat
  freed : List Nat
  deriving Repr, DecidableEq

/-- `(*FreeList).Pop` (`concurrent-reader-writer/define.go:144`), marked
"Simplified implementation" in the source: it returns 0 when the cached
total is 0 and otherwise decrements the total and returns `fl.head` — it
never consults `fl.minReader` nor any per-entry version, and it returns the
head rather than a tail entry. -/
def FreeList.Pop (fl : FreeList) : Nat × FreeList :=
  if fl.fld.total = 0 then (0, fl)
  else (fl.fld.head, { fl with fld := { fl.fld with total := fl.fld.total - 1 } })

/-- A free list whose one entry cannot be version-safe: the minimum live
reader version is 0, so no tagged version `v` satisfies `v < 0`. -/
def c3FreeList : FreeList := ⟨⟨7, [7], 1, 0⟩, 9, 0, []⟩

/-- C3, code bug: `Pop`'s own comment promises "the removed pointer must not
be reachable by the minimum version reader" and a removal from the tail, but
the implementation ignores `minReader` entirely.  With `minReader = 0` no
tagged version can strictly precede the minimum reader version, so the claim
requires `Pop` to return the failure value 0 — yet it returns the head page
number 7. -/
theorem C3_pop_ignores_reader_versions_code_bug :
    c3FreeList.minReader = 0 ∧
    (∀ v : Nat, ¬ v < c3FreeList.minReader) ∧
    (FreeList.Pop c3FreeList).1 = 7 ∧
    (FreeList.Pop c3FreeList).1 ≠ 0 := by
  refine ⟨rfl, ?_, by decide, by decide⟩
  intro v
  rw [show c3FreeList.minReader = 0 from rfl]
  omega

/-- A registered reader (`KVReader`,
`concurrent-reader-writer/define.go:42`); only the captured version is
relevant to the modelled operations (the snapshot root, chunk list and heap
index are omitted). -/
structure KVReader where
  version : Nat
  deriving Repr, DecidableEq

/-- The KV store state (`concurrent-reader-writer/define.go:17`): tree root,
version, free-list data, flushed page count, mmap chunks (abstract chunk
identities) and the reader registry in heap-array order. -/
structure KVState where
  treeRoot : Nat
  version : Nat
  free : FreeListData
  pageFlushed : Nat
  mmapChunks : List Nat
  readers : List KVReader
  deriving Repr, DecidableEq

/-- A write transaction (`KVTX`, `transaction/define.go:10`): the fields
read and written by `Begin` and `Commit`. -/
structure KVTX where
  version : Nat
  mmapChunks : List Nat
  treeRoot : Nat
  free : FreeList
  nappend : Nat
  deriving Repr, DecidableEq

/-- `Begin(kv, tx)` (`transaction/define.go:30`): snapshot the version, mmap
chunks, root and free list; `minReader` is set to `kv.version` and then,
when the reader heap is nonempty, overwritten with `readers[0].version`. -/
def Begin (kv : KVState) : KVTX :=
  { version := kv.version
  , mmapChunks := kv.mmapChunks
  , treeRoot := kv.treeRoot
  , free :=
      { fld := kv.free
      , version := kv.version
      , minReader :=
          match kv.readers with
          | [] => kv.version
          | r :: _ => r.version
      , freed := [] }
  , nappend := 0 }

/-- The I/O steps `Commit` can perform. -/
inductive KVAction where
  | flushPages
  | fsync
  | storeMaster
  deriving Repr, DecidableEq

/-- `Commit(kv, tx)` (`transaction/define.go:61`).  `FlushPages` and
`StoreMaster` are stubs returning nil in the source
(`concurrent-reader-writer/define.go:210,215`); the two `Sync` calls may
fail, so their outcomes are parameters.  On the fast path (root unchanged)
nothing at all happens.  On the full path the flushed-page count, free list
and root are installed — and the version is NOT incremented: the line
`kv.version++` is commented out in the source (`transaction/define.go:82`).
A phase-1 fsync failure runs `rollbackTX` (`transaction/define.go:98`),
which sets the root to `tx.tree.root` and zeroes the flushed-page count. -/
def Commit (kv : KVState) (tx : KVTX) (sync1Ok sync2Ok : Bool) :
    KVState × Option String × List KVAction :=
  if kv.treeRoot = tx.treeRoot then (kv, none, [])
  else
    if ¬ sync1Ok then
      ({ kv with treeRoot := tx.treeRoot, pageFlushed := 0 },
        some "fsync", [.flushPages, .fsync])
    else
      let kv1 := { kv with
        pageFlushed := kv.pageFlushed + tx.nappend,
        free := tx.free.fld,
        treeRoot := tx.treeRoot }
      if ¬ sync2Ok then
        (kv1, some "fsync", [.flushPages, .fsync, .storeMaster, .fsync])
      else
        (kv1, none, [.flushPages, .fsync, .storeMaster, .fsync])

/-- C2, code bug: no execution of `Commit` changes the version counter — the
increment the spec requires (`version + 1` per successful write commit) is
commented out in the source.  In particular a successful commit with a
changed root (e.g. `treeRoot 1 → 2`, version 5) leaves the version at 5. -/
theorem C2_commit_version_unchanged_code_bug :
    (∀ (kv : KVState) (tx : KVTX) (s1 s2 : Bool),
      (Commit kv tx s1 s2).1.version = kv.version) ∧
    (Commit ⟨1, 5, ⟨0, [], 0, 0⟩, 3, [0], []⟩
        ⟨5, [0], 2, ⟨⟨0, [], 0, 0⟩, 5, 5, []⟩, 2⟩ true true).1.version = 5 := by
  constructor
  · intro kv tx s1 s2
    unfold Commit
    by_cases h : kv.treeRoot = tx.treeRoot
    · rw [if_pos h]
    · rw [if_neg h]
      by_cases h1 : s1 <;> by_cases h2 : s2 <;> simp [h1, h2]
  · decide

/-- C8: when the tree root at `Commit` equals the root captured at `Begin`,
`Commit` returns success immediately: no flush, no fsync, no master-page
write, and the store — root, version, free list, flushed page count, mmap
chunks, readers — is returned unchanged. -/
theorem C8_commit_fast_path_frame (kv : KVState) (tx : KVTX) (s1 s2 : Bool)
    (h : kv.treeRoot = tx.treeRoot) :
    Commit kv tx s1 s2 = (kv, none, []) := by
  unfold Commit
  rw [if_pos h]

theorem C8_commit_fast_path_frame_witness :
    Commit ⟨4, 9, ⟨1, [2], 1, 0⟩, 6, [0, 1], [⟨3⟩]⟩
        ⟨9, [0, 1], 4, ⟨⟨1, [2], 1, 0⟩, 9, 3, []⟩, 0⟩ true false
      = (⟨4, 9, ⟨1, [2], 1, 0⟩, 6, [0, 1], [⟨3⟩]⟩, none, []) :=
  C8_commit_fast_path_frame _ _ true false (by decide)

/-- The binary min-heap shape maintained by `container/heap` over
`ReaderList` (`concurrent-reader-writer/define.go:69`, `Less` compares
versions): each element is at most its children at array indices
`2i+1`, `2i+2`. -/
def IsMinHeap (l : List KVReader) : Prop :=
  ∀ i j : Fin l.length, (j.1 = 2 * i.1 + 1 ∨ j.1 = 2 * i.1 + 2) →
    (l.get i).version ≤ (l.get j).version

instance (l : List KVReader) : Decidable (IsMinHeap l) := by
  unfold IsMinHeap; infer_instance

theorem heap_root_le (l : List KVReader) (h : IsMinHeap l) (hn : 0 < l.length) :
    ∀ j : Fin l.length, (l.get ⟨0, hn⟩).version ≤ (l.get j).version := by
  suffices H : ∀ n (hn2 : n < l.length),
      (l.get ⟨0, hn⟩).version ≤ (l.get ⟨n, hn2⟩).version from fun j => H j.1 j.2
  intro n
  induction n using Nat.strong_induction_on with
  | _ n ih =>
    intro hn2
    match n with
    | 0 => exact le_refl _
    | m + 1 =>
      have hp : m / 2 < l.length := by omega
      have hrel : m + 1 = 2 * (m / 2) + 1 ∨ m + 1 = 2 * (m / 2) + 2 := by omega
      have h1 := h ⟨m / 2, hp⟩ ⟨m + 1, hn2⟩ hrel
      have h2 := ih (m / 2) (by omega) hp
      exact le_trans h2 h1

theorem heap_head_le (r : KVReader) (rest : List KVReader)
    (h : IsMinHeap (r :: rest)) : ∀ r2 ∈ r :: rest, r.version ≤ r2.version := by
  intro r2 hr2
  rcases List.mem_iff_get.mp hr2 with ⟨n, hget⟩
  have hroot := heap_root_le (r :: rest) h (by simp) n
  rw [hget] at hroot
  simpa using hroot

/-- A store with no registered readers, version 5. -/
def c7Empty : KVState := ⟨1, 5, ⟨0, [], 0, 0⟩, 0, [], []⟩

/-- C7, counterexample: with an empty reader registry, `Begin` captures
`min_reader_version = version` (here 5), not `version + 1` as the claim
states. -/
theorem C7_counterexample :
    c7Empty.readers = [] ∧
    (Begin c7Empty).free.minReader = c7Empty.version ∧
    (Begin c7Empty).free.minReader ≠ c7Empty.version + 1 := by decide

/-- C7 (amended): at `Begin`, when the reader registry satisfies the
min-heap invariant, the captured `min_reader_version` is the version of the
heap root `readers[0]`, which is the minimum version among all registered
readers; when the registry is empty it equals the current version (NOT
`version + 1` — see `C7_counterexample`). -/
theorem C7_begin_min_reader_amended (kv : KVState)
    (hheap : IsMinHeap kv.readers) :
    (kv.readers = [] → (Begin kv).free.minReader = kv.version) ∧
    (∀ r ∈ kv.readers, (Begin kv).free.minReader ≤ r.version) ∧
    (kv.readers ≠ [] → ∃ r ∈ kv.readers, (Begin kv).free.minReader = r.version) := by
  cases hl : kv.readers with
  | nil =>
    refine ⟨fun _ => ?_, ?_, ?_⟩
    · simp [Begin, hl]
    · intro r hr
      cases hr
    · intro hne
      exact absurd rfl hne
  | cons r rest =>
    rw [hl] at hheap
    have hmr : (Begin kv).free.minReader = r.version := by
      simp [Begin, hl]
    refine ⟨fun h => ?_, ?_, fun _ => ?_⟩
    · simp at h
    · intro r2 hr2
      rw [hmr]
      exact heap_head_le r rest hheap r2 hr2
    · exact ⟨r, List.mem_cons_self r rest, hmr⟩

/-- A store with three readers in heap order (versions 2, 5, 3). -/
def c7Heap : KVState := ⟨1, 9, ⟨0, [], 0, 0⟩, 0, [], [⟨2⟩, ⟨5⟩, ⟨3⟩]⟩

theorem C7_begin_min_reader_amended_witness :
    (c7Heap.readers = [] → (Begin c7Heap).free.minReader = c7Heap.version) ∧
    (∀ r ∈ c7Heap.readers, (Begin c7Heap).free.minReader ≤ r.version) ∧
    (c7Heap.readers ≠ [] →
      ∃ r ∈ c7Heap.readers, (Begin c7Heap).free.minReader = r.version) :=
  C7_begin_min_reader_amended c7Heap (by decide)

/-! ### Key/value contents of a tree

Machinery for the insert idempotence claim: the contents of a (sub)tree as
a sorted association list, and insertion into such a list. -/

/-- Insert-or-replace into a key-sorted association list: the reference
operation a copy-on-write insert implements on the tree's contents. -/
def listUpsert (key val : List Nat) : List (List Nat × List Nat) →
    List (List Nat × List Nat)
  | [] => [(key, val)]
  | p :: rest =>
    if bytesLt key p.1 then (key, val) :: p :: rest
    else if key = p.1 then (key, val) :: rest
    else p :: listUpsert key val rest

theorem listUpsert_idem (key val : List Nat) (l : List (List Nat × List Nat)) :
    listUpsert key val (listUpsert key val l) = listUpsert key val l := by
  induction l with
  | nil =>
    simp [listUpsert, bytesLt_irrefl]
  | cons p rest ih =>
    by_cases h1 : bytesLt key p.1
    · simp [listUpsert, h1, bytesLt_irrefl]
    · by_cases h2 : key = p.1
      · simp [listUpsert, h1, h2, bytesLt_irrefl]
      · simp [listUpsert, h1, h2, ih]

/-- `bytesCmp` totality: not greater and not equal means strictly less. -/
theorem bytesLt_of_ne_gt_ne {a b : List Nat}
    (h1 : bytesCmp a b ≠ .gt) (h2 : a ≠ b) : bytesLt a b := by
  rcases h : bytesCmp a b with _ | _ | _
  · exact h
  · exact absurd (bytesCmp_eq_iff.mp h) h2
  · exact absurd h h1

/-- When the first `c` keys are strictly below `key` and the rest strictly
above, `listUpsert` inserts exactly at position `c`. -/
theorem listUpsert_insert_point (key val : List Nat)
    (pairs : List (List Nat × List Nat)) (c : Nat)
    (hpre : ∀ p ∈ pairs.take c, bytesLt p.1 key)
    (hpost : ∀ p ∈ pairs.drop c, bytesLt key p.1) :
    listUpsert key val pairs = pairs.take c ++ (key, val) :: pairs.drop c := by
  induction pairs generalizing c with
  | nil => simp [listUpsert]
  | cons p rest ih =>
    cases c with
    | zero =>
      have hlt : bytesLt key p.1 := hpost p (List.mem_cons_self p rest)
      simp [listUpsert, hlt]
    | succ c2 =>
      have hp : bytesLt p.1 key := hpre p (by simp)
      have h1 : ¬ bytesLt key p.1 := bytesLt_asymm hp
      have h2 : key ≠ p.1 := by
        intro h
        subst h
        exact bytesLt_irrefl _ hp
      simp only [listUpsert, if_neg h1, if_neg h2, List.take_succ_cons,
        List.drop_succ_cons, List.cons_append, List.cons.injEq, true_and]
      exact ih c2 (fun q hq => hpre q (by simp [hq]))
        (fun q hq => hpost q (by simpa using hq))

/-- When the first `c` keys are strictly below `key` and the `c`-th key
equals `key`, `listUpsert` replaces position `c`. -/
theorem listUpsert_replace_point (key val : List Nat)
    (pairs : List (List Nat × List Nat)) (c : Nat)
    (hpre : ∀ p ∈ pairs.take c, bytesLt p.1 key)
    (hmid : ∃ q rest2, pairs.drop c = q :: rest2 ∧ q.1 = key) :
    listUpsert key val pairs = pairs.take c ++ (key, val) :: pairs.drop (c + 1) := by
  induction pairs generalizing c with
  | nil =>
    rcases hmid with ⟨q, rest2, habs, _⟩
    simp at habs
  | cons p rest ih =>
    cases c with
    | zero =>
      rcases hmid with ⟨q, rest2, heq, hq⟩
      simp only [List.drop_zero] at heq
      cases heq
      have h1 : ¬ bytesLt key p.1 := by
        rw [hq]
        exact bytesLt_irrefl key
      simp [listUpsert, h1, hq.symm]
      exact bytesLt_irrefl _
    | succ c2 =>
      have hp : bytesLt p.1 key := hpre p (by simp)
      have h1 : ¬ bytesLt key p.1 := bytesLt_asymm hp
      have h2 : key ≠ p.1 := by
        intro h
        subst h
        exact bytesLt_irrefl _ hp
      simp only [listUpsert, if_neg h1, if_neg h2, List.take_succ_cons,
        List.drop_succ_cons, List.cons_append, List.cons.injEq, true_and]
      exact ih c2 (fun q hq => hpre q (by simp [hq])) (by simpa using hmid)

/-- `listUpsert` preserves strictly-sorted keys. -/
theorem listUpsert_sorted (key val : List Nat) (l : List (List Nat × List Nat))
    (hs : List.Pairwise bytesLt (l.map Prod.fst)) :
    List.Pairwise bytesLt ((listUpsert key val l).map Prod.fst) := by
  induction l with
  | nil => simp [listUpsert]
  | cons p rest ih =>
    simp only [List.map_cons, List.pairwise_cons] at hs
    by_cases h1 : bytesLt key p.1
    · simp only [listUpsert, if_pos h1, List.map_cons, List.pairwise_cons]
      refine ⟨?_, hs.1, hs.2⟩
      intro b hb
      simp only [List.map_cons, List.mem_cons] at hb
      rcases hb with hb | hb
      · subst hb; exact h1
      · exact bytesLt_trans h1 (hs.1 b hb)
    · by_cases h2 : key = p.1
      · subst h2
        simp only [listUpsert, if_neg h1, eq_self_iff_true, if_true,
          List.map_cons, List.pairwise_cons]
        exact hs
      · simp only [listUpsert, if_neg h1, if_neg h2, List.map_cons,
          List.pairwise_cons]
        constructor
        · intro b hb
          simp only [List.mem_map] at hb
          rcases hb with ⟨q, hq, hqb⟩
          subst hqb
          -- q is either an old element of rest or the new (key, val) pair
          have hqmem : q.1 = key ∨ q.1 ∈ rest.map Prod.fst := by
            clear ih hs
            induction rest with
            | nil =>
              simp only [listUpsert, List.mem_singleton] at hq
              subst hq
              exact Or.inl rfl
            | cons r t ih2 =>
              by_cases hr1 : bytesLt key r.1
              · simp only [listUpsert, if_pos hr1, List.mem_cons] at hq
                rcases hq with hq | hq | hq
                · subst hq; exact Or.inl rfl
                · subst hq; exact Or.inr (by simp)
                · exact Or.inr (by simp [List.mem_map_of_mem Prod.fst hq])
              · by_cases hr2 : key = r.1
                · simp only [listUpsert, if_neg hr1, if_pos hr2,
                    List.mem_cons] at hq
                  rcases hq with hq | hq
                  · subst hq; exact Or.inl rfl
                  · exact Or.inr (by simp [List.mem_map_of_mem Prod.fst hq])
                · simp only [listUpsert, if_neg hr1, if_neg hr2,
                    List.mem_cons] at hq
                  rcases hq with hq | hq
                  · subst hq; exact Or.inr (by simp)
                  · rcases ih2 hq with h | h
                    · exact Or.inl h
                    · exact Or.inr (by simp [h])
          rcases hqmem with h | h
          · rw [h]
            exact bytesLt_of_ne_gt_ne (fun hgt => h1 (bytesCmp_gt_iff.mp hgt))
              (fun he => h2 he.symm)
          · exact hs.1 _ h
        · exact ih hs.2

/-- The number of entries whose key compares `≤` the search key. -/
def countLE (key : List Nat) : List Entry → Nat
  | [] => 0
  | e :: rest =>
    (if bytesCmp e.key key = .gt then 0 else 1) + countLE key rest

theorem countLE_le_length (key : List Nat) (l : List Entry) :
    countLE key l ≤ l.length := by
  induction l with
  | nil => simp [countLE]
  | cons e rest ih =>
    unfold countLE
    split <;> simp <;> omega

theorem countLE_eq_zero (key : List Nat) (l : List Entry)
    (h : ∀ e ∈ l, bytesCmp e.key key = .gt) : countLE key l = 0 := by
  induction l with
  | nil => rfl
  | cons e rest ih =>
    unfold countLE
    rw [if_pos (h e (by simp)), ih fun x hx => h x (by simp [hx])]

/-- On a strictly sorted entry list, the `nodeLookupLE` loop starting at
index `i` with accumulator `found` returns `found` when no remaining key is
`≤ key`, and `i + countLE - 1` otherwise. -/
theorem lookupLEFrom_sorted (key : List Nat) (rest : List Entry) (i found : Nat)
    (hs : List.Pairwise bytesLt (rest.map Entry.key)) :
    lookupLEFrom key rest i found =
      if countLE key rest = 0 then found else i + countLE key rest - 1 := by
  induction rest generalizing i found with
  | nil => simp [lookupLEFrom, countLE]
  | cons e rest ih =>
    simp only [List.map_cons, List.pairwise_cons] at hs
    unfold lookupLEFrom countLE
    rcases hcmp : bytesCmp e.key key with _ | _ | _
    · -- e.key < key
      rw [ih (i + 1) i hs.2]
      by_cases hz : countLE key rest = 0
      · simp [hz]
      · simp only [hz, if_false, if_neg hz]
        have h1 : ¬ ((if Ordering.lt = Ordering.gt then 0 else 1)
            + countLE key rest = 0) := by
          simp
        rw [if_neg h1]
        simp
        omega
    · -- e.key = key: all later keys are greater, so count is 1
      have heq : e.key = key := bytesCmp_eq_iff.mp hcmp
      have hz : countLE key rest = 0 := by
        apply countLE_eq_zero
        intro x hx
        apply bytesCmp_gt_iff.mpr
        rw [← heq]
        exact hs.1 x.key (List.mem_map_of_mem Entry.key hx)
      simp [hz]
    · -- e.key > key: all later keys are greater too, count 0
      have hz : countLE key rest = 0 := by
        apply countLE_eq_zero
        intro x hx
        apply bytesCmp_gt_iff.mpr
        have hgt : bytesLt key e.key := bytesCmp_gt_iff.mp hcmp
        exact bytesLt_trans hgt (hs.1 x.key (List.mem_map_of_mem Entry.key hx))
      simp [hz]

/-- On a strictly sorted node, `nodeLookupLE` returns the number of non-first
entries with key `≤ key` — i.e. with the sentinel convention `key(0) ≤ key`,
the greatest index whose key is `≤ key`. -/
theorem nodeLookupLE_sorted (node : BNode) (key : List Nat) (e0 : Entry)
    (rest : List Entry) (hent : node.entries = e0 :: rest)
    (hs : List.Pairwise bytesLt (node.entries.map Entry.key)) :
    nodeLookupLE node key = countLE key rest := by
  unfold nodeLookupLE
  rw [hent]
  simp only [List.drop_succ_cons, List.drop_zero]
  rw [hent] at hs
  simp only [List.map_cons, List.pairwise_cons] at hs
  rw [lookupLEFrom_sorted key rest 1 0 hs.2]
  by_cases hz : countLE key rest = 0
  · simp [hz]
  · rw [if_neg hz]
    omega

/-- Every entry in the `countLE` prefix of a sorted list has key `≤ key`,
and every entry beyond it has key `> key`. -/
theorem countLE_partition (key : List Nat) (l : List Entry)
    (hs : List.Pairwise bytesLt (l.map Entry.key)) :
    (∀ e ∈ l.take (countLE key l), bytesCmp e.key key ≠ .gt) ∧
    (∀ e ∈ l.drop (countLE key l), bytesLt key e.key) := by
  induction l with
  | nil => simp
  | cons e rest ih =>
    simp only [List.map_cons, List.pairwise_cons] at hs
    by_cases hgt : bytesCmp e.key key = .gt
    · have hz : countLE key (e :: rest) = 0 := by
        show (if bytesCmp e.key key = .gt then 0 else 1) + countLE key rest = 0
        rw [if_pos hgt, countLE_eq_zero key rest ?_]
        intro x hx
        apply bytesCmp_gt_iff.mpr
        exact bytesLt_trans (bytesCmp_gt_iff.mp hgt)
          (hs.1 x.key (List.mem_map_of_mem Entry.key hx))
      rw [hz]
      refine ⟨by simp, ?_⟩
      intro x hx
      simp only [List.drop_zero, List.mem_cons] at hx
      rcases hx with hx | hx
      · subst hx
        exact bytesCmp_gt_iff.mp hgt
      · exact bytesLt_trans (bytesCmp_gt_iff.mp hgt)
          (hs.1 x.key (List.mem_map_of_mem Entry.key hx))
    · have hc : countLE key (e :: rest) = countLE key rest + 1 := by
        show (if bytesCmp e.key key = .gt then 0 else 1) + countLE key rest
          = countLE key rest + 1
        rw [if_neg hgt]
        omega
      rw [hc]
      obtain ⟨ih1, ih2⟩ := ih hs.2
      refine ⟨?_, ?_⟩
      · intro x hx
        simp only [List.take_succ_cons, List.mem_cons] at hx
        rcases hx with hx | hx
        · subst hx; exact hgt
        · exact ih1 x hx
      · intro x hx
        simp only [List.drop_succ_cons] at hx
        exact ih2 x hx

/-! ### Height-indexed subtree invariants -/

/-- The key/value contents of a height-`h` subtree rooted at a node value:
a leaf (height 0) contributes its entries, an internal node concatenates its
children's contents in order. -/
def flattenN : Nat → Pages → BNode → List (List Nat × List Nat)
  | 0, _, node => node.entries.map fun e => (e.key, e.val)
  | h + 1, pg, node =>
    node.entries.flatMap fun e => flattenN h pg (pageGet pg e.ptr)

/-- The page numbers referenced (directly or transitively) by a height-`h`
subtree rooted at a node value. -/
def reachN : Nat → Pages → BNode → List Nat
  | 0, _, _ => []
  | h + 1, pg, node =>
    node.entries.flatMap fun e => e.ptr :: reachN h pg (pageGet pg e.ptr)

/-- Well-formed height-`h` subtree with every node on one page: correct type
tag, at least one key, size limits, page-size bound, strictly sorted keys,
and for internal nodes: empty values, present children that are themselves
well formed and whose first key is the parent separator. -/
def WFsub : Nat → Pages → BNode → Prop
  | 0, _, node =>
    node.btype = BNODE_LEAF ∧ 1 ≤ node.nkeys ∧ entriesWithinLimits node ∧
    node.nbytes ≤ BTREE_PAGE_SIZE ∧
    List.Pairwise bytesLt (node.entries.map Entry.key)
  | h + 1, pg, node =>
    node.btype = BNODE_NODE ∧ 1 ≤ node.nkeys ∧ entriesWithinLimits node ∧
    node.nbytes ≤ BTREE_PAGE_SIZE ∧
    List.Pairwise bytesLt (node.entries.map Entry.key) ∧
    ∀ e ∈ node.entries, e.val = [] ∧
      ∃ ch, pagesFind pg.tbl e.ptr = some ch ∧ WFsub h pg ch ∧
        ch.getKey 0 = e.key

/-- Like `WFsub` but the top node may be oversized up to `8189` bytes — the
state of a node freshly rebuilt by `treeInsert` before `nodeSplit3`. -/
def WFpre (h : Nat) (pg : Pages) (node : BNode) : Prop :=
  match h with
  | 0 =>
    node.btype = BNODE_LEAF ∧ 1 ≤ node.nkeys ∧ entriesWithinLimits node ∧
    node.nbytes ≤ 8189 ∧
    List.Pairwise bytesLt (node.entries.map Entry.key)
  | h + 1 =>
    node.btype = BNODE_NODE ∧ 1 ≤ node.nkeys ∧ entriesWithinLimits node ∧
    node.nbytes ≤ 8189 ∧
    List.Pairwise bytesLt (node.entries.map Entry.key) ∧
    ∀ e ∈ node.entries, e.val = [] ∧
      ∃ ch, pagesFind pg.tbl e.ptr = some ch ∧ WFsub h pg ch ∧
        ch.getKey 0 = e.key

/-- Pointer hygiene of a subtree: no duplicate references, and every
referenced page number is nonzero and below the allocation counter. -/
def reachOK (h : Nat) (pg : Pages) (node : BNode) : Prop :=
  (reachN h pg node).Nodup ∧ ∀ q ∈ reachN h pg node, 0 < q ∧ q < pg.next

/-- The subtree's contents are strictly sorted by key. -/
def flatSorted (h : Nat) (pg : Pages) (node : BNode) : Prop :=
  List.Pairwise bytesLt ((flattenN h pg node).map Prod.fst)

theorem WFsub_imp_WFpre (h : Nat) (pg : Pages) (node : BNode)
    (hwf : WFsub h pg node) : WFpre h pg node := by
  cases h with
  | zero =>
    obtain ⟨h1, h2, h3, h4, h5⟩ := hwf
    exact ⟨h1, h2, h3, by unfold BTREE_PAGE_SIZE at h4; omega, h5⟩
  | succ h2 =>
    obtain ⟨h1, h2, h3, h4, h5, h6⟩ := hwf
    exact ⟨h1, h2, h3, by unfold BTREE_PAGE_SIZE at h4; omega, h5, h6⟩

theorem WFpre_imp_WFsub (h : Nat) (pg : Pages) (node : BNode)
    (hwf : WFpre h pg node) (hsz : node.nbytes ≤ BTREE_PAGE_SIZE) :
    WFsub h pg node := by
  cases h with
  | zero =>
    obtain ⟨h1, h2, h3, _, h5⟩ := hwf
    exact ⟨h1, h2, h3, hsz, h5⟩
  | succ h2 =>
    obtain ⟨h1, h2, h3, _, h5, h6⟩ := hwf
    exact ⟨h1, h2, h3, hsz, h5, h6⟩

theorem WFpre_limits (h : Nat) (pg : Pages) (node : BNode)
    (hwf : WFpre h pg node) : entriesWithinLimits node := by
  cases h with
  | zero => exact hwf.2.2.1
  | succ h2 => exact hwf.2.2.1

/-- Two stores agreeing on a set of pages. -/
def agreeOn (pg pg2 : Pages) (S : List Nat) : Prop :=
  ∀ q ∈ S, pagesFind pg2.tbl q = pagesFind pg.tbl q

theorem flatMap_congr {α β : Type} (l : List α) (f g : α → List β)
    (h : ∀ x ∈ l, f x = g x) : l.flatMap f = l.flatMap g := by
  induction l with
  | nil => rfl
  | cons a t ih =>
    simp only [List.flatMap_cons]
    rw [h a (by simp), ih fun x hx => h x (by simp [hx])]

theorem reachN_congr (h : Nat) (pg pg2 : Pages) (node : BNode)
    (hag : agreeOn pg pg2 (reachN h pg node)) :
    reachN h pg2 node = reachN h pg node := by
  induction h generalizing node with
  | zero => rfl
  | succ h2 ih =>
    unfold reachN
    apply flatMap_congr
    intro e he
    have hptr : e.ptr ∈ reachN (h2 + 1) pg node := by
      unfold reachN
      exact List.mem_flatMap.mpr ⟨e, he, by simp⟩
    have hget : pageGet pg2 e.ptr = pageGet pg e.ptr := by
      unfold pageGet
      rw [hag e.ptr hptr]
    rw [hget]
    congr 1
    apply ih
    intro q hq
    apply hag
    unfold reachN
    exact List.mem_flatMap.mpr ⟨e, he, by simp [hq]⟩

theorem flattenN_congr (h : Nat) (pg pg2 : Pages) (node : BNode)
    (hag : agreeOn pg pg2 (reachN h pg node)) :
    flattenN h pg2 node = flattenN h pg node := by
  induction h generalizing node with
  | zero => rfl
  | succ h2 ih =>
    unfold flattenN
    apply flatMap_congr
    intro e he
    have hptr : e.ptr ∈ reachN (h2 + 1) pg node := by
      unfold reachN
      exact List.mem_flatMap.mpr ⟨e, he, by simp⟩
    have hget : pageGet pg2 e.ptr = pageGet pg e.ptr := by
      unfold pageGet
      rw [hag e.ptr hptr]
    rw [hget]
    apply ih
    intro q hq
    apply hag
    unfold reachN
    exact List.mem_flatMap.mpr ⟨e, he, by simp [hq]⟩

theorem WFsub_congr (h : Nat) (pg pg2 : Pages) (node : BNode)
    (hwf : WFsub h pg node)
    (hag : agreeOn pg pg2 (reachN h pg node)) :
    WFsub h pg2 node := by
  induction h generalizing node with
  | zero => exact hwf
  | succ h2 ih =>
    obtain ⟨h1, hk, hl, hsz, hso, hch⟩ := hwf
    refine ⟨h1, hk, hl, hsz, hso, ?_⟩
    intro e he
    obtain ⟨hv, ch, hfind, hwfc, hk0⟩ := hch e he
    have hptr : e.ptr ∈ reachN (h2 + 1) pg node := by
      unfold reachN
      exact List.mem_flatMap.mpr ⟨e, he, by simp⟩
    have hsub : agreeOn pg pg2 (reachN h2 pg ch) := by
      intro q hq
      apply hag
      unfold reachN
      refine List.mem_flatMap.mpr ⟨e, he, ?_⟩
      have hgq : pageGet pg e.ptr = ch := by
        unfold pageGet
        rw [hfind]
        rfl
      simp [hgq, hq]
    refine ⟨hv, ch, by rw [hag e.ptr hptr]; exact hfind, ih ch hwfc hsub, hk0⟩

theorem pagesFind_cons (pn : Nat × BNode) (rest : List (Nat × BNode)) (q : Nat) :
    pagesFind (pn :: rest) q = if q = pn.1 then some pn.2 else pagesFind rest q := rfl

theorem pagesDel_cons (pn : Nat × BNode) (rest : List (Nat × BNode)) (q : Nat) :
    pagesDel (pn :: rest) q
      = if pn.1 = q then pagesDel rest q else pn :: pagesDel rest q := rfl

theorem pagesFind_del (t : List (Nat × BNode)) (q r : Nat) :
    pagesFind (pagesDel t q) r = if r = q then none else pagesFind t r := by
  induction t with
  | nil =>
    show (none : Option BNode) = if r = q then none else none
    split <;> rfl
  | cons pn rest ih =>
    rw [pagesDel_cons]
    by_cases h1 : pn.1 = q
    · rw [if_pos h1, ih]
      by_cases h2 : r = q
      · rw [if_pos h2, if_pos h2]
      · rw [if_neg h2, if_neg h2, pagesFind_cons,
          if_neg (by rw [h1]; exact h2)]
    · rw [if_neg h1, pagesFind_cons, pagesFind_cons]
      by_cases h2 : r = pn.1
      · rw [if_pos h2, if_pos h2, if_neg (by rw [h2]; exact h1)]
      · rw [if_neg h2, if_neg h2, ih]

theorem pagesFind_new (pg : Pages) (node : BNode) (r : Nat) :
    pagesFind (pageNew pg node).2.tbl r
      = if r = pg.next then some node else pagesFind pg.tbl r := rfl

/-- `flattenN` and `reachN` ignore the type tag of the top node. -/
theorem flattenN_mk (h : Nat) (pg : Pages) (b b2 : Nat) (l : List Entry) :
    flattenN h pg ⟨b, l⟩ = flattenN h pg ⟨b2, l⟩ := by
  cases h <;> rfl

theorem reachN_mk (h : Nat) (pg : Pages) (b b2 : Nat) (l : List Entry) :
    reachN h pg ⟨b, l⟩ = reachN h pg ⟨b2, l⟩ := by
  cases h <;> rfl

theorem flattenN_entries_append (h : Nat) (pg : Pages) (b : Nat)
    (l1 l2 : List Entry) :
    flattenN h pg ⟨b, l1 ++ l2⟩ = flattenN h pg ⟨b, l1⟩ ++ flattenN h pg ⟨b, l2⟩ := by
  cases h <;> simp [flattenN]

theorem reachN_entries_append (h : Nat) (pg : Pages) (b : Nat)
    (l1 l2 : List Entry) :
    reachN h pg ⟨b, l1 ++ l2⟩ = reachN h pg ⟨b, l1⟩ ++ reachN h pg ⟨b, l2⟩ := by
  cases h <;> simp [reachN]

theorem flattenN_zero_keys (pg : Pages) (node : BNode) :
    (flattenN 0 pg node).map Prod.fst = node.entries.map Entry.key := by
  unfold flattenN
  rw [List.map_map]
  rfl

theorem pairwise_take_drop {α : Type} {R : α → α → Prop} (l : List α) (n : Nat)
    (h : List.Pairwise R l) :
    ∀ x ∈ l.take n, ∀ y ∈ l.drop n, R x y := by
  have h2 : List.Pairwise R (l.take n ++ l.drop n) := by
    rw [List.take_append_drop]
    exact h
  exact (List.pairwise_append.mp h2).2.2

/-- Decompose a list around position `idx`. -/
theorem entries_decomp {α : Type} (l : List α) (idx : Nat) (d : α)
    (h : idx < l.length) :
    l = l.take idx ++ l.getD idx d :: l.drop (idx + 1) := by
  rw [List.getD_eq_getElem l d h, List.get_drop_eq_drop l idx h,
    List.take_append_drop]

theorem cost_le_of_kv {key val : List Nat} (ptr : Nat)
    (hk : key.length ≤ BTREE_MAX_KEY_SIZE) (hv : val.length ≤ BTREE_MAX_VAL_SIZE) :
    entryCost ⟨ptr, key, val⟩ = 14 + key.length + val.length ∧
    entryCost ⟨ptr, key, val⟩ ≤ 4014 := by
  unfold entryCost kvSize BTREE_MAX_KEY_SIZE BTREE_MAX_VAL_SIZE at *
  constructor <;> simp <;> omega

/-- In a key-sorted entry list, every entry strictly before position `idx`
has a key strictly below `l[idx]`'s key. -/
theorem sorted_take_lt (l : List Entry) (idx : Nat) (d : Entry)
    (hidx : idx < l.length)
    (hs : List.Pairwise bytesLt (l.map Entry.key)) :
    ∀ x ∈ l.take idx, bytesLt x.key (l.getD idx d).key := by
  intro x hx
  have h1 : x.key ∈ (l.map Entry.key).take idx := by
    rw [← List.map_take]
    exact List.mem_map_of_mem Entry.key hx
  have h2 : (l.getD idx d).key ∈ (l.map Entry.key).drop idx := by
    have hm : idx < (l.map Entry.key).length := by
      rw [List.length_map]
      exact hidx
    rw [← List.get_drop_eq_drop (l.map Entry.key) idx hm]
    have hg : (l.map Entry.key)[idx] = (l.getD idx d).key := by
      rw [List.getD_eq_getElem l d hidx]
      simp
    rw [hg]
    exact List.mem_cons_self _ _
  exact pairwise_take_drop (l.map Entry.key) idx hs x.key h1 _ h2

/-- A node whose encoded size exceeds one page holds at least two keys,
given the per-entry limits (a single limited entry costs at most
`4 + 4014` bytes). -/
theorem oversized_two_keys (u : BNode) (hlim : entriesWithinLimits u)
    (hsz : BTREE_PAGE_SIZE < u.nbytes) : 2 ≤ u.nkeys := by
  by_contra hlt
  have hle : u.entries.length ≤ 1 := by
    unfold BNode.nkeys at hlt
    omega
  have hnb := nbytes_eq_costSum u
  unfold BTREE_PAGE_SIZE at hsz
  cases hE : u.entries with
  | nil =>
    rw [hE] at hnb
    simp at hnb
    omega
  | cons e t =>
    rw [hE] at hle
    simp only [List.length_cons] at hle
    have ht : t = [] := List.eq_nil_of_length_eq_zero (by omega)
    subst ht
    rw [hE] at hnb
    simp at hnb
    have hm : e ∈ u.entries := by rw [hE]; simp
    have := entryCost_le_of_limits (hlim e hm).1 (hlim e hm).2
    omega

/-- The three possible piece lists of `nodeSplit3`: the node itself, a
two-way cut, or a three-way cut at interior positions. -/
theorem nodeSplit3_cases (u : BNode) (hlim : entriesWithinLimits u) :
    (nodeSplit3 u).2 = [u] ∨
    (∃ s, 1 ≤ s ∧ s < u.entries.length ∧
      (nodeSplit3 u).2
        = [⟨u.btype, u.entries.take s⟩, ⟨u.btype, u.entries.drop s⟩]) ∨
    (∃ s s2, 1 ≤ s2 ∧ s2 < s ∧ s < u.entries.length ∧
      (nodeSplit3 u).2
        = [⟨u.btype, u.entries.take s2⟩,
           ⟨u.btype, (u.entries.take s).drop s2⟩,
           ⟨u.btype, u.entries.drop s⟩]) := by
  unfold nodeSplit3 nodeSplit2
  by_cases h1 : u.nbytes ≤ BTREE_PAGE_SIZE
  · left
    rw [if_pos h1]
  · rw [if_neg h1]
    have h2 : 2 ≤ u.nkeys := oversized_two_keys u hlim (by omega)
    obtain ⟨hs1, hslt, -, -⟩ := splitPos_spec u h2 hlim
    have hsltl : splitPos u < u.entries.length := hslt
    simp only
    by_cases hfit : (BNode.mk u.btype (u.entries.take (splitPos u))).nbytes
        ≤ BTREE_PAGE_SIZE
    · right; left
      rw [if_pos hfit]
      exact ⟨splitPos u, hs1, hsltl, rfl⟩
    · right; right
      rw [if_neg hfit]
      have hlimL : entriesWithinLimits ⟨u.btype, u.entries.take (splitPos u)⟩ :=
        fun e he => hlim e (List.mem_of_mem_take he)
      have h2L : 2 ≤ (BNode.mk u.btype (u.entries.take (splitPos u))).nkeys :=
        oversized_two_keys _ hlimL (by omega)
      obtain ⟨hs1L, hsltL, -, -⟩ :=
        splitPos_spec ⟨u.btype, u.entries.take (splitPos u)⟩ h2L hlimL
      have hlenL : (BNode.mk u.btype (u.entries.take (splitPos u))).nkeys
          = splitPos u := by
        show (u.entries.take (splitPos u)).length = splitPos u
        rw [List.length_take]
        omega
      refine ⟨splitPos u, splitPos ⟨u.btype, u.entries.take (splitPos u)⟩,
        hs1L, by omega, hsltl, ?_⟩
      have htt : (u.entries.take (splitPos u)).take
          (splitPos ⟨u.btype, u.entries.take (splitPos u)⟩)
          = u.entries.take (splitPos ⟨u.btype, u.entries.take (splitPos u)⟩) := by
        rw [List.take_take, Nat.min_eq_left (by omega)]
      rw [htt]

/-- A nonempty contiguous slice of a well-formed (possibly oversized) node
that fits on a page is itself a well-formed subtree at the same height. -/
theorem WFsub_slice (h : Nat) (pg : Pages) (u : BNode)
    (pre slice post : List Entry)
    (hwf : WFpre h pg u) (hdec : u.entries = pre ++ (slice ++ post))
    (hne : slice ≠ [])
    (hsz : (BNode.mk u.btype slice).nbytes ≤ BTREE_PAGE_SIZE) :
    WFsub h pg ⟨u.btype, slice⟩ := by
  have hsub : slice.Sublist u.entries := by
    rw [hdec]
    exact (List.sublist_append_left slice post).trans
      (List.sublist_append_right pre (slice ++ post))
  have hmem : ∀ e ∈ slice, e ∈ u.entries := fun e he => hsub.subset he
  have hnk : 1 ≤ (BNode.mk u.btype slice).nkeys := by
    show 1 ≤ slice.length
    cases slice with
    | nil => exact absurd rfl hne
    | cons a t => simp
  cases h with
  | zero =>
    obtain ⟨hb, -, hl, -, hs⟩ := hwf
    exact ⟨hb, hnk, fun e he => hl e (hmem e he), hsz,
      hs.sublist (hsub.map Entry.key)⟩
  | succ h2 =>
    obtain ⟨hb, -, hl, -, hs, hch⟩ := hwf
    exact ⟨hb, hnk, fun e he => hl e (hmem e he), hsz,
      hs.sublist (hsub.map Entry.key), fun e he => hch e (hmem e he)⟩

/-- The contents list of a well-formed subtree is nonempty and starts with
the subtree's first key. -/
theorem flattenN_head (h : Nat) (pg : Pages) :
    ∀ node : BNode, WFsub h pg node →
      ∃ v t, flattenN h pg node = (node.getKey 0, v) :: t := by
  induction h with
  | zero =>
    intro node hwf
    obtain ⟨-, hnk, -, -, -⟩ := hwf
    obtain ⟨e0, rest, hent⟩ : ∃ e0 rest, node.entries = e0 :: rest := by
      cases hE : node.entries with
      | nil =>
        unfold BNode.nkeys at hnk
        rw [hE] at hnk
        simp at hnk
      | cons a b => exact ⟨a, b, rfl⟩
    refine ⟨e0.val, rest.map fun e => (e.key, e.val), ?_⟩
    show node.entries.map _ = _
    rw [hent, List.map_cons]
    have hk0 : node.getKey 0 = e0.key := by
      unfold BNode.getKey
      rw [hent]
      rfl
    rw [hk0]
  | succ h2 ih =>
    intro node hwf
    obtain ⟨-, hnk, -, -, -, hch⟩ := hwf
    obtain ⟨e0, rest, hent⟩ : ∃ e0 rest, node.entries = e0 :: rest := by
      cases hE : node.entries with
      | nil =>
        unfold BNode.nkeys at hnk
        rw [hE] at hnk
        simp at hnk
      | cons a b => exact ⟨a, b, rfl⟩
    obtain ⟨hv, ch, hfind, hwfc, hkc⟩ := hch e0 (by rw [hent]; simp)
    obtain ⟨v, t, hft⟩ := ih ch hwfc
    refine ⟨v, t ++ rest.flatMap fun e => flattenN h2 pg (pageGet pg e.ptr), ?_⟩
    show node.entries.flatMap _ = _
    rw [hent, List.flatMap_cons]
    have hg : pageGet pg e0.ptr = ch := by
      unfold pageGet
      rw [hfind]
      rfl
    have hk0 : node.getKey 0 = e0.key := by
      unfold BNode.getKey
      rw [hent]
      rfl
    rw [hg, hft, hkc, hk0]
    rfl

/-- Each separator key of an internal block appears among the keys of the
block's contents (it heads its child's contents). -/
theorem entryKey_mem_flattenBlock (h : Nat) (pg : Pages) (b : Nat)
    (l : List Entry)
    (hch : ∀ e ∈ l, ∃ ch, pagesFind pg.tbl e.ptr = some ch ∧
      WFsub h pg ch ∧ ch.getKey 0 = e.key) :
    ∀ e ∈ l, e.key ∈ (flattenN (h + 1) pg ⟨b, l⟩).map Prod.fst := by
  intro e he
  obtain ⟨ch, hfind, hwfc, hkc⟩ := hch e he
  obtain ⟨v, t, hft⟩ := flattenN_head h pg ch hwfc
  apply List.mem_map.mpr
  refine ⟨(e.key, v), ?_, rfl⟩
  show (e.key, v) ∈ l.flatMap fun e => flattenN h pg (pageGet pg e.ptr)
  refine List.mem_flatMap.mpr ⟨e, he, ?_⟩
  have hg : pageGet pg e.ptr = ch := by
    unfold pageGet
    rw [hfind]
    rfl
  rw [hg, hft, hkc]
  simp

/-- Each entry key of a well-formed node appears among the keys of its
contents. -/
theorem entryKey_mem_flatten (h : Nat) (pg : Pages) (u : BNode)
    (hwf : WFpre h pg u) :
    ∀ e ∈ u.entries, e.key ∈ (flattenN h pg u).map Prod.fst := by
  cases h with
  | zero =>
    intro e he
    rw [flattenN_zero_keys]
    exact List.mem_map_of_mem Entry.key he
  | succ h2 =>
    intro e he
    exact entryKey_mem_flattenBlock h2 pg u.btype u.entries
      (fun x hx => (hwf.2.2.2.2.2 x hx).2) e he

/-- `listUpsert` distributes over a suffix whose keys all exceed the
inserted key. -/
theorem listUpsert_append_gt (key val : List Nat)
    (L B : List (List Nat × List Nat))
    (hB : ∀ p ∈ B, bytesLt key p.1) :
    listUpsert key val (L ++ B) = listUpsert key val L ++ B := by
  induction L with
  | nil =>
    cases B with
    | nil => rfl
    | cons b t =>
      have hb : bytesLt key b.1 := hB b (by simp)
      simp [listUpsert, hb]
  | cons p L2 ih =>
    by_cases h1 : bytesLt key p.1
    · simp [listUpsert, h1]
    · by_cases h2 : key = p.1
      · simp [listUpsert, h1, h2, bytesLt_irrefl]
      · simp only [List.cons_append, listUpsert, if_neg h1, if_neg h2,
          List.cons.injEq, true_and]
        exact ih

/-- `listUpsert` passes over a prefix whose keys are all below the inserted
key. -/
theorem listUpsert_append_lt (key val : List Nat)
    (A M : List (List Nat × List Nat))
    (hA : ∀ p ∈ A, bytesLt p.1 key) :
    listUpsert key val (A ++ M) = A ++ listUpsert key val M := by
  induction A with
  | nil => simp
  | cons a A2 ih =>
    have ha : bytesLt a.1 key := hA a (by simp)
    have h1 : ¬ bytesLt key a.1 := bytesLt_asymm ha
    have h2 : key ≠ a.1 := by
      intro h
      subst h
      exact bytesLt_irrefl _ ha
    simp only [List.cons_append, listUpsert, if_neg h1, if_neg h2,
      List.cons.injEq, true_and]
    exact ih fun p hp => hA p (by simp [hp])

/-- Every key of the upsert result is the inserted key or an original key. -/
theorem listUpsert_keys_subset (key val : List Nat) :
    ∀ l : List (List Nat × List Nat), ∀ p ∈ listUpsert key val l,
      p.1 = key ∨ p.1 ∈ l.map Prod.fst := by
  intro l
  induction l with
  | nil =>
    intro p hp
    simp only [listUpsert, List.mem_singleton] at hp
    subst hp
    exact Or.inl rfl
  | cons q t ih =>
    intro p hp
    by_cases h1 : bytesLt key q.1
    · simp only [listUpsert, if_pos h1, List.mem_cons] at hp
      rcases hp with hp | hp | hp
      · subst hp; exact Or.inl rfl
      · subst hp; exact Or.inr (by simp)
      · exact Or.inr (by simp [List.mem_map_of_mem Prod.fst hp])
    · by_cases h2 : key = q.1
      · simp only [listUpsert, if_neg h1, if_pos h2, List.mem_cons] at hp
        rcases hp with hp | hp
        · subst hp; exact Or.inl rfl
        · exact Or.inr (by simp [List.mem_map_of_mem Prod.fst hp])
      · simp only [listUpsert, if_neg h1, if_neg h2, List.mem_cons] at hp
        rcases hp with hp | hp
        · subst hp; exact Or.inr (by simp)
        · rcases ih p hp with h | h
          · exact Or.inl h
          · exact Or.inr (by simp [h])

/-- Allocation of the split pieces: the counter advances by the number of
pieces, lookups outside the fresh range are untouched, the fresh pages hold
the pieces in order, and the produced entries are
`(fresh pointer, first key, nil)` in order. -/
theorem allocKidEntries_spec :
    ∀ (ks : List BNode) (pg : Pages),
    (allocKidEntries pg ks).2.next = pg.next + ks.length ∧
    (allocKidEntries pg ks).1
      = (List.range ks.length).map
          (fun j => ⟨pg.next + j, (ks.getD j ⟨0, []⟩).getKey 0, []⟩) ∧
    (∀ q, q < pg.next ∨ pg.next + ks.length ≤ q →
      pagesFind (allocKidEntries pg ks).2.tbl q = pagesFind pg.tbl q) ∧
    (∀ j, j < ks.length →
      pagesFind (allocKidEntries pg ks).2.tbl (pg.next + j)
        = some (ks.getD j ⟨0, []⟩)) := by
  intro ks
  induction ks with
  | nil =>
    intro pg
    refine ⟨by simp [allocKidEntries], by simp [allocKidEntries],
      fun q _ => rfl, fun j hj => absurd hj (by simp)⟩
  | cons k ks2 ih =>
    intro pg
    obtain ⟨ihn, ihe, ihf, ihg⟩ := ih ⟨(pg.next, k) :: pg.tbl, pg.next + 1⟩
    have hstep : allocKidEntries pg (k :: ks2)
        = (⟨pg.next, k.getKey 0, []⟩
            :: (allocKidEntries ⟨(pg.next, k) :: pg.tbl, pg.next + 1⟩ ks2).1,
          (allocKidEntries ⟨(pg.next, k) :: pg.tbl, pg.next + 1⟩ ks2).2) := rfl
    rw [hstep]
    refine ⟨?_, ?_, ?_, ?_⟩
    · show (allocKidEntries ⟨(pg.next, k) :: pg.tbl, pg.next + 1⟩ ks2).2.next
        = pg.next + (ks2.length + 1)
      rw [ihn]
      show pg.next + 1 + ks2.length = pg.next + (ks2.length + 1)
      omega
    · show ⟨pg.next, k.getKey 0, []⟩
          :: (allocKidEntries ⟨(pg.next, k) :: pg.tbl, pg.next + 1⟩ ks2).1
        = (List.range (ks2.length + 1)).map _
      rw [ihe, List.range_succ_eq_map, List.map_cons, List.map_map]
      refine congrArg₂ _ (by simp) ?_
      apply List.map_congr_left
      intro j hj
      show (⟨pg.next + 1 + j, (ks2.getD j ⟨0, []⟩).getKey 0, []⟩ : Entry)
        = ⟨pg.next + (j + 1), ((k :: ks2).getD (j + 1) ⟨0, []⟩).getKey 0, []⟩
      have h1 : pg.next + 1 + j = pg.next + (j + 1) := by omega
      rw [h1, List.getD_cons_succ]
    · intro q hq
      simp only [List.length_cons] at hq
      show pagesFind (allocKidEntries ⟨(pg.next, k) :: pg.tbl, pg.next + 1⟩
        ks2).2.tbl q = pagesFind pg.tbl q
      have hq2 : q < pg.next + 1 ∨ pg.next + 1 + ks2.length ≤ q := by omega
      rw [ihf q hq2]
      show (if q = pg.next then some k else pagesFind pg.tbl q)
        = pagesFind pg.tbl q
      rw [if_neg (by omega)]
    · intro j hj
      cases j with
      | zero =>
        show pagesFind (allocKidEntries ⟨(pg.next, k) :: pg.tbl, pg.next + 1⟩
          ks2).2.tbl (pg.next + 0) = some k
        have h0 : pg.next + 0 < pg.next + 1 ∨ pg.next + 1 + ks2.length
            ≤ pg.next + 0 := Or.inl (by omega)
        rw [ihf (pg.next + 0) h0]
        show (if pg.next + 0 = pg.next then some k else pagesFind pg.tbl
          (pg.next + 0)) = some k
        rw [if_pos (by omega)]
      | succ j2 =>
        have hj2 : j2 < ks2.length := by
          simp only [List.length_cons] at hj
          omega
        have := ihg j2 hj2
        show pagesFind (allocKidEntries ⟨(pg.next, k) :: pg.tbl, pg.next + 1⟩
          ks2).2.tbl (pg.next + (j2 + 1)) = some (ks2.getD j2 ⟨0, []⟩)
        have harith : pg.next + (j2 + 1) = pg.next + 1 + j2 := by omega
        rw [harith]
        exact this

/-- Mapping an indexed access over the index range is just mapping the
list. -/
theorem list_map_range_getD {α β : Type} (l : List α) (d : α) (f : α → β) :
    (List.range l.length).map (fun j => f (l.getD j d)) = l.map f := by
  apply List.ext_getElem
  · simp
  · intro j h1 h2
    have hj : j < l.length := by simpa using h2
    simp [List.getD_eq_getElem l d hj, List.getElem?_eq_getElem hj]

/-- `flattenN` of concatenated entry slices is the concatenation of the
slices' `flattenN`s. -/
theorem flattenN_concat_slices (h : Nat) (pg : Pages) (b : Nat) :
    ∀ ls : List (List Entry),
      flattenN h pg ⟨b, ls.flatten⟩
        = (ls.map fun l => flattenN h pg ⟨b, l⟩).flatten := by
  intro ls
  induction ls with
  | nil => cases h <;> rfl
  | cons l t ih =>
    rw [List.flatten_cons, flattenN_entries_append, ih, List.map_cons,
      List.flatten_cons]

/-- `reachN` of concatenated entry slices is the concatenation of the
slices' `reachN`s. -/
theorem reachN_concat_slices (h : Nat) (pg : Pages) (b : Nat) :
    ∀ ls : List (List Entry),
      reachN h pg ⟨b, ls.flatten⟩
        = (ls.map fun l => reachN h pg ⟨b, l⟩).flatten := by
  intro ls
  induction ls with
  | nil => cases h <;> rfl
  | cons l t ih =>
    rw [List.flatten_cons, reachN_entries_append, ih, List.map_cons,
      List.flatten_cons]

theorem flattenN_single (h : Nat) (pg : Pages) (b : Nat) (e : Entry) :
    flattenN (h + 1) pg ⟨b, [e]⟩ = flattenN h pg (pageGet pg e.ptr) := by
  simp [flattenN]

theorem reachN_single (h : Nat) (pg : Pages) (b : Nat) (e : Entry) :
    reachN (h + 1) pg ⟨b, [e]⟩ = e.ptr :: reachN h pg (pageGet pg e.ptr) := by
  simp [reachN]

/-- All keys and values in the contents of a well-formed subtree respect
the per-entry limits. -/
theorem flatten_keys_limits (h : Nat) (pg : Pages) :
    ∀ node : BNode, WFsub h pg node →
      ∀ p ∈ flattenN h pg node,
        p.1.length ≤ BTREE_MAX_KEY_SIZE ∧ p.2.length ≤ BTREE_MAX_VAL_SIZE := by
  induction h with
  | zero =>
    intro node hwf p hp
    obtain ⟨-, -, hlim, -, -⟩ := hwf
    obtain ⟨e, he, hpe⟩ := List.mem_map.mp hp
    rw [← hpe]
    exact hlim e he
  | succ h2 ih =>
    intro node hwf p hp
    obtain ⟨-, -, -, -, -, hch⟩ := hwf
    obtain ⟨e, he, hpe⟩ := List.mem_flatMap.mp hp
    obtain ⟨-, ch, hfind, hwfc, -⟩ := hch e he
    have hg : pageGet pg e.ptr = ch := by
      unfold pageGet
      rw [hfind]
      rfl
    rw [hg] at hpe
    exact ih ch hwfc p hpe

theorem flatMap_eq_flatten {α β : Type} (l : List α) (f : α → List β) :
    l.flatMap f = (l.map f).flatten := by
  induction l <;> simp [*]

theorem flatMap_map {α β γ : Type} (g : α → β) (F : β → List γ)
    (l : List α) : (l.map g).flatMap F = l.flatMap fun a => F (g a) := by
  induction l <;> simp [*]

/-- Interleaving fresh page numbers `base, base+1, …` with duplicate-free
blocks of smaller numbers yields a duplicate-free list. -/
theorem nodup_alloc_blocks :
    ∀ (Ks : List (List Nat)) (base : Nat),
      (∀ K ∈ Ks, ∀ q ∈ K, q < base) → Ks.flatten.Nodup →
      ((List.range Ks.length).flatMap
        (fun j => (base + j) :: Ks.getD j [])).Nodup := by
  intro Ks
  induction Ks with
  | nil =>
    intro base _ _
    simp
  | cons K Kt ih =>
    intro base hb hnd
    rw [List.flatten_cons, List.nodup_append] at hnd
    obtain ⟨hndK, hndKt, hdisjK⟩ := hnd
    have hmem : ∀ q ∈ (List.range Kt.length).flatMap
        (fun j => (base + 1 + j) :: Kt.getD j []),
        (base + 1 ≤ q) ∨ q ∈ Kt.flatten := by
      intro q hq
      obtain ⟨j, hj, hq2⟩ := List.mem_flatMap.mp hq
      rw [List.mem_range] at hj
      rcases List.mem_cons.mp hq2 with hq2 | hq2
      · exact Or.inl (by omega)
      · refine Or.inr (List.mem_flatten.mpr ⟨Kt.getD j [], ?_, hq2⟩)
        rw [List.getD_eq_getElem _ _ hj]
        exact List.getElem_mem _
    have hstep : (List.range (K :: Kt).length).flatMap
        (fun j => (base + j) :: (K :: Kt).getD j [])
        = ((base + 0) :: K)
          ++ (List.range Kt.length).flatMap
              (fun j => (base + 1 + j) :: Kt.getD j []) := by
      show (List.range (Kt.length + 1)).flatMap _ = _
      rw [List.range_succ_eq_map, List.flatMap_cons, flatMap_map]
      refine congrArg₂ _ rfl ?_
      apply flatMap_congr
      intro j hj
      show (base + (j + 1)) :: (K :: Kt).getD (j + 1) []
        = (base + 1 + j) :: Kt.getD j []
      rw [List.getD_cons_succ]
      have : base + (j + 1) = base + 1 + j := by omega
      rw [this]
    rw [hstep, List.nodup_append]
    refine ⟨?_, ?_, ?_⟩
    · rw [List.nodup_cons]
      refine ⟨?_, hndK⟩
      intro hmem0
      have := hb K (by simp) _ hmem0
      omega
    · exact ih (base + 1)
        (fun K2 hK2 q hq => by
          have := hb K2 (by simp [hK2]) q hq
          omega)
        hndKt
    · intro q hq1 hq2
      rcases hmem q hq2 with hge | hflt
      · rcases List.mem_cons.mp hq1 with hq1 | hq1
        · omega
        · have := hb K (by simp) q hq1
          omega
      · rcases List.mem_cons.mp hq1 with hq1 | hq1
        · subst hq1
          obtain ⟨K2, hK2, hqK2⟩ := List.mem_flatten.mp hflt
          have := hb K2 (by simp [hK2]) _ hqK2
          omega
        · exact hdisjK hq1 hflt

/-- Reachability is monotone in the entry list. -/
theorem reachN_mono_entries (h : Nat) (pg : Pages) (b b2 : Nat)
    (l1 l2 : List Entry) (hsub : ∀ e ∈ l1, e ∈ l2) :
    ∀ q ∈ reachN h pg ⟨b, l1⟩, q ∈ reachN h pg ⟨b2, l2⟩ := by
  cases h with
  | zero =>
    intro q hq
    cases hq
  | succ h2 =>
    intro q hq
    obtain ⟨e, he, hq2⟩ := List.mem_flatMap.mp hq
    exact List.mem_flatMap.mpr ⟨e, hsub e he, hq2⟩

theorem getD_zero_drop (l : List Entry) (s : Nat) (h : s < l.length) :
    (l.drop s).getD 0 defEntry = l.getD s defEntry := by
  rw [← List.get_drop_eq_drop l s h]
  rw [List.getD_eq_getElem l defEntry h]
  rfl

theorem getD_take (l : List Entry) (s i : Nat) (h : i < s) (h2 : i < l.length) :
    (l.take s).getD i defEntry = l.getD i defEntry := by
  have hlt : i < (l.take s).length := by
    rw [List.length_take]
    omega
  rw [List.getD_eq_getElem _ defEntry hlt, List.getD_eq_getElem l defEntry h2]
  simp [List.getElem_take]

/-- Strictly sorted keys compare strictly by index. -/
theorem sorted_key_lt (u : BNode)
    (hs : List.Pairwise bytesLt (u.entries.map Entry.key)) (i j : Nat)
    (hij : i < j) (hj : j < u.entries.length) :
    bytesLt (u.entries.getD i defEntry).key (u.entries.getD j defEntry).key := by
  have hi : i < u.entries.length := by omega
  have hi2 : i < (u.entries.map Entry.key).length := by
    rw [List.length_map]; omega
  have hj2 : j < (u.entries.map Entry.key).length := by
    rw [List.length_map]; omega
  have := (List.pairwise_iff_getElem.mp hs) i j hi2 hj2 hij
  rw [List.getD_eq_getElem _ _ hi, List.getD_eq_getElem _ _ hj]
  simpa using this

/-- The pieces produced by `nodeSplit3` on a well-formed (possibly oversized)
node: they carry exactly the original entries in order, are each well
formed and fit a page, the first piece keeps the node's first key, and their
first keys are strictly increasing keys of the original node. -/
theorem nodeSplit3_kids_spec (h : Nat) (pgu : Pages) (u : BNode)
    (hwf : WFpre h pgu u) :
    (((nodeSplit3 u).2.map BNode.entries).flatten = u.entries) ∧
    (nodeSplit3 u).2 ≠ [] ∧
    (∀ kid ∈ (nodeSplit3 u).2, WFsub h pgu kid) ∧
    ((nodeSplit3 u).2.headD ⟨0, []⟩).getKey 0 = u.getKey 0 ∧
    List.Pairwise bytesLt ((nodeSplit3 u).2.map fun kd => kd.getKey 0) ∧
    (∀ kid ∈ (nodeSplit3 u).2, kid.getKey 0 ∈ u.entries.map Entry.key) := by
  have hnk : 1 ≤ u.nkeys := by
    cases h with
    | zero => exact hwf.2.1
    | succ h3 => exact hwf.2.1
  have hlim : entriesWithinLimits u := by
    cases h with
    | zero => exact hwf.2.2.1
    | succ h3 => exact hwf.2.2.1
  have hsz : u.nbytes ≤ 8189 := by
    cases h with
    | zero => exact hwf.2.2.2.1
    | succ h3 => exact hwf.2.2.2.1
  have hsort : List.Pairwise bytesLt (u.entries.map Entry.key) := by
    cases h with
    | zero => exact hwf.2.2.2.2
    | succ h3 => exact hwf.2.2.2.2.1
  have hfits := nodeSplit3_fits u (fun h2 => oversized_two_keys u hlim h2)
    hlim hsz
  obtain ⟨e0, rest, hent⟩ : ∃ e0 rest, u.entries = e0 :: rest := by
    cases hE : u.entries with
    | nil =>
      unfold BNode.nkeys at hnk
      rw [hE] at hnk
      simp at hnk
    | cons a b => exact ⟨a, b, rfl⟩
  have hk0e : u.getKey 0 = e0.key := by
    unfold BNode.getKey
    rw [hent]
    rfl
  have hk0mem : u.getKey 0 ∈ u.entries.map Entry.key := by
    rw [hk0e, hent]
    simp
  have he00 : u.entries.getD 0 defEntry = e0 := by
    rw [hent]
    simp
  rcases nodeSplit3_cases u hlim with hc | ⟨s, hs1, hslt, hc⟩ |
      ⟨s, s2, hs21, hs2s, hslt, hc⟩
  · rw [hc]
    refine ⟨by simp, by simp, ?_, rfl, by simp, ?_⟩
    · intro kid hkid
      rw [List.mem_singleton] at hkid
      subst hkid
      exact WFpre_imp_WFsub h pgu _ hwf (hfits _ (by rw [hc]; simp))
    · intro kid hkid
      rw [List.mem_singleton] at hkid
      subst hkid
      exact hk0mem
  · -- two pieces: take s / drop s
    have hdecomp : u.entries = [] ++ (u.entries.take s ++ u.entries.drop s) := by
      simp
    have hdecomp2 : u.entries = u.entries.take s ++ (u.entries.drop s ++ []) := by
      simp
    have hLne : u.entries.take s ≠ [] := by
      apply List.ne_nil_of_length_pos
      rw [List.length_take]
      omega
    have hRne : u.entries.drop s ≠ [] := by
      apply List.ne_nil_of_length_pos
      rw [List.length_drop]
      omega
    have hLfit : (BNode.mk u.btype (u.entries.take s)).nbytes ≤ BTREE_PAGE_SIZE :=
      hfits _ (by rw [hc]; simp)
    have hRfit : (BNode.mk u.btype (u.entries.drop s)).nbytes ≤ BTREE_PAGE_SIZE :=
      hfits _ (by rw [hc]; simp)
    have hkL : (BNode.mk u.btype (u.entries.take s)).getKey 0 = e0.key := by
      show ((u.entries.take s).getD 0 defEntry).key = e0.key
      rw [getD_take u.entries s 0 (by omega) (by omega), ← hk0e]
      rfl
    have hkR : (BNode.mk u.btype (u.entries.drop s)).getKey 0
        = (u.entries.getD s defEntry).key := by
      show ((u.entries.drop s).getD 0 defEntry).key = _
      rw [getD_zero_drop u.entries s hslt]
    rw [hc]
    refine ⟨by simp, by simp, ?_, ?_, ?_, ?_⟩
    · intro kid hkid
      rcases List.mem_cons.mp hkid with hkid | hkid
      · subst hkid
        exact WFsub_slice h pgu u [] _ _ hwf hdecomp hLne hLfit
      · rw [List.mem_singleton] at hkid
        subst hkid
        exact WFsub_slice h pgu u _ _ [] hwf hdecomp2 hRne hRfit
    · show (BNode.mk u.btype (u.entries.take s)).getKey 0 = u.getKey 0
      rw [hkL, hk0e]
    · simp only [List.map_cons, List.map_nil, List.pairwise_cons,
        List.mem_cons, List.mem_singleton]
      refine ⟨?_, by simp, by simp⟩
      intro b hb
      rcases hb with hb | hb
      · subst hb
        rw [hkL, hkR]
        have := sorted_key_lt u hsort 0 s (by omega) hslt
        rw [he00] at this
        exact this
      · cases hb
    · intro kid hkid
      rcases List.mem_cons.mp hkid with hkid | hkid
      · subst hkid
        rw [hkL, ← hk0e]
        exact hk0mem
      · rw [List.mem_singleton] at hkid
        subst hkid
        rw [hkR]
        apply List.mem_map_of_mem
        rw [List.getD_eq_getElem _ _ hslt]
        exact List.getElem_mem hslt
  · -- three pieces: take s2 / middle / drop s
    have hlens : (u.entries.take s).length = s := by
      rw [List.length_take]
      omega
    have htt : (u.entries.take s).take s2 = u.entries.take s2 := by
      rw [List.take_take, Nat.min_eq_left (by omega)]
    have hmidsplit : u.entries.take s
        = u.entries.take s2 ++ (u.entries.take s).drop s2 := by
      conv_lhs => rw [← List.take_append_drop s2 (u.entries.take s)]
      rw [htt]
    have hdecomp1 : u.entries
        = [] ++ (u.entries.take s2 ++ ((u.entries.take s).drop s2
            ++ u.entries.drop s)) := by
      simp only [List.nil_append, ← List.append_assoc, ← hmidsplit,
        List.take_append_drop]
    have hdecomp2 : u.entries
        = u.entries.take s2 ++ ((u.entries.take s).drop s2
            ++ u.entries.drop s) := by
      simpa using hdecomp1
    have hdecomp3 : u.entries = u.entries.take s ++ (u.entries.drop s ++ []) := by
      simp
    have hL1ne : u.entries.take s2 ≠ [] := by
      apply List.ne_nil_of_length_pos
      rw [List.length_take]
      omega
    have hL2ne : (u.entries.take s).drop s2 ≠ [] := by
      apply List.ne_nil_of_length_pos
      rw [List.length_drop, hlens]
      omega
    have hRne : u.entries.drop s ≠ [] := by
      apply List.ne_nil_of_length_pos
      rw [List.length_drop]
      omega
    have hL1fit : (BNode.mk u.btype (u.entries.take s2)).nbytes
        ≤ BTREE_PAGE_SIZE := hfits _ (by rw [hc]; simp)
    have hL2fit : (BNode.mk u.btype ((u.entries.take s).drop s2)).nbytes
        ≤ BTREE_PAGE_SIZE := hfits _ (by rw [hc]; simp)
    have hRfit : (BNode.mk u.btype (u.entries.drop s)).nbytes
        ≤ BTREE_PAGE_SIZE := hfits _ (by rw [hc]; simp)
    have hkL1 : (BNode.mk u.btype (u.entries.take s2)).getKey 0 = e0.key := by
      show ((u.entries.take s2).getD 0 defEntry).key = e0.key
      rw [getD_take u.entries s2 0 (by omega) (by omega), ← hk0e]
      rfl
    have hkL2 : (BNode.mk u.btype ((u.entries.take s).drop s2)).getKey 0
        = (u.entries.getD s2 defEntry).key := by
      show (((u.entries.take s).drop s2).getD 0 defEntry).key = _
      rw [getD_zero_drop _ s2 (by rw [hlens]; omega),
        getD_take u.entries s s2 (by omega) (by omega)]
    have hkR : (BNode.mk u.btype (u.entries.drop s)).getKey 0
        = (u.entries.getD s defEntry).key := by
      show ((u.entries.drop s).getD 0 defEntry).key = _
      rw [getD_zero_drop u.entries s hslt]
    rw [hc]
    refine ⟨?_, by simp, ?_, ?_, ?_, ?_⟩
    · show u.entries.take s2 ++ ((u.entries.take s).drop s2
        ++ (u.entries.drop s ++ [])) = u.entries
      rw [List.append_nil]
      exact hdecomp2.symm
    · intro kid hkid
      rcases List.mem_cons.mp hkid with hkid | hkid
      · subst hkid
        exact WFsub_slice h pgu u [] _ _ hwf hdecomp1 hL1ne hL1fit
      · rcases List.mem_cons.mp hkid with hkid | hkid
        · subst hkid
          exact WFsub_slice h pgu u _ _ _ hwf hdecomp2 hL2ne hL2fit
        · rw [List.mem_singleton] at hkid
          subst hkid
          exact WFsub_slice h pgu u _ _ [] hwf hdecomp3 hRne hRfit
    · show (BNode.mk u.btype (u.entries.take s2)).getKey 0 = u.getKey 0
      rw [hkL1, hk0e]
    · simp only [List.map_cons, List.map_nil, List.pairwise_cons,
        List.mem_cons, List.mem_singleton]
      have h02 : bytesLt e0.key (u.entries.getD s2 defEntry).key := by
        have := sorted_key_lt u hsort 0 s2 (by omega) (by omega)
        rw [he00] at this
        exact this
      have h0s : bytesLt e0.key (u.entries.getD s defEntry).key := by
        have := sorted_key_lt u hsort 0 s (by omega) hslt
        rw [he00] at this
        exact this
      have h2s : bytesLt (u.entries.getD s2 defEntry).key
          (u.entries.getD s defEntry).key :=
        sorted_key_lt u hsort s2 s (by omega) hslt
      refine ⟨?_, ?_, by simp, by simp⟩
      · intro b hb
        rcases hb with hb | hb | hb
        · subst hb
          rw [hkL1, hkL2]
          exact h02
        · subst hb
          rw [hkL1, hkR]
          exact h0s
        · cases hb
      · intro b hb
        rcases hb with hb | hb
        · subst hb
          rw [hkL2, hkR]
          exact h2s
        · cases hb
    · intro kid hkid
      rcases List.mem_cons.mp hkid with hkid | hkid
      · subst hkid
        rw [hkL1, ← hk0e]
        exact hk0mem
      · rcases List.mem_cons.mp hkid with hkid | hkid
        · subst hkid
          rw [hkL2]
          apply List.mem_map_of_mem
          rw [List.getD_eq_getElem _ _ (by omega : s2 < u.entries.length)]
          exact List.getElem_mem _
        · rw [List.mem_singleton] at hkid
          subst hkid
          rw [hkR]
          apply List.mem_map_of_mem
          rw [List.getD_eq_getElem _ _ hslt]
          exact List.getElem_mem _

/-- The result of `treeInsert` on a well-formed height-`h` subtree: pages
outside the subtree are untouched, the allocation counter grows, the
returned node is well formed (possibly oversized, before splitting), its
contents are the upsert of the old contents, its references are fresh or
inherited and duplicate-free, and its first key is unchanged. -/
theorem treeInsert_spec :
    ∀ (h : Nat) (fuel : Nat) (pg : Pages) (node : BNode) (key val : List Nat)
      (node2 : BNode) (pg2 : Pages),
      h < fuel →
      0 < pg.next →
      WFsub h pg node →
      flatSorted h pg node →
      reachOK h pg node →
      key.length ≤ BTREE_MAX_KEY_SIZE →
      val.length ≤ BTREE_MAX_VAL_SIZE →
      bytesCmp (node.getKey 0) key ≠ .gt →
      treeInsert fuel pg node key val = (node2, pg2) →
      (∀ q, q < pg.next → q ∉ reachN h pg node →
        pagesFind pg2.tbl q = pagesFind pg.tbl q) ∧
      pg.next ≤ pg2.next ∧
      WFpre h pg2 node2 ∧
      flattenN h pg2 node2 = listUpsert key val (flattenN h pg node) ∧
      (∀ q ∈ reachN h pg2 node2,
        (q ∈ reachN h pg node ∨ pg.next ≤ q) ∧ 0 < q ∧ q < pg2.next) ∧
      (reachN h pg2 node2).Nodup ∧
      node2.getKey 0 = node.getKey 0 := by
  intro h
  induction h with
  | zero =>
    intro fuel pg node key val node2 pg2 hfuel hpos hwf hflat hreach hkey hval
      h0 heq
    obtain ⟨hbt, hnk, hlim, hsz, hsort⟩ := hwf
    obtain ⟨f, rfl⟩ : ∃ f, fuel = f + 1 := ⟨fuel - 1, by omega⟩
    simp only [treeInsert] at heq
    rw [if_pos hbt] at heq
    obtain ⟨e0, rest, hent⟩ : ∃ e0 rest, node.entries = e0 :: rest := by
      cases hE : node.entries with
      | nil =>
        unfold BNode.nkeys at hnk
        rw [hE] at hnk
        simp at hnk
      | cons a b => exact ⟨a, b, rfl⟩
    have hk0e : node.getKey 0 = e0.key := by
      unfold BNode.getKey
      rw [hent]
      rfl
    have hidx : nodeLookupLE node key = countLE key rest :=
      nodeLookupLE_sorted node key e0 rest hent hsort
    have hc0len : countLE key rest ≤ rest.length := countLE_le_length key rest
    have hlen : node.entries.length = rest.length + 1 := by rw [hent]; simp
    have hnkeq : node.nkeys = rest.length + 1 := by
      unfold BNode.nkeys
      exact hlen
    have hidxlt : countLE key rest < node.entries.length := by omega
    have hcfull : countLE key node.entries = countLE key rest + 1 := by
      rw [hent]
      show (if bytesCmp e0.key key = .gt then 0 else 1) + countLE key rest
        = countLE key rest + 1
      rw [if_neg (by rw [← hk0e]; exact h0)]
      omega
    obtain ⟨hpart1, hpart2⟩ := countLE_partition key node.entries hsort
    rw [hcfull] at hpart1 hpart2
    -- the entry at the lookup index
    have hgetc0 : node.getKey (countLE key rest)
        = (node.entries.getD (countLE key rest) defEntry).key := rfl
    have hdropc0 : node.entries.drop (countLE key rest)
        = node.entries.getD (countLE key rest) defEntry
          :: node.entries.drop (countLE key rest + 1) := by
      rw [List.getD_eq_getElem _ _ hidxlt]
      exact (List.get_drop_eq_drop _ _ hidxlt).symm
    have htakesucc : node.entries.take (countLE key rest + 1)
        = node.entries.take (countLE key rest)
          ++ [node.entries.getD (countLE key rest) defEntry] := by
      rw [List.take_succ, List.getElem?_eq_getElem hidxlt]
      rw [List.getD_eq_getElem _ _ hidxlt]
      rfl
    -- cost decomposition of the old node
    have hcostold : (node.entries.map entryCost).sum
        = ((node.entries.take (countLE key rest)).map entryCost).sum
          + entryCost (node.entries.getD (countLE key rest) defEntry)
          + ((node.entries.drop (countLE key rest + 1)).map entryCost).sum := by
      conv_lhs => rw [entries_decomp node.entries (countLE key rest) defEntry hidxlt]
      rw [List.map_append, List.sum_append]
      simp only [List.map_cons, List.sum_cons]
      omega
    have hnb := nbytes_eq_costSum node
    rw [hidx] at heq
    by_cases hcase : key = node.getKey (countLE key rest)
    · -- update path
      rw [if_pos hcase] at heq
      injection heq with hnode2 hpg2
      subst hnode2
      subst hpg2
      unfold leafUpdate
      -- elements strictly before the index are strictly below the key
      have hprelt : ∀ x ∈ node.entries.take (countLE key rest),
          bytesLt x.key key := by
        intro x hx
        have := sorted_take_lt node.entries (countLE key rest) defEntry hidxlt
          hsort x hx
        rw [← hgetc0, ← hcase] at this
        exact this
      -- flatten equality via the replace-point lemma
      have hpre : ∀ p ∈ ((node.entries.map fun e => (e.key, e.val)).take
          (countLE key rest)), bytesLt p.1 key := by
        intro p hp
        rw [← List.map_take] at hp
        obtain ⟨x, hx, hpx⟩ := List.mem_map.mp hp
        rw [← hpx]
        exact hprelt x hx
      have hmid : ∃ q rest2,
          (node.entries.map fun e => (e.key, e.val)).drop (countLE key rest)
            = q :: rest2 ∧ q.1 = key := by
        refine ⟨((node.entries.getD (countLE key rest) defEntry).key,
          (node.entries.getD (countLE key rest) defEntry).val),
          (node.entries.drop (countLE key rest + 1)).map
            (fun e => (e.key, e.val)), ?_, ?_⟩
        · rw [← List.map_drop, hdropc0]
          rfl
        · rw [← hgetc0, ← hcase]
      have hflat2 : flattenN 0 pg ⟨BNODE_LEAF,
          node.entries.take (countLE key rest)
            ++ ⟨0, key, val⟩ :: node.entries.drop (countLE key rest + 1)⟩
          = listUpsert key val (flattenN 0 pg node) := by
        show (node.entries.take (countLE key rest)
            ++ ⟨0, key, val⟩ :: node.entries.drop (countLE key rest + 1)).map
              (fun e => (e.key, e.val))
          = listUpsert key val (node.entries.map fun e => (e.key, e.val))
        rw [listUpsert_replace_point key val
          (node.entries.map fun e => (e.key, e.val)) (countLE key rest)
          hpre hmid]
        simp [List.map_take, List.map_drop]
      refine ⟨fun q _ _ => rfl, le_refl _, ?_, hflat2, ?_, ?_, ?_⟩
      · -- WFpre
        refine ⟨rfl, ?_, ?_, ?_, ?_⟩
        · show 1 ≤ (node.entries.take (countLE key rest)
            ++ ⟨0, key, val⟩ :: node.entries.drop (countLE key rest + 1)).length
          simp only [List.length_append, List.length_cons, List.length_take,
            List.length_drop]
          omega
        · intro x hx
          simp only [List.mem_append, List.mem_cons] at hx
          rcases hx with hx | hx | hx
          · exact hlim x (List.mem_of_mem_take hx)
          · subst hx
            exact ⟨hkey, hval⟩
          · exact hlim x (List.mem_of_mem_drop hx)
        · -- size bound
          rw [nbytes_eq_costSum]
          simp only [List.map_append, List.sum_append, List.map_cons,
            List.sum_cons]
          have hcnew := cost_le_of_kv 0 hkey hval
          unfold BTREE_PAGE_SIZE at hsz
          have hcold : 14 ≤ entryCost
              (node.entries.getD (countLE key rest) defEntry) := by
            unfold entryCost kvSize
            omega
          omega
        · -- sorted keys of the new leaf = keys of the upsert result
          have := listUpsert_sorted key val (flattenN 0 pg node) hflat
          rw [← hflat2] at this
          have hzk := flattenN_zero_keys pg
            ⟨BNODE_LEAF, node.entries.take (countLE key rest)
              ++ ⟨0, key, val⟩ :: node.entries.drop (countLE key rest + 1)⟩
          rw [hzk] at this
          exact this
      · intro q hq
        cases hq
      · show (reachN 0 pg _).Nodup
        exact List.nodup_nil
      · -- first key preserved
        cases hc : countLE key rest with
        | zero =>
          rw [hc] at hcase
          exact hcase
        | succ c2 =>
          show ((node.entries.take (c2 + 1)
            ++ ⟨0, key, val⟩ :: node.entries.drop (c2 + 1 + 1)).getD 0 defEntry).key
            = node.getKey 0
          rw [hent, List.take_succ_cons]
          exact hk0e.symm
    · -- insert path
      rw [if_neg hcase] at heq
      injection heq with hnode2 hpg2
      subst hnode2
      subst hpg2
      unfold leafInsert
      have hprelt : ∀ x ∈ node.entries.take (countLE key rest + 1),
          bytesLt x.key key := by
        intro x hx
        rw [htakesucc] at hx
        rcases List.mem_append.mp hx with hx | hx
        · have hlt := sorted_take_lt node.entries (countLE key rest) defEntry
            hidxlt hsort x hx
          have hle : bytesCmp (node.entries.getD (countLE key rest) defEntry).key
              key ≠ .gt := by
            apply hpart1
            rw [htakesucc]
            simp
          rcases hne : bytesCmp (node.entries.getD (countLE key rest) defEntry).key
              key with _ | _ | _
          · exact bytesLt_trans hlt hne
          · rw [bytesCmp_eq_iff.mp hne] at hlt
            exact hlt
          · exact absurd hne hle
        · simp only [List.mem_singleton] at hx
          subst hx
          apply bytesLt_of_ne_gt_ne
          · apply hpart1
            rw [htakesucc]
            simp
          · intro he
            exact hcase (hgetc0.trans he).symm
      have hpre : ∀ p ∈ ((node.entries.map fun e => (e.key, e.val)).take
          (countLE key rest + 1)), bytesLt p.1 key := by
        intro p hp
        rw [← List.map_take] at hp
        obtain ⟨x, hx, hpx⟩ := List.mem_map.mp hp
        rw [← hpx]
        exact hprelt x hx
      have hpost : ∀ p ∈ ((node.entries.map fun e => (e.key, e.val)).drop
          (countLE key rest + 1)), bytesLt key p.1 := by
        intro p hp
        rw [← List.map_drop] at hp
        obtain ⟨x, hx, hpx⟩ := List.mem_map.mp hp
        rw [← hpx]
        exact hpart2 x hx
      have hflat2 : flattenN 0 pg ⟨BNODE_LEAF,
          node.entries.take (countLE key rest + 1)
            ++ ⟨0, key, val⟩ :: node.entries.drop (countLE key rest + 1)⟩
          = listUpsert key val (flattenN 0 pg node) := by
        show (node.entries.take (countLE key rest + 1)
            ++ ⟨0, key, val⟩ :: node.entries.drop (countLE key rest + 1)).map
              (fun e => (e.key, e.val))
          = listUpsert key val (node.entries.map fun e => (e.key, e.val))
        rw [listUpsert_insert_point key val
          (node.entries.map fun e => (e.key, e.val)) (countLE key rest + 1)
          hpre hpost]
        simp [List.map_take, List.map_drop]
      refine ⟨fun q _ _ => rfl, le_refl _, ?_, hflat2, ?_, ?_, ?_⟩
      · refine ⟨rfl, ?_, ?_, ?_, ?_⟩
        · show 1 ≤ (node.entries.take (countLE key rest + 1)
            ++ ⟨0, key, val⟩ :: node.entries.drop (countLE key rest + 1)).length
          simp only [List.length_append, List.length_cons, List.length_take,
            List.length_drop]
          omega
        · intro x hx
          simp only [List.mem_append, List.mem_cons] at hx
          rcases hx with hx | hx | hx
          · exact hlim x (List.mem_of_mem_take hx)
          · subst hx
            exact ⟨hkey, hval⟩
          · exact hlim x (List.mem_of_mem_drop hx)
        · rw [nbytes_eq_costSum]
          simp only [List.map_append, List.sum_append, List.map_cons,
            List.sum_cons]
          have hcnew := cost_le_of_kv 0 hkey hval
          unfold BTREE_PAGE_SIZE at hsz
          have htsum : ((node.entries.take (countLE key rest + 1)).map
                entryCost).sum
              + ((node.entries.drop (countLE key rest + 1)).map entryCost).sum
              = (node.entries.map entryCost).sum :=
            costSum_take_add_drop node.entries (countLE key rest + 1)
          omega
        · have := listUpsert_sorted key val (flattenN 0 pg node) hflat
          rw [← hflat2] at this
          have hzk := flattenN_zero_keys pg
            ⟨BNODE_LEAF, node.entries.take (countLE key rest + 1)
              ++ ⟨0, key, val⟩ :: node.entries.drop (countLE key rest + 1)⟩
          rw [hzk] at this
          exact this
      · intro q hq
        cases hq
      · show (reachN 0 pg _).Nodup
        exact List.nodup_nil
      · show ((node.entries.take (countLE key rest + 1)
          ++ ⟨0, key, val⟩ :: node.entries.drop (countLE key rest + 1)).getD 0
            defEntry).key = node.getKey 0
        rw [hent, List.take_succ_cons]
        exact hk0e.symm
  | succ h2 ih =>
    intro fuel pg node key val node2 pg2 hfuel hpos hwf hflat hreach hkey hval
      h0 heq
    obtain ⟨hbt, hnk, hlim, hsz, hsort, hch⟩ := hwf
    obtain ⟨hnd, hbound⟩ := hreach
    obtain ⟨f, rfl⟩ : ∃ f, fuel = f + 1 := ⟨fuel - 1, by omega⟩
    simp only [treeInsert] at heq
    rw [if_neg (by rw [hbt]; decide), if_pos hbt] at heq
    obtain ⟨e0, rest, hent⟩ : ∃ e0 rest, node.entries = e0 :: rest := by
      cases hE : node.entries with
      | nil =>
        unfold BNode.nkeys at hnk
        rw [hE] at hnk
        simp at hnk
      | cons a b => exact ⟨a, b, rfl⟩
    have hk0e : node.getKey 0 = e0.key := by
      unfold BNode.getKey
      rw [hent]
      rfl
    have hidx : nodeLookupLE node key = countLE key rest :=
      nodeLookupLE_sorted node key e0 rest hent hsort
    have hc0len : countLE key rest ≤ rest.length := countLE_le_length key rest
    have hlen : node.entries.length = rest.length + 1 := by rw [hent]; simp
    have hidxlt : countLE key rest < node.entries.length := by omega
    have hcfull : countLE key node.entries = countLE key rest + 1 := by
      rw [hent]
      show (if bytesCmp e0.key key = .gt then 0 else 1) + countLE key rest
        = countLE key rest + 1
      rw [if_neg (by rw [← hk0e]; exact h0)]
      omega
    obtain ⟨hpart1, hpart2⟩ := countLE_partition key node.entries hsort
    rw [hcfull] at hpart1 hpart2
    have htakesucc : node.entries.take (countLE key rest + 1)
        = node.entries.take (countLE key rest)
          ++ [node.entries.getD (countLE key rest) defEntry] := by
      rw [List.take_succ, List.getElem?_eq_getElem hidxlt]
      rw [List.getD_eq_getElem _ _ hidxlt]
      rfl
    have hdecomp := entries_decomp node.entries (countLE key rest) defEntry hidxlt
    have heImem : node.entries.getD (countLE key rest) defEntry
        ∈ node.entries := by
      rw [List.getD_eq_getElem _ _ hidxlt]
      exact List.getElem_mem _
    obtain ⟨hvI, ch, hfind, hwfch, hkch⟩ := hch _ heImem
    have hgch : pageGet pg (node.getPtr (countLE key rest)) = ch := by
      unfold pageGet BNode.getPtr
      rw [hfind]
      rfl
    have hgch2 : pageGet pg
        (node.entries.getD (countLE key rest) defEntry).ptr = ch := hgch
    rw [hidx, hgch] at heq
    obtain ⟨u, pgu, hrec⟩ : ∃ u pgu,
        treeInsert f (pageDel pg (node.getPtr (countLE key rest))) ch key val
          = (u, pgu) := ⟨_, _, rfl⟩
    have hrec1 : (treeInsert f (pageDel pg (node.getPtr (countLE key rest)))
        ch key val).1 = u := by rw [hrec]
    have hrec2 : (treeInsert f (pageDel pg (node.getPtr (countLE key rest)))
        ch key val).2 = pgu := by rw [hrec]
    rw [hrec1, hrec2] at heq
    simp only [nodeReplaceKidN] at heq
    injection heq with hnode2 hpg2
    -- decompositions of the parent's reach and contents around the child
    have hmidreach : reachN (h2 + 1) pg ⟨node.btype,
        [node.entries.getD (countLE key rest) defEntry]⟩
        = (node.entries.getD (countLE key rest) defEntry).ptr
          :: reachN h2 pg ch := by
      rw [reachN_single, hgch2]
    have hmidflat : flattenN (h2 + 1) pg ⟨node.btype,
        [node.entries.getD (countLE key rest) defEntry]⟩
        = flattenN h2 pg ch := by
      rw [flattenN_single, hgch2]
    have hconsapp : (node.entries.getD (countLE key rest) defEntry
        :: node.entries.drop (countLE key rest + 1))
        = [node.entries.getD (countLE key rest) defEntry]
          ++ node.entries.drop (countLE key rest + 1) := rfl
    have hreachdec : reachN (h2 + 1) pg node
        = reachN (h2 + 1) pg
            ⟨node.btype, node.entries.take (countLE key rest)⟩
          ++ (((node.entries.getD (countLE key rest) defEntry).ptr
              :: reachN h2 pg ch)
            ++ reachN (h2 + 1) pg
                ⟨node.btype, node.entries.drop (countLE key rest + 1)⟩) := by
      have h1 : reachN (h2 + 1) pg node
          = reachN (h2 + 1) pg ⟨node.btype,
              node.entries.take (countLE key rest)
                ++ (node.entries.getD (countLE key rest) defEntry
                  :: node.entries.drop (countLE key rest + 1))⟩ := by
        rw [← hdecomp]
      rw [h1, hconsapp, reachN_entries_append, reachN_entries_append,
        hmidreach]
    have hflatdec : flattenN (h2 + 1) pg node
        = flattenN (h2 + 1) pg
            ⟨node.btype, node.entries.take (countLE key rest)⟩
          ++ (flattenN h2 pg ch
            ++ flattenN (h2 + 1) pg
                ⟨node.btype, node.entries.drop (countLE key rest + 1)⟩) := by
      have h1 : flattenN (h2 + 1) pg node
          = flattenN (h2 + 1) pg ⟨node.btype,
              node.entries.take (countLE key rest)
                ++ (node.entries.getD (countLE key rest) defEntry
                  :: node.entries.drop (countLE key rest + 1))⟩ := by
        rw [← hdecomp]
      rw [h1, hconsapp, flattenN_entries_append, flattenN_entries_append,
        hmidflat]
    -- hygiene facts from the parent's Nodup reach
    rw [hreachdec] at hnd hbound
    rw [List.nodup_append] at hnd
    obtain ⟨hndT, hnd2, hdisjT⟩ := hnd
    rw [List.nodup_append] at hnd2
    obtain ⟨hndM, hndD, hdisjMD⟩ := hnd2
    rw [List.nodup_cons] at hndM
    obtain ⟨hptrRch, hndRch⟩ := hndM
    have hbT : ∀ q ∈ reachN (h2 + 1) pg
        ⟨node.btype, node.entries.take (countLE key rest)⟩,
        0 < q ∧ q < pg.next := fun q hq => hbound q (by simp [hq])
    have hbRch : ∀ q ∈ reachN h2 pg ch, 0 < q ∧ q < pg.next :=
      fun q hq => hbound q (by simp [hq])
    have hbD : ∀ q ∈ reachN (h2 + 1) pg
        ⟨node.btype, node.entries.drop (countLE key rest + 1)⟩,
        0 < q ∧ q < pg.next := fun q hq => hbound q (by simp [hq])
    have hbkptr : 0 < (node.entries.getD (countLE key rest) defEntry).ptr
        ∧ (node.entries.getD (countLE key rest) defEntry).ptr < pg.next :=
      hbound _ (by simp)
    -- child invariants over the store with the child page freed
    have hagree1 : agreeOn pg
        (pageDel pg (node.getPtr (countLE key rest))) (reachN h2 pg ch) := by
      intro q hq
      show pagesFind (pagesDel pg.tbl (node.getPtr (countLE key rest))) q
        = pagesFind pg.tbl q
      rw [pagesFind_del]
      rw [if_neg ?_]
      intro hqe
      rw [hqe] at hq
      exact hptrRch hq
    have hwfch1 : WFsub h2 (pageDel pg (node.getPtr (countLE key rest))) ch :=
      WFsub_congr h2 pg _ ch hwfch hagree1
    have hreach1 : reachN h2 (pageDel pg (node.getPtr (countLE key rest))) ch
        = reachN h2 pg ch := reachN_congr h2 pg _ ch hagree1
    have hflatch1 : flattenN h2 (pageDel pg (node.getPtr (countLE key rest))) ch
        = flattenN h2 pg ch := flattenN_congr h2 pg _ ch hagree1
    have hflatP : List.Pairwise bytesLt
        ((flattenN (h2 + 1) pg node).map Prod.fst) := hflat
    rw [hflatdec] at hflatP
    rw [List.map_append, List.map_append, List.pairwise_append] at hflatP
    obtain ⟨hsFT, hflat2, hcrossT⟩ := hflatP
    rw [List.pairwise_append] at hflat2
    obtain ⟨hsFch, hsFD, hcrossChD⟩ := hflat2
    have hflatsorted1 : flatSorted h2
        (pageDel pg (node.getPtr (countLE key rest))) ch := by
      show List.Pairwise bytesLt _
      rw [hflatch1]
      exact hsFch
    have hreachOK1 : reachOK h2
        (pageDel pg (node.getPtr (countLE key rest))) ch := by
      refine ⟨by rw [hreach1]; exact hndRch, ?_⟩
      intro q hq
      rw [hreach1] at hq
      exact ⟨(hbRch q hq).1, (hbRch q hq).2⟩
    have hkeych : bytesCmp (ch.getKey 0) key ≠ .gt := by
      rw [hkch]
      exact hpart1 _ (by rw [htakesucc]; simp)
    have hpos1 : 0 < (pageDel pg (node.getPtr (countLE key rest))).next := hpos
    have hIH := ih f (pageDel pg (node.getPtr (countLE key rest))) ch key val
      u pgu (by omega) hpos1 hwfch1 hflatsorted1 hreachOK1 hkey hval hkeych hrec
    obtain ⟨ihframe, ihnext, ihwfpre, ihflat, ihreachm, ihnodup, ihkey0⟩ := hIH
    rw [hreach1] at ihframe ihreachm
    rw [hflatch1] at ihflat
    have hnext1 : (pageDel pg (node.getPtr (countLE key rest))).next
        = pg.next := rfl
    rw [hnext1] at ihnext ihframe ihreachm
    -- split pieces and their allocation
    obtain ⟨hkflat, hkne, hkwf, hkhead, hksort, hkmem⟩ :=
      nodeSplit3_kids_spec h2 pgu u ihwfpre
    obtain ⟨han, hae, haf, hag⟩ := allocKidEntries_spec (nodeSplit3 u).2 pgu
    -- the lookup chain for pages outside the touched subtree
    have hfind2 : ∀ q, q < pg.next → q ∉ reachN h2 pg ch →
        q ≠ (node.entries.getD (countLE key rest) defEntry).ptr →
        pagesFind (allocKidEntries pgu (nodeSplit3 u).2).2.tbl q
          = pagesFind pg.tbl q := by
      intro q hqlt hqch hqp
      rw [haf q (Or.inl (by omega))]
      rw [ihframe q (by omega) hqch]
      show pagesFind (pagesDel pg.tbl (node.getPtr (countLE key rest))) q
        = pagesFind pg.tbl q
      rw [pagesFind_del, if_neg (show ¬ q = node.getPtr (countLE key rest)
        from hqp)]
    have hagreeT : agreeOn pg (allocKidEntries pgu (nodeSplit3 u).2).2
        (reachN (h2 + 1) pg
          ⟨node.btype, node.entries.take (countLE key rest)⟩) := by
      intro q hq
      refine hfind2 q (hbT q hq).2 ?_ ?_
      · intro hqch
        exact hdisjT hq (by simp [hqch])
      · intro hqp
        exact hdisjT hq (by simp [hqp])
    have hagreeD : agreeOn pg (allocKidEntries pgu (nodeSplit3 u).2).2
        (reachN (h2 + 1) pg
          ⟨node.btype, node.entries.drop (countLE key rest + 1)⟩) := by
      intro q hq
      refine hfind2 q (hbD q hq).2 ?_ ?_
      · intro hqch
        exact hdisjMD (by simp [hqch]) hq
      · intro hqp
        exact hdisjMD (by simp [hqp]) hq
    subst hnode2
    subst hpg2
    -- the produced entry list and its basic properties
    obtain ⟨-, hlen23, hn1, hn3⟩ := nodeSplit3_partition u
    have hnlen : 1 ≤ (nodeSplit3 u).2.length := by omega
    have hnlen3 : (nodeSplit3 u).2.length ≤ 3 := by omega
    have hlenaes : (allocKidEntries pgu (nodeSplit3 u).2).1.length
        = (nodeSplit3 u).2.length := by
      rw [hae]
      simp
    have haeskeys : (allocKidEntries pgu (nodeSplit3 u).2).1.map Entry.key
        = (nodeSplit3 u).2.map fun kd => kd.getKey 0 := by
      rw [hae, List.map_map]
      exact list_map_range_getD (nodeSplit3 u).2 ⟨0, []⟩ fun kd => kd.getKey 0
    have haesmem : ∀ e ∈ (allocKidEntries pgu (nodeSplit3 u).2).1,
        ∃ j, j < (nodeSplit3 u).2.length ∧
          e = ⟨pgu.next + j,
            ((nodeSplit3 u).2.getD j ⟨0, []⟩).getKey 0, []⟩ := by
      intro e he
      rw [hae] at he
      obtain ⟨j, hj, hje⟩ := List.mem_map.mp he
      rw [List.mem_range] at hj
      exact ⟨j, hj, hje.symm⟩
    have hgetDmem : ∀ j, j < (nodeSplit3 u).2.length →
        (nodeSplit3 u).2.getD j ⟨0, []⟩ ∈ (nodeSplit3 u).2 := by
      intro j hj
      rw [List.getD_eq_getElem _ _ hj]
      exact List.getElem_mem _
    -- kid entries live inside `u`, so their reach lives inside `u`'s reach
    have hkidsub : ∀ kid ∈ (nodeSplit3 u).2, ∀ e ∈ kid.entries,
        e ∈ u.entries := by
      intro kid hkid e he
      rw [← hkflat]
      exact List.mem_flatten.mpr ⟨kid.entries,
        List.mem_map_of_mem BNode.entries hkid, he⟩
    have hkidreachsub : ∀ kid ∈ (nodeSplit3 u).2, ∀ q ∈ reachN h2 pgu kid,
        q ∈ reachN h2 pgu u := by
      intro kid hkid q hq
      exact reachN_mono_entries h2 pgu kid.btype u.btype kid.entries u.entries
        (hkidsub kid hkid) q hq
    have hagreekid : ∀ kid ∈ (nodeSplit3 u).2,
        agreeOn pgu (allocKidEntries pgu (nodeSplit3 u).2).2
          (reachN h2 pgu kid) := by
      intro kid hkid q hq
      have hqu := ihreachm q (hkidreachsub kid hkid q hq)
      exact haf q (Or.inl hqu.2.2)
    have hkid2 : ∀ kid ∈ (nodeSplit3 u).2,
        WFsub h2 (allocKidEntries pgu (nodeSplit3 u).2).2 kid :=
      fun kid hk => WFsub_congr h2 pgu _ kid (hkwf kid hk) (hagreekid kid hk)
    have hkidreach2 : ∀ kid ∈ (nodeSplit3 u).2,
        reachN h2 (allocKidEntries pgu (nodeSplit3 u).2).2 kid
          = reachN h2 pgu kid :=
      fun kid hk => reachN_congr h2 pgu _ kid (hagreekid kid hk)
    have hkidflat2 : ∀ kid ∈ (nodeSplit3 u).2,
        flattenN h2 (allocKidEntries pgu (nodeSplit3 u).2).2 kid
          = flattenN h2 pgu kid :=
      fun kid hk => flattenN_congr h2 pgu _ kid (hagreekid kid hk)
    have hpgget : ∀ j, j < (nodeSplit3 u).2.length →
        pageGet (allocKidEntries pgu (nodeSplit3 u).2).2 (pgu.next + j)
          = (nodeSplit3 u).2.getD j ⟨0, []⟩ := by
      intro j hj
      unfold pageGet
      rw [hag j hj]
      rfl
    -- total contents and reach of the pieces equal those of `u`
    have hkidsflat : flattenN h2 pgu u
        = ((nodeSplit3 u).2.map fun kd => flattenN h2 pgu kd).flatten := by
      have h1 : flattenN h2 pgu u = flattenN h2 pgu
          ⟨u.btype, ((nodeSplit3 u).2.map BNode.entries).flatten⟩ := by
        rw [hkflat]
      rw [h1, flattenN_concat_slices, List.map_map]
      refine congrArg List.flatten (List.map_congr_left ?_)
      intro kd _
      show flattenN h2 pgu ⟨u.btype, kd.entries⟩ = flattenN h2 pgu kd
      rw [flattenN_mk h2 pgu u.btype kd.btype]
    have hkidsreach : reachN h2 pgu u
        = ((nodeSplit3 u).2.map fun kd => reachN h2 pgu kd).flatten := by
      have h1 : reachN h2 pgu u = reachN h2 pgu
          ⟨u.btype, ((nodeSplit3 u).2.map BNode.entries).flatten⟩ := by
        rw [hkflat]
      rw [h1, reachN_concat_slices, List.map_map]
      refine congrArg List.flatten (List.map_congr_left ?_)
      intro kd _
      show reachN h2 pgu ⟨u.btype, kd.entries⟩ = reachN h2 pgu kd
      rw [reachN_mk h2 pgu u.btype kd.btype]
    -- contents and reach of the freshly allocated middle block
    have hflataes : flattenN (h2 + 1)
        (allocKidEntries pgu (nodeSplit3 u).2).2
        ⟨BNODE_NODE, (allocKidEntries pgu (nodeSplit3 u).2).1⟩
        = flattenN h2 pgu u := by
      have hcong : ∀ j ∈ List.range (nodeSplit3 u).2.length,
          flattenN h2 (allocKidEntries pgu (nodeSplit3 u).2).2
            (pageGet (allocKidEntries pgu (nodeSplit3 u).2).2 (pgu.next + j))
          = flattenN h2 pgu ((nodeSplit3 u).2.getD j ⟨0, []⟩) := by
        intro j hj
        rw [List.mem_range] at hj
        rw [hpgget j hj]
        exact hkidflat2 _ (hgetDmem j hj)
      show ((allocKidEntries pgu (nodeSplit3 u).2).1).flatMap
        (fun e => flattenN h2 (allocKidEntries pgu (nodeSplit3 u).2).2
          (pageGet (allocKidEntries pgu (nodeSplit3 u).2).2 e.ptr)) = _
      rw [hae, flatMap_map]
      rw [flatMap_congr _ _ _ hcong]
      rw [flatMap_eq_flatten, list_map_range_getD]
      exact hkidsflat.symm
    have hreachaes : reachN (h2 + 1) (allocKidEntries pgu (nodeSplit3 u).2).2
        ⟨BNODE_NODE, (allocKidEntries pgu (nodeSplit3 u).2).1⟩
        = (List.range (nodeSplit3 u).2.length).flatMap
            (fun j => (pgu.next + j)
              :: reachN h2 pgu ((nodeSplit3 u).2.getD j ⟨0, []⟩)) := by
      have hcong : ∀ j ∈ List.range (nodeSplit3 u).2.length,
          ((pgu.next + j)
            :: reachN h2 (allocKidEntries pgu (nodeSplit3 u).2).2
                (pageGet (allocKidEntries pgu (nodeSplit3 u).2).2
                  (pgu.next + j)))
          = (pgu.next + j)
            :: reachN h2 pgu ((nodeSplit3 u).2.getD j ⟨0, []⟩) := by
        intro j hj
        rw [List.mem_range] at hj
        rw [hpgget j hj, hkidreach2 _ (hgetDmem j hj)]
      show ((allocKidEntries pgu (nodeSplit3 u).2).1).flatMap
        (fun e => e.ptr
          :: reachN h2 (allocKidEntries pgu (nodeSplit3 u).2).2
              (pageGet (allocKidEntries pgu (nodeSplit3 u).2).2 e.ptr)) = _
      rw [hae, flatMap_map]
      exact flatMap_congr _ _ _ hcong
    have hmemRaes : ∀ q ∈ (List.range (nodeSplit3 u).2.length).flatMap
        (fun j => (pgu.next + j)
          :: reachN h2 pgu ((nodeSplit3 u).2.getD j ⟨0, []⟩)),
        (∃ j, j < (nodeSplit3 u).2.length ∧ q = pgu.next + j)
          ∨ q ∈ reachN h2 pgu u := by
      intro q hq
      obtain ⟨j, hj, hq2⟩ := List.mem_flatMap.mp hq
      rw [List.mem_range] at hj
      rcases List.mem_cons.mp hq2 with hq2 | hq2
      · exact Or.inl ⟨j, hj, hq2⟩
      · exact Or.inr (hkidreachsub _ (hgetDmem j hj) q hq2)
    -- key-ordering facts across the three blocks
    have hIcmp : bytesCmp
        (node.entries.getD (countLE key rest) defEntry).key key ≠ .gt :=
      hpart1 _ (by rw [htakesucc]; simp)
    obtain ⟨vch, tch, hFch⟩ := flattenN_head h2 pg ch hwfch
    rw [hkch] at hFch
    have hA : ∀ p ∈ flattenN (h2 + 1) pg
        ⟨node.btype, node.entries.take (countLE key rest)⟩,
        bytesLt p.1 key := by
      intro p hp
      have hy : (node.entries.getD (countLE key rest) defEntry).key
          ∈ (flattenN h2 pg ch).map Prod.fst
            ++ (flattenN (h2 + 1) pg
              ⟨node.btype,
                node.entries.drop (countLE key rest + 1)⟩).map Prod.fst := by
        rw [List.mem_append]
        left
        rw [hFch]
        simp
      have hlt := hcrossT p.1 (List.mem_map_of_mem Prod.fst hp) _ hy
      rcases hcmp : bytesCmp
          (node.entries.getD (countLE key rest) defEntry).key key
        with _ | _ | _
      · exact bytesLt_trans hlt hcmp
      · rw [← bytesCmp_eq_iff.mp hcmp]
        exact hlt
      · exact absurd hcmp hIcmp
    have hB : ∀ p ∈ flattenN (h2 + 1) pg
        ⟨node.btype, node.entries.drop (countLE key rest + 1)⟩,
        bytesLt key p.1 := by
      cases hD : node.entries.drop (countLE key rest + 1) with
      | nil =>
        intro p hp
        simp [flattenN] at hp
      | cons eJ0 D2 =>
        have hmemJ : eJ0 ∈ node.entries := by
          apply List.mem_of_mem_drop (n := countLE key rest + 1)
          rw [hD]
          simp
        obtain ⟨hvJ, chJ, hfindJ, hwfJ, hkJ⟩ := hch eJ0 hmemJ
        obtain ⟨vJ, tJ, hFJ⟩ := flattenN_head h2 pg chJ hwfJ
        rw [hkJ] at hFJ
        have hgJ : pageGet pg eJ0.ptr = chJ := by
          unfold pageGet
          rw [hfindJ]
          rfl
        have hFDdec : flattenN (h2 + 1) pg ⟨node.btype, eJ0 :: D2⟩
            = (eJ0.key, vJ)
              :: (tJ ++ flattenN (h2 + 1) pg ⟨node.btype, D2⟩) := by
          rw [show (eJ0 :: D2) = [eJ0] ++ D2 from rfl,
            flattenN_entries_append, flattenN_single, hgJ, hFJ]
          rfl
        have hkeyJ : bytesLt key eJ0.key := by
          apply hpart2
          rw [hD]
          simp
        intro p hp
        rw [hFDdec] at hp
        rcases List.mem_cons.mp hp with hp | hp
        · rw [hp]
          exact hkeyJ
        · have hsFD2 := hsFD
          rw [hD, hFDdec, List.map_cons, List.pairwise_cons] at hsFD2
          have := hsFD2.1 p.1 (List.mem_map_of_mem Prod.fst hp)
          exact bytesLt_trans hkeyJ this
    have hukeys : ∀ kk ∈ u.entries.map Entry.key,
        kk = key ∨ kk ∈ (flattenN h2 pg ch).map Prod.fst := by
      intro kk hkk
      obtain ⟨eu, heu, hkk2⟩ := List.mem_map.mp hkk
      subst hkk2
      have h1 := entryKey_mem_flatten h2 pgu u ihwfpre eu heu
      rw [ihflat] at h1
      obtain ⟨p, hp, hpk⟩ := List.mem_map.mp h1
      rcases listUpsert_keys_subset key val _ p hp with hx | hx
      · left
        rw [← hpk, hx]
      · right
        rw [← hpk]
        exact hx
    have hTkeys : ∀ e ∈ node.entries.take (countLE key rest),
        e.key ∈ (flattenN (h2 + 1) pg
          ⟨node.btype, node.entries.take (countLE key rest)⟩).map Prod.fst :=
      entryKey_mem_flattenBlock h2 pg node.btype _
        (fun x hx => (hch x (List.mem_of_mem_take hx)).2)
    have hDkeys : ∀ e ∈ node.entries.drop (countLE key rest + 1),
        e.key ∈ (flattenN (h2 + 1) pg
          ⟨node.btype,
            node.entries.drop (countLE key rest + 1)⟩).map Prod.fst :=
      entryKey_mem_flattenBlock h2 pg node.btype _
        (fun x hx => (hch x (List.mem_of_mem_drop hx)).2)
    have haeskeyP : ∀ e ∈ (allocKidEntries pgu (nodeSplit3 u).2).1,
        e.key = key ∨ e.key ∈ (flattenN h2 pg ch).map Prod.fst := by
      intro e he
      obtain ⟨j, hj, hje⟩ := haesmem e he
      subst hje
      exact hukeys _ (hkmem _ (hgetDmem j hj))
    have haeslim : ∀ e ∈ (allocKidEntries pgu (nodeSplit3 u).2).1,
        e.key.length ≤ BTREE_MAX_KEY_SIZE ∧ e.val = [] := by
      intro e he
      obtain ⟨j, hj, hje⟩ := haesmem e he
      refine ⟨?_, by rw [hje]⟩
      rcases haeskeyP e he with hx | hx
      · rw [hx]
        exact hkey
      · obtain ⟨p, hp, hpk⟩ := List.mem_map.mp hx
        rw [← hpk]
        exact (flatten_keys_limits h2 pg ch hwfch p hp).1
    -- contents and reach of the rebuilt parent
    have hflatTnew : flattenN (h2 + 1) (allocKidEntries pgu (nodeSplit3 u).2).2
        ⟨BNODE_NODE, node.entries.take (countLE key rest)⟩
        = flattenN (h2 + 1) pg
            ⟨node.btype, node.entries.take (countLE key rest)⟩ := by
      rw [flattenN_mk (h2 + 1) _ BNODE_NODE node.btype]
      exact flattenN_congr (h2 + 1) pg _ _ hagreeT
    have hflatDnew : flattenN (h2 + 1) (allocKidEntries pgu (nodeSplit3 u).2).2
        ⟨BNODE_NODE, node.entries.drop (countLE key rest + 1)⟩
        = flattenN (h2 + 1) pg
            ⟨node.btype, node.entries.drop (countLE key rest + 1)⟩ := by
      rw [flattenN_mk (h2 + 1) _ BNODE_NODE node.btype]
      exact flattenN_congr (h2 + 1) pg _ _ hagreeD
    have hreachTnew : reachN (h2 + 1) (allocKidEntries pgu (nodeSplit3 u).2).2
        ⟨BNODE_NODE, node.entries.take (countLE key rest)⟩
        = reachN (h2 + 1) pg
            ⟨node.btype, node.entries.take (countLE key rest)⟩ := by
      rw [reachN_mk (h2 + 1) _ BNODE_NODE node.btype]
      exact reachN_congr (h2 + 1) pg _ _ hagreeT
    have hreachDnew : reachN (h2 + 1) (allocKidEntries pgu (nodeSplit3 u).2).2
        ⟨BNODE_NODE, node.entries.drop (countLE key rest + 1)⟩
        = reachN (h2 + 1) pg
            ⟨node.btype, node.entries.drop (countLE key rest + 1)⟩ := by
      rw [reachN_mk (h2 + 1) _ BNODE_NODE node.btype]
      exact reachN_congr (h2 + 1) pg _ _ hagreeD
    have hflatnode2 : flattenN (h2 + 1)
        (allocKidEntries pgu (nodeSplit3 u).2).2
        ⟨BNODE_NODE, node.entries.take (countLE key rest)
          ++ (allocKidEntries pgu (nodeSplit3 u).2).1
          ++ node.entries.drop (countLE key rest + 1)⟩
        = flattenN (h2 + 1) pg
            ⟨node.btype, node.entries.take (countLE key rest)⟩
          ++ flattenN h2 pgu u
          ++ flattenN (h2 + 1) pg
              ⟨node.btype, node.entries.drop (countLE key rest + 1)⟩ := by
      rw [flattenN_entries_append, flattenN_entries_append, hflatTnew,
        hflataes, hflatDnew]
    have hreachnode2 : reachN (h2 + 1)
        (allocKidEntries pgu (nodeSplit3 u).2).2
        ⟨BNODE_NODE, node.entries.take (countLE key rest)
          ++ (allocKidEntries pgu (nodeSplit3 u).2).1
          ++ node.entries.drop (countLE key rest + 1)⟩
        = reachN (h2 + 1) pg
            ⟨node.btype, node.entries.take (countLE key rest)⟩
          ++ (List.range (nodeSplit3 u).2.length).flatMap
              (fun j => (pgu.next + j)
                :: reachN h2 pgu ((nodeSplit3 u).2.getD j ⟨0, []⟩))
          ++ reachN (h2 + 1) pg
              ⟨node.btype, node.entries.drop (countLE key rest + 1)⟩ := by
      rw [reachN_entries_append, reachN_entries_append, hreachTnew,
        hreachaes, hreachDnew]
    have hnext2 : (allocKidEntries pgu (nodeSplit3 u).2).2.next
        = pgu.next + (nodeSplit3 u).2.length := han
    refine ⟨?_, ?_, ?_, ?_, ?_, ?_, ?_⟩
    · -- frame
      intro q hqlt hqreach
      refine hfind2 q hqlt ?_ ?_
      · intro hqch
        exact hqreach (by rw [hreachdec]; simp [hqch])
      · intro hqp
        exact hqreach (by rw [hreachdec]; simp [hqp])
    · -- allocation counter grows
      rw [hnext2]
      omega
    · -- well-formedness of the rebuilt parent
      refine ⟨rfl, ?_, ?_, ?_, ?_, ?_⟩
      · show 1 ≤ (node.entries.take (countLE key rest)
          ++ (allocKidEntries pgu (nodeSplit3 u).2).1
          ++ node.entries.drop (countLE key rest + 1)).length
        simp only [List.length_append]
        rw [hlenaes]
        omega
      · intro x hx
        simp only [List.mem_append] at hx
        rcases hx with (hx | hx) | hx
        · exact hlim x (List.mem_of_mem_take hx)
        · obtain ⟨hkl, hv⟩ := haeslim x hx
          refine ⟨hkl, ?_⟩
          rw [hv]
          simp [BTREE_MAX_VAL_SIZE]
        · exact hlim x (List.mem_of_mem_drop hx)
      · rw [nbytes_eq_costSum]
        show 4 + ((node.entries.take (countLE key rest)
            ++ (allocKidEntries pgu (nodeSplit3 u).2).1
            ++ node.entries.drop (countLE key rest + 1)).map entryCost).sum
          ≤ 8189
        rw [List.map_append, List.map_append, List.sum_append, List.sum_append]
        have hcostold : (node.entries.map entryCost).sum
            = ((node.entries.take (countLE key rest)).map entryCost).sum
              + entryCost (node.entries.getD (countLE key rest) defEntry)
              + ((node.entries.drop (countLE key rest + 1)).map
                  entryCost).sum := by
          conv_lhs => rw [hdecomp]
          rw [List.map_append, List.sum_append]
          simp only [List.map_cons, List.sum_cons]
          omega
        have hnbold := nbytes_eq_costSum node
        have haescost : ((allocKidEntries pgu (nodeSplit3 u).2).1.map
            entryCost).sum
            ≤ 1014 * (allocKidEntries pgu (nodeSplit3 u).2).1.length := by
          apply costSum_le
          intro e he
          obtain ⟨hkl, hv⟩ := haeslim e he
          unfold entryCost kvSize
          rw [hv]
          unfold BTREE_MAX_KEY_SIZE at hkl
          simp
          omega
        rw [hlenaes] at haescost
        have hImin : 14 ≤ entryCost
            (node.entries.getD (countLE key rest) defEntry) := by
          unfold entryCost kvSize
          omega
        unfold BTREE_PAGE_SIZE at hsz
        omega
      · show List.Pairwise bytesLt ((node.entries.take (countLE key rest)
          ++ (allocKidEntries pgu (nodeSplit3 u).2).1
          ++ node.entries.drop (countLE key rest + 1)).map Entry.key)
        rw [List.map_append, List.map_append, List.pairwise_append,
          List.pairwise_append]
        refine ⟨⟨?_, ?_, ?_⟩, ?_, ?_⟩
        · exact hsort.sublist ((List.take_sublist _ _).map Entry.key)
        · rw [haeskeys]
          exact hksort
        · intro a ha b hb
          obtain ⟨ea, hea, hak⟩ := List.mem_map.mp ha
          obtain ⟨eb, heb, hbk⟩ := List.mem_map.mp hb
          rw [← hak, ← hbk]
          have haF := hTkeys ea hea
          obtain ⟨pa, hpa, hpak⟩ := List.mem_map.mp haF
          rcases haeskeyP eb heb with hbx | hbx
          · rw [hbx, ← hpak]
            exact hA pa hpa
          · exact hcrossT ea.key haF eb.key
              (by rw [List.mem_append]; exact Or.inl hbx)
        · exact hsort.sublist ((List.drop_sublist _ _).map Entry.key)
        · intro a ha b hb
          obtain ⟨eb, heb, hbk⟩ := List.mem_map.mp hb
          have hbF := hDkeys eb heb
          rw [← hbk]
          rcases List.mem_append.mp ha with ha | ha
          · obtain ⟨ea, hea, hak⟩ := List.mem_map.mp ha
            rw [← hak]
            exact hcrossT ea.key (hTkeys ea hea) eb.key
              (by rw [List.mem_append]; exact Or.inr hbF)
          · obtain ⟨ea, hea, hak⟩ := List.mem_map.mp ha
            rw [← hak]
            obtain ⟨pb, hpb, hpbk⟩ := List.mem_map.mp hbF
            rcases haeskeyP ea hea with hax | hax
            · rw [hax, ← hpbk]
              exact hB pb hpb
            · exact hcrossChD ea.key hax eb.key hbF
      · intro x hx
        simp only [List.mem_append] at hx
        rcases hx with (hx | hx) | hx
        · obtain ⟨hvx, chx, hfindx, hwfx, hkx⟩ :=
            hch x (List.mem_of_mem_take hx)
          have hgx : pageGet pg x.ptr = chx := by
            unfold pageGet
            rw [hfindx]
            rfl
          have hxptr : x.ptr ∈ reachN (h2 + 1) pg
              ⟨node.btype, node.entries.take (countLE key rest)⟩ :=
            List.mem_flatMap.mpr ⟨x, hx, by simp⟩
          have hsubx : ∀ q ∈ reachN h2 pg chx, q ∈ reachN (h2 + 1) pg
              ⟨node.btype, node.entries.take (countLE key rest)⟩ := by
            intro q hq
            exact List.mem_flatMap.mpr ⟨x, hx, by rw [hgx]; simp [hq]⟩
          refine ⟨hvx, chx, ?_, ?_, hkx⟩
          · rw [hagreeT x.ptr hxptr]
            exact hfindx
          · exact WFsub_congr h2 pg _ chx hwfx
              (fun q hq => hagreeT q (hsubx q hq))
        · obtain ⟨j, hj, hjx⟩ := haesmem x hx
          subst hjx
          exact ⟨rfl, (nodeSplit3 u).2.getD j ⟨0, []⟩, hag j hj,
            hkid2 _ (hgetDmem j hj), rfl⟩
        · obtain ⟨hvx, chx, hfindx, hwfx, hkx⟩ :=
            hch x (List.mem_of_mem_drop hx)
          have hgx : pageGet pg x.ptr = chx := by
            unfold pageGet
            rw [hfindx]
            rfl
          have hxptr : x.ptr ∈ reachN (h2 + 1) pg
              ⟨node.btype, node.entries.drop (countLE key rest + 1)⟩ :=
            List.mem_flatMap.mpr ⟨x, hx, by simp⟩
          have hsubx : ∀ q ∈ reachN h2 pg chx, q ∈ reachN (h2 + 1) pg
              ⟨node.btype, node.entries.drop (countLE key rest + 1)⟩ := by
            intro q hq
            exact List.mem_flatMap.mpr ⟨x, hx, by rw [hgx]; simp [hq]⟩
          refine ⟨hvx, chx, ?_, ?_, hkx⟩
          · rw [hagreeD x.ptr hxptr]
            exact hfindx
          · exact WFsub_congr h2 pg _ chx hwfx
              (fun q hq => hagreeD q (hsubx q hq))
    · -- contents are the upsert of the old contents
      rw [hflatnode2, ihflat, hflatdec]
      rw [listUpsert_append_lt key val _ _ hA]
      rw [listUpsert_append_gt key val _ _ hB]
      exact List.append_assoc _ _ _
    · -- reach membership and bounds
      intro q hq
      rw [hreachnode2] at hq
      rcases List.mem_append.mp hq with hq | hq
      · rcases List.mem_append.mp hq with hq | hq
        · refine ⟨Or.inl (by rw [hreachdec]; simp [hq]), (hbT q hq).1, ?_⟩
          have := (hbT q hq).2
          omega
        · rcases hmemRaes q hq with ⟨j, hj, hqj⟩ | hqu
          · subst hqj
            exact ⟨Or.inr (by omega), by omega, by omega⟩
          · have h1 := ihreachm q hqu
            rcases h1.1 with hc1 | hc1
            · exact ⟨Or.inl (by rw [hreachdec]; simp [hc1]), h1.2.1, by omega⟩
            · exact ⟨Or.inr hc1, h1.2.1, by omega⟩
      · refine ⟨Or.inl (by rw [hreachdec]; simp [hq]), (hbD q hq).1, ?_⟩
        have := (hbD q hq).2
        omega
    · -- no duplicate references
      rw [hreachnode2]
      have hRaesNodup : ((List.range (nodeSplit3 u).2.length).flatMap
          (fun j => (pgu.next + j)
            :: reachN h2 pgu ((nodeSplit3 u).2.getD j ⟨0, []⟩))).Nodup := by
        have hKs := nodup_alloc_blocks
          ((nodeSplit3 u).2.map fun kd => reachN h2 pgu kd) pgu.next
          (by
            intro K hK q hq
            obtain ⟨kid, hkid, hKe⟩ := List.mem_map.mp hK
            rw [← hKe] at hq
            exact (ihreachm q (hkidreachsub kid hkid q hq)).2.2)
          (by
            rw [← hkidsreach]
            exact ihnodup)
        rw [List.length_map] at hKs
        have heqf : ∀ j ∈ List.range (nodeSplit3 u).2.length,
            ((pgu.next + j)
              :: ((nodeSplit3 u).2.map fun kd => reachN h2 pgu kd).getD j [])
            = (pgu.next + j)
              :: reachN h2 pgu ((nodeSplit3 u).2.getD j ⟨0, []⟩) := by
          intro j hj
          rw [List.mem_range] at hj
          congr 1
          rw [List.getD_eq_getElem _ _ (by rw [List.length_map]; exact hj),
            List.getElem_map, List.getD_eq_getElem _ _ hj]
        rw [← flatMap_congr _ _ _ heqf]
        exact hKs
      rw [List.nodup_append, List.nodup_append]
      refine ⟨⟨hndT, hRaesNodup, ?_⟩, hndD, ?_⟩
      · intro q hq1 hq2
        rcases hmemRaes q hq2 with ⟨j, hj, hqj⟩ | hqu
        · have := (hbT q hq1).2
          omega
        · rcases (ihreachm q hqu).1 with hc1 | hc1
          · exact hdisjT hq1 (by simp [hc1])
          · have := (hbT q hq1).2
            omega
      · intro q hq1 hq2
        rcases List.mem_append.mp hq1 with hq1 | hq1
        · exact hdisjT hq1 (by simp [hq2])
        · rcases hmemRaes q hq1 with ⟨j, hj, hqj⟩ | hqu
          · have := (hbD q hq2).2
            omega
          · rcases (ihreachm q hqu).1 with hc1 | hc1
            · exact hdisjMD (by simp [hc1]) hq2
            · have := (hbD q hq2).2
              omega
    · -- first key preserved
      show ((node.entries.take (countLE key rest)
          ++ (allocKidEntries pgu (nodeSplit3 u).2).1
          ++ node.entries.drop (countLE key rest + 1)).getD 0 defEntry).key
        = node.getKey 0
      cases hc : countLE key rest with
      | zero =>
        have hgetD0 : ((nodeSplit3 u).2.getD 0 ⟨0, []⟩).getKey 0
            = u.getKey 0 := by
          cases hkEE : (nodeSplit3 u).2 with
          | nil => exact absurd hkEE hkne
          | cons a b =>
            rw [hkEE] at hkhead
            simpa using hkhead
        have hlen0 : 0 < (allocKidEntries pgu (nodeSplit3 u).2).1.length := by
          rw [hlenaes]
          omega
        rw [List.take_zero, List.nil_append]
        rw [List.getD_append _ _ _ _ hlen0]
        have haes0 : (allocKidEntries pgu (nodeSplit3 u).2).1.getD 0 defEntry
            = ⟨pgu.next + 0,
                ((nodeSplit3 u).2.getD 0 ⟨0, []⟩).getKey 0, []⟩ := by
          rw [hae]
          have h0m : 0 < ((List.range (nodeSplit3 u).2.length).map
              (fun j => (⟨pgu.next + j,
                ((nodeSplit3 u).2.getD j ⟨0, []⟩).getKey 0, []⟩ : Entry))).length := by
            simp
            omega
          rw [List.getD_eq_getElem _ _ h0m]
          simp
        rw [haes0]
        show ((nodeSplit3 u).2.getD 0 ⟨0, []⟩).getKey 0 = node.getKey 0
        rw [hgetD0, ihkey0, hkch]
        rw [hc]
        rfl
      | succ c2 =>
        rw [hent, List.take_succ_cons]
        show e0.key = node.getKey 0
        exact hk0e.symm

/-- A well-formed B+-tree handle of height `h`: a nonzero root page below
the allocation counter holding a well-formed subtree whose first key is the
empty sentinel key inserted by the first `Insert`, with sorted contents,
duplicate-free in-bounds references, and the root page outside its own
subtree. -/
def WFtree (h : Nat) (st : TreeState) : Prop :=
  st.root ≠ 0 ∧ st.root < st.pg.next ∧
  ∃ rootnode, pagesFind st.pg.tbl st.root = some rootnode ∧
    WFsub h st.pg rootnode ∧ flatSorted h st.pg rootnode ∧
    reachOK h st.pg rootnode ∧ st.root ∉ reachN h st.pg rootnode ∧
    rootnode.getKey 0 = []

/-- The key/value contents of the tree, reading the root page. -/
def treeContents (h : Nat) (st : TreeState) : List (List Nat × List Nat) :=
  flattenN h st.pg (pageGet st.pg st.root)

/-- `(*BTree).Insert` on a well-formed tree succeeds, keeps the tree well
formed (the height grows by at most one level, when the root splits), and
upserts the key/value pair into the contents. -/
theorem BTreeInsert_spec (h fuel : Nat) (st : TreeState) (key val : List Nat)
    (r : Option BErr) (st2 : TreeState)
    (hfuel : h < fuel)
    (hwf : WFtree h st)
    (hkey : key.length ≤ BTREE_MAX_KEY_SIZE)
    (hval : val.length ≤ BTREE_MAX_VAL_SIZE)
    (heq : BTreeInsert fuel st key val = (r, st2)) :
    r = none ∧
    ∃ h2, h2 ≤ h + 1 ∧ WFtree h2 st2 ∧
      treeContents h2 st2 = listUpsert key val (treeContents h st) := by
  obtain ⟨hr0, hrlt, rootnode, hfindr, hwfr, hflatr, hreachr, hrnot, hrk0⟩ := hwf
  have hcl : checkLimit key val = none := by
    unfold checkLimit
    unfold BTREE_MAX_KEY_SIZE at hkey ⊢
    unfold BTREE_MAX_VAL_SIZE at hval ⊢
    rw [if_neg (by omega), if_neg (by omega)]
  simp only [BTreeInsert, hcl] at heq
  rw [if_neg hr0] at heq
  have hgr : pageGet st.pg st.root = rootnode := by
    unfold pageGet
    rw [hfindr]
    rfl
  rw [hgr] at heq
  -- transport the root subtree's invariants to the store with the root freed
  have hagree1 : agreeOn st.pg (pageDel st.pg st.root)
      (reachN h st.pg rootnode) := by
    intro q hq
    show pagesFind (pagesDel st.pg.tbl st.root) q = pagesFind st.pg.tbl q
    rw [pagesFind_del]
    rw [if_neg ?_]
    intro hqe
    rw [hqe] at hq
    exact hrnot hq
  have hwf1 : WFsub h (pageDel st.pg st.root) rootnode :=
    WFsub_congr h st.pg _ rootnode hwfr hagree1
  have hreach1eq : reachN h (pageDel st.pg st.root) rootnode
      = reachN h st.pg rootnode := reachN_congr h st.pg _ rootnode hagree1
  have hflat1eq : flattenN h (pageDel st.pg st.root) rootnode
      = flattenN h st.pg rootnode := flattenN_congr h st.pg _ rootnode hagree1
  have hflat1 : flatSorted h (pageDel st.pg st.root) rootnode := by
    show List.Pairwise bytesLt _
    rw [hflat1eq]
    exact hflatr
  obtain ⟨hndr, hbndr⟩ := hreachr
  have hreach1 : reachOK h (pageDel st.pg st.root) rootnode := by
    refine ⟨by rw [hreach1eq]; exact hndr, ?_⟩
    intro q hq
    rw [hreach1eq] at hq
    exact hbndr q hq
  have hpos1 : 0 < (pageDel st.pg st.root).next := by
    show 0 < st.pg.next
    omega
  obtain ⟨u, pgu, hrec⟩ : ∃ u pgu,
      treeInsert fuel (pageDel st.pg st.root) rootnode key val = (u, pgu) :=
    ⟨_, _, rfl⟩
  have hrec1 : (treeInsert fuel (pageDel st.pg st.root) rootnode key val).1
      = u := by rw [hrec]
  have hrec2 : (treeInsert fuel (pageDel st.pg st.root) rootnode key val).2
      = pgu := by rw [hrec]
  rw [hrec1, hrec2] at heq
  have hti := treeInsert_spec h fuel (pageDel st.pg st.root) rootnode key val
    u pgu hfuel hpos1 hwf1 hflat1 hreach1 hkey hval
    (by rw [hrk0]; exact bytesCmp_nil_ne_gt key) hrec
  obtain ⟨tiframe, tinext, tiwfpre, tiflat, tireachm, tinodup, tikey0⟩ := hti
  rw [hreach1eq] at tiframe tireachm
  rw [hflat1eq] at tiflat
  have hnext1 : (pageDel st.pg st.root).next = st.pg.next := rfl
  rw [hnext1] at tinext tiframe tireachm
  obtain ⟨hkflat, hkne, hkwf, hkhead, hksort, hkmem⟩ :=
    nodeSplit3_kids_spec h pgu u tiwfpre
  obtain ⟨-, hlen23, hn1, hn3⟩ := nodeSplit3_partition u
  have hcontents : treeContents h st = flattenN h st.pg rootnode := by
    unfold treeContents
    rw [hgr]
  -- kid reaches live inside `u`'s reach
  have hkidsub : ∀ kid ∈ (nodeSplit3 u).2, ∀ e ∈ kid.entries,
      e ∈ u.entries := by
    intro kid hkid e he
    rw [← hkflat]
    exact List.mem_flatten.mpr ⟨kid.entries,
      List.mem_map_of_mem BNode.entries hkid, he⟩
  have hkidreachsub : ∀ kid ∈ (nodeSplit3 u).2, ∀ q ∈ reachN h pgu kid,
      q ∈ reachN h pgu u := by
    intro kid hkid q hq
    exact reachN_mono_entries h pgu kid.btype u.btype kid.entries u.entries
      (hkidsub kid hkid) q hq
  have hkidsflat : flattenN h pgu u
      = ((nodeSplit3 u).2.map fun kd => flattenN h pgu kd).flatten := by
    have h1 : flattenN h pgu u = flattenN h pgu
        ⟨u.btype, ((nodeSplit3 u).2.map BNode.entries).flatten⟩ := by
      rw [hkflat]
    rw [h1, flattenN_concat_slices, List.map_map]
    refine congrArg List.flatten (List.map_congr_left ?_)
    intro kd _
    show flattenN h pgu ⟨u.btype, kd.entries⟩ = flattenN h pgu kd
    rw [flattenN_mk h pgu u.btype kd.btype]
  have hkidsreach : reachN h pgu u
      = ((nodeSplit3 u).2.map fun kd => reachN h pgu kd).flatten := by
    have h1 : reachN h pgu u = reachN h pgu
        ⟨u.btype, ((nodeSplit3 u).2.map BNode.entries).flatten⟩ := by
      rw [hkflat]
    rw [h1, reachN_concat_slices, List.map_map]
    refine congrArg List.flatten (List.map_congr_left ?_)
    intro kd _
    show reachN h pgu ⟨u.btype, kd.entries⟩ = reachN h pgu kd
    rw [reachN_mk h pgu u.btype kd.btype]
  by_cases hsplit : 1 < (nodeSplit3 u).1
  · -- the root split: a fresh internal root over the pieces
    rw [if_pos hsplit] at heq
    injection heq with hr hst2
    subst hr
    subst hst2
    obtain ⟨han, hae, haf, hag⟩ := allocKidEntries_spec (nodeSplit3 u).2 pgu
    have hulim : entriesWithinLimits u := WFpre_limits h pgu u tiwfpre
    have hnlen : 1 ≤ (nodeSplit3 u).2.length := by omega
    have hnlen3 : (nodeSplit3 u).2.length ≤ 3 := by omega
    have hlenaes : (allocKidEntries pgu (nodeSplit3 u).2).1.length
        = (nodeSplit3 u).2.length := by
      rw [hae]
      simp
    have haeskeys : (allocKidEntries pgu (nodeSplit3 u).2).1.map Entry.key
        = (nodeSplit3 u).2.map fun kd => kd.getKey 0 := by
      rw [hae, List.map_map]
      exact list_map_range_getD (nodeSplit3 u).2 ⟨0, []⟩ fun kd => kd.getKey 0
    have haesmem : ∀ e ∈ (allocKidEntries pgu (nodeSplit3 u).2).1,
        ∃ j, j < (nodeSplit3 u).2.length ∧
          e = ⟨pgu.next + j,
            ((nodeSplit3 u).2.getD j ⟨0, []⟩).getKey 0, []⟩ := by
      intro e he
      rw [hae] at he
      obtain ⟨j, hj, hje⟩ := List.mem_map.mp he
      rw [List.mem_range] at hj
      exact ⟨j, hj, hje.symm⟩
    have hgetDmem : ∀ j, j < (nodeSplit3 u).2.length →
        (nodeSplit3 u).2.getD j ⟨0, []⟩ ∈ (nodeSplit3 u).2 := by
      intro j hj
      rw [List.getD_eq_getElem _ _ hj]
      exact List.getElem_mem _
    have haeslim : ∀ e ∈ (allocKidEntries pgu (nodeSplit3 u).2).1,
        e.key.length ≤ BTREE_MAX_KEY_SIZE ∧ e.val = [] := by
      intro e he
      obtain ⟨j, hj, hje⟩ := haesmem e he
      refine ⟨?_, by rw [hje]⟩
      have h1 := hkmem _ (hgetDmem j hj)
      obtain ⟨eu, heu, hek⟩ := List.mem_map.mp h1
      rw [hje]
      show (((nodeSplit3 u).2.getD j ⟨0, []⟩).getKey 0).length
        ≤ BTREE_MAX_KEY_SIZE
      rw [← hek]
      exact (hulim eu heu).1
    -- lookups below the fresh range pass through both new layers
    have hfindSt2 : ∀ q, q < pgu.next →
        pagesFind (pageNew (allocKidEntries pgu (nodeSplit3 u).2).2
          ⟨BNODE_NODE, (allocKidEntries pgu (nodeSplit3 u).2).1⟩).2.tbl q
        = pagesFind pgu.tbl q := by
      intro q hq
      rw [pagesFind_new]
      rw [if_neg (by rw [han]; omega)]
      exact haf q (Or.inl hq)
    have hagreekid : ∀ kid ∈ (nodeSplit3 u).2,
        agreeOn pgu (pageNew (allocKidEntries pgu (nodeSplit3 u).2).2
          ⟨BNODE_NODE, (allocKidEntries pgu (nodeSplit3 u).2).1⟩).2
          (reachN h pgu kid) := by
      intro kid hkid q hq
      exact hfindSt2 q (tireachm q (hkidreachsub kid hkid q hq)).2.2
    have hkid2 : ∀ kid ∈ (nodeSplit3 u).2,
        WFsub h (pageNew (allocKidEntries pgu (nodeSplit3 u).2).2
          ⟨BNODE_NODE, (allocKidEntries pgu (nodeSplit3 u).2).1⟩).2 kid :=
      fun kid hk => WFsub_congr h pgu _ kid (hkwf kid hk) (hagreekid kid hk)
    have hkidreach2 : ∀ kid ∈ (nodeSplit3 u).2,
        reachN h (pageNew (allocKidEntries pgu (nodeSplit3 u).2).2
          ⟨BNODE_NODE, (allocKidEntries pgu (nodeSplit3 u).2).1⟩).2 kid
          = reachN h pgu kid :=
      fun kid hk => reachN_congr h pgu _ kid (hagreekid kid hk)
    have hkidflat2 : ∀ kid ∈ (nodeSplit3 u).2,
        flattenN h (pageNew (allocKidEntries pgu (nodeSplit3 u).2).2
          ⟨BNODE_NODE, (allocKidEntries pgu (nodeSplit3 u).2).1⟩).2 kid
          = flattenN h pgu kid :=
      fun kid hk => flattenN_congr h pgu _ kid (hagreekid kid hk)
    have hfindfresh : ∀ j, j < (nodeSplit3 u).2.length →
        pagesFind (pageNew (allocKidEntries pgu (nodeSplit3 u).2).2
          ⟨BNODE_NODE, (allocKidEntries pgu (nodeSplit3 u).2).1⟩).2.tbl
          (pgu.next + j)
        = some ((nodeSplit3 u).2.getD j ⟨0, []⟩) := by
      intro j hj
      rw [pagesFind_new]
      rw [if_neg (by rw [han]; omega)]
      exact hag j hj
    have hpgget : ∀ j, j < (nodeSplit3 u).2.length →
        pageGet (pageNew (allocKidEntries pgu (nodeSplit3 u).2).2
          ⟨BNODE_NODE, (allocKidEntries pgu (nodeSplit3 u).2).1⟩).2
          (pgu.next + j)
          = (nodeSplit3 u).2.getD j ⟨0, []⟩ := by
      intro j hj
      unfold pageGet
      rw [hfindfresh j hj]
      rfl
    -- contents and reach of the new root node
    have haesget : ∀ j, ∀ hj : j < (nodeSplit3 u).2.length,
        ∀ h1 : j < (allocKidEntries pgu (nodeSplit3 u).2).1.length,
        (allocKidEntries pgu (nodeSplit3 u).2).1[j]
          = ⟨pgu.next + j, ((nodeSplit3 u).2.getD j ⟨0, []⟩).getKey 0, []⟩ := by
      intro j hj h1
      have h2 : (allocKidEntries pgu (nodeSplit3 u).2).1[j]?
          = some ⟨pgu.next + j,
              ((nodeSplit3 u).2.getD j ⟨0, []⟩).getKey 0, []⟩ := by
        rw [hae]
        rw [List.getElem?_eq_getElem (by simpa using hj)]
        simp
      rw [List.getElem?_eq_getElem h1] at h2
      exact Option.some.inj h2
    have hflatroot : flattenN (h + 1)
        (pageNew (allocKidEntries pgu (nodeSplit3 u).2).2
          ⟨BNODE_NODE, (allocKidEntries pgu (nodeSplit3 u).2).1⟩).2
        ⟨BNODE_NODE, (allocKidEntries pgu (nodeSplit3 u).2).1⟩
        = flattenN h pgu u := by
      have hmapeq : (allocKidEntries pgu (nodeSplit3 u).2).1.map
          (fun e => flattenN h
            (pageNew (allocKidEntries pgu (nodeSplit3 u).2).2
              ⟨BNODE_NODE, (allocKidEntries pgu (nodeSplit3 u).2).1⟩).2
            (pageGet (pageNew (allocKidEntries pgu (nodeSplit3 u).2).2
              ⟨BNODE_NODE, (allocKidEntries pgu (nodeSplit3 u).2).1⟩).2
              e.ptr))
          = (nodeSplit3 u).2.map fun kd => flattenN h pgu kd := by
        apply List.ext_getElem
        · rw [List.length_map, List.length_map, hlenaes]
        · intro j h1 h2
          rw [List.getElem_map, List.getElem_map]
          have hj : j < (nodeSplit3 u).2.length := by
            rw [List.length_map] at h2
            exact h2
          rw [haesget j hj (by rw [List.length_map, hlenaes] at h1; rw [hlenaes]; exact h1)]
          show flattenN h
            (pageNew (allocKidEntries pgu (nodeSplit3 u).2).2
              ⟨BNODE_NODE, (allocKidEntries pgu (nodeSplit3 u).2).1⟩).2
            (pageGet (pageNew (allocKidEntries pgu (nodeSplit3 u).2).2
              ⟨BNODE_NODE, (allocKidEntries pgu (nodeSplit3 u).2).1⟩).2
              (pgu.next + j))
            = flattenN h pgu (nodeSplit3 u).2[j]
          rw [hpgget j hj, hkidflat2 _ (hgetDmem j hj),
            List.getD_eq_getElem _ _ hj]
      show ((allocKidEntries pgu (nodeSplit3 u).2).1).flatMap
        (fun e => flattenN h
          (pageNew (allocKidEntries pgu (nodeSplit3 u).2).2
            ⟨BNODE_NODE, (allocKidEntries pgu (nodeSplit3 u).2).1⟩).2
          (pageGet (pageNew (allocKidEntries pgu (nodeSplit3 u).2).2
            ⟨BNODE_NODE, (allocKidEntries pgu (nodeSplit3 u).2).1⟩).2
            e.ptr)) = _
      rw [flatMap_eq_flatten, hmapeq]
      exact hkidsflat.symm
    have hreachroot : reachN (h + 1)
        (pageNew (allocKidEntries pgu (nodeSplit3 u).2).2
          ⟨BNODE_NODE, (allocKidEntries pgu (nodeSplit3 u).2).1⟩).2
        ⟨BNODE_NODE, (allocKidEntries pgu (nodeSplit3 u).2).1⟩
        = (List.range (nodeSplit3 u).2.length).flatMap
            (fun j => (pgu.next + j)
              :: reachN h pgu ((nodeSplit3 u).2.getD j ⟨0, []⟩)) := by
      have hmapeq : (allocKidEntries pgu (nodeSplit3 u).2).1.map
          (fun e => e.ptr
            :: reachN h (pageNew (allocKidEntries pgu (nodeSplit3 u).2).2
                ⟨BNODE_NODE, (allocKidEntries pgu (nodeSplit3 u).2).1⟩).2
                (pageGet (pageNew (allocKidEntries pgu (nodeSplit3 u).2).2
                  ⟨BNODE_NODE, (allocKidEntries pgu (nodeSplit3 u).2).1⟩).2
                  e.ptr))
          = (List.range (nodeSplit3 u).2.length).map
              (fun j => (pgu.next + j)
                :: reachN h pgu ((nodeSplit3 u).2.getD j ⟨0, []⟩)) := by
        apply List.ext_getElem
        · rw [List.length_map, List.length_map, List.length_range, hlenaes]
        · intro j h1 h2
          rw [List.getElem_map, List.getElem_map, List.getElem_range]
          have hj : j < (nodeSplit3 u).2.length := by
            rw [List.length_map, List.length_range] at h2
            exact h2
          rw [haesget j hj (by rw [List.length_map, hlenaes] at h1; rw [hlenaes]; exact h1)]
          show (pgu.next + j)
              :: reachN h (pageNew (allocKidEntries pgu (nodeSplit3 u).2).2
                ⟨BNODE_NODE, (allocKidEntries pgu (nodeSplit3 u).2).1⟩).2
                (pageGet (pageNew (allocKidEntries pgu (nodeSplit3 u).2).2
                  ⟨BNODE_NODE, (allocKidEntries pgu (nodeSplit3 u).2).1⟩).2
                  (pgu.next + j))
            = (pgu.next + j)
              :: reachN h pgu ((nodeSplit3 u).2.getD j ⟨0, []⟩)
          rw [hpgget j hj, hkidreach2 _ (hgetDmem j hj)]
      show ((allocKidEntries pgu (nodeSplit3 u).2).1).flatMap
        (fun e => e.ptr
          :: reachN h (pageNew (allocKidEntries pgu (nodeSplit3 u).2).2
              ⟨BNODE_NODE, (allocKidEntries pgu (nodeSplit3 u).2).1⟩).2
              (pageGet (pageNew (allocKidEntries pgu (nodeSplit3 u).2).2
                ⟨BNODE_NODE, (allocKidEntries pgu (nodeSplit3 u).2).1⟩).2
                e.ptr)) = _
      rw [flatMap_eq_flatten, hmapeq, ← flatMap_eq_flatten]
    have hmemRroot : ∀ q ∈ (List.range (nodeSplit3 u).2.length).flatMap
        (fun j => (pgu.next + j)
          :: reachN h pgu ((nodeSplit3 u).2.getD j ⟨0, []⟩)),
        (∃ j, j < (nodeSplit3 u).2.length ∧ q = pgu.next + j)
          ∨ q ∈ reachN h pgu u := by
      intro q hq
      obtain ⟨j, hj, hq2⟩ := List.mem_flatMap.mp hq
      rw [List.mem_range] at hj
      rcases List.mem_cons.mp hq2 with hq2 | hq2
      · exact Or.inl ⟨j, hj, hq2⟩
      · exact Or.inr (hkidreachsub _ (hgetDmem j hj) q hq2)
    have hRrootNodup : ((List.range (nodeSplit3 u).2.length).flatMap
        (fun j => (pgu.next + j)
          :: reachN h pgu ((nodeSplit3 u).2.getD j ⟨0, []⟩))).Nodup := by
      have hKs := nodup_alloc_blocks
        ((nodeSplit3 u).2.map fun kd => reachN h pgu kd) pgu.next
        (by
          intro K hK q hq
          obtain ⟨kid, hkid, hKe⟩ := List.mem_map.mp hK
          rw [← hKe] at hq
          exact (tireachm q (hkidreachsub kid hkid q hq)).2.2)
        (by
          rw [← hkidsreach]
          exact tinodup)
      rw [List.length_map] at hKs
      have heqf : ∀ j ∈ List.range (nodeSplit3 u).2.length,
          ((pgu.next + j)
            :: ((nodeSplit3 u).2.map fun kd => reachN h pgu kd).getD j [])
          = (pgu.next + j)
            :: reachN h pgu ((nodeSplit3 u).2.getD j ⟨0, []⟩) := by
        intro j hj
        rw [List.mem_range] at hj
        congr 1
        rw [List.getD_eq_getElem _ _ (by rw [List.length_map]; exact hj),
          List.getElem_map, List.getD_eq_getElem _ _ hj]
      rw [← flatMap_congr _ _ _ heqf]
      exact hKs
    have hrootk0 : ((allocKidEntries pgu (nodeSplit3 u).2).1.getD 0
        defEntry).key = [] := by
      have hgetD0 : ((nodeSplit3 u).2.getD 0 ⟨0, []⟩).getKey 0
          = u.getKey 0 := by
        cases hkEE : (nodeSplit3 u).2 with
        | nil => exact absurd hkEE hkne
        | cons a b =>
          rw [hkEE] at hkhead
          simpa using hkhead
      have haes0 : (allocKidEntries pgu (nodeSplit3 u).2).1.getD 0 defEntry
          = ⟨pgu.next + 0,
              ((nodeSplit3 u).2.getD 0 ⟨0, []⟩).getKey 0, []⟩ := by
        rw [hae]
        have h0m : 0 < ((List.range (nodeSplit3 u).2.length).map
            (fun j => (⟨pgu.next + j,
              ((nodeSplit3 u).2.getD j ⟨0, []⟩).getKey 0, []⟩ : Entry))).length := by
          simp
          omega
        rw [List.getD_eq_getElem _ _ h0m]
        simp
      rw [haes0]
      show ((nodeSplit3 u).2.getD 0 ⟨0, []⟩).getKey 0 = []
      rw [hgetD0, tikey0, hrk0]
    have hroot0 : (allocKidEntries pgu (nodeSplit3 u).2).2.next ≠ 0 := by
      rw [han]
      omega
    have hrootlt : (allocKidEntries pgu (nodeSplit3 u).2).2.next
        < (allocKidEntries pgu (nodeSplit3 u).2).2.next + 1 := by omega
    refine ⟨rfl, h + 1, by omega, ?_, ?_⟩
    · refine ⟨hroot0, hrootlt,
        ⟨BNODE_NODE, (allocKidEntries pgu (nodeSplit3 u).2).1⟩,
        ?_, ?_, ?_, ?_, ?_, ?_⟩
      · show pagesFind (pageNew (allocKidEntries pgu (nodeSplit3 u).2).2
          ⟨BNODE_NODE, (allocKidEntries pgu (nodeSplit3 u).2).1⟩).2.tbl
          (allocKidEntries pgu (nodeSplit3 u).2).2.next = some _
        rw [pagesFind_new, if_pos rfl]
      · -- the fresh root node is a well-formed internal node
        refine ⟨rfl, ?_, ?_, ?_, ?_, ?_⟩
        · show 1 ≤ (allocKidEntries pgu (nodeSplit3 u).2).1.length
          rw [hlenaes]
          omega
        · intro x hx
          obtain ⟨hkl, hv⟩ := haeslim x hx
          refine ⟨hkl, ?_⟩
          rw [hv]
          simp [BTREE_MAX_VAL_SIZE]
        · rw [nbytes_eq_costSum]
          show 4 + ((allocKidEntries pgu (nodeSplit3 u).2).1.map
            entryCost).sum ≤ BTREE_PAGE_SIZE
          have haescost : ((allocKidEntries pgu (nodeSplit3 u).2).1.map
              entryCost).sum
              ≤ 1014 * (allocKidEntries pgu (nodeSplit3 u).2).1.length := by
            apply costSum_le
            intro e he
            obtain ⟨hkl, hv⟩ := haeslim e he
            unfold entryCost kvSize
            rw [hv]
            unfold BTREE_MAX_KEY_SIZE at hkl
            simp
            omega
          rw [hlenaes] at haescost
          unfold BTREE_PAGE_SIZE
          omega
        · show List.Pairwise bytesLt
            ((allocKidEntries pgu (nodeSplit3 u).2).1.map Entry.key)
          rw [haeskeys]
          exact hksort
        · intro x hx
          obtain ⟨j, hj, hjx⟩ := haesmem x hx
          subst hjx
          exact ⟨rfl, (nodeSplit3 u).2.getD j ⟨0, []⟩, hfindfresh j hj,
            hkid2 _ (hgetDmem j hj), rfl⟩
      · -- sorted contents
        show List.Pairwise bytesLt _
        rw [hflatroot, tiflat]
        apply listUpsert_sorted
        exact hflatr
      · -- clean reachability
        refine ⟨?_, ?_⟩
        · rw [hreachroot]
          exact hRrootNodup
        · intro q hq
          rw [hreachroot] at hq
          show 0 < q ∧ q
            < (pageNew (allocKidEntries pgu (nodeSplit3 u).2).2
                ⟨BNODE_NODE, (allocKidEntries pgu (nodeSplit3 u).2).1⟩).2.next
          show 0 < q ∧ q
            < (allocKidEntries pgu (nodeSplit3 u).2).2.next + 1
          rcases hmemRroot q hq with ⟨j, hj, hqj⟩ | hqu
          · rw [han]
            omega
          · have h1 := (tireachm q hqu).2.1
            have h2 := (tireachm q hqu).2.2
            rw [han]
            omega
      · -- the fresh root page is outside its own subtree
        show (allocKidEntries pgu (nodeSplit3 u).2).2.next
          ∉ reachN (h + 1) _ _
        rw [hreachroot]
        intro hmem
        rcases hmemRroot _ hmem with ⟨j, hj, hqj⟩ | hqu
        · rw [han] at hqj
          omega
        · have h2 := (tireachm _ hqu).2.2
          rw [han] at h2
          omega
      · -- the sentinel first key
        exact hrootk0
    · show flattenN (h + 1) _
        (pageGet (pageNew (allocKidEntries pgu (nodeSplit3 u).2).2
          ⟨BNODE_NODE, (allocKidEntries pgu (nodeSplit3 u).2).1⟩).2
          (allocKidEntries pgu (nodeSplit3 u).2).2.next)
        = listUpsert key val (treeContents h st)
      have hget2 : pageGet (pageNew (allocKidEntries pgu (nodeSplit3 u).2).2
          ⟨BNODE_NODE, (allocKidEntries pgu (nodeSplit3 u).2).1⟩).2
          (allocKidEntries pgu (nodeSplit3 u).2).2.next
          = ⟨BNODE_NODE, (allocKidEntries pgu (nodeSplit3 u).2).1⟩ := by
        unfold pageGet
        rw [pagesFind_new, if_pos rfl]
        rfl
      rw [hget2, hflatroot, tiflat, hcontents]
  · -- no split: the single piece becomes the new root
    rw [if_neg hsplit] at heq
    injection heq with hr hst2
    subst hr
    subst hst2
    obtain ⟨k0, hkE⟩ : ∃ k0, (nodeSplit3 u).2 = [k0] := by
      cases hkEE : (nodeSplit3 u).2 with
      | nil => exact absurd hkEE hkne
      | cons a b =>
        cases hbE : b with
        | nil => exact ⟨a, rfl⟩
        | cons c d =>
          rw [hkEE, hbE] at hlen23
          simp at hlen23
          omega
    have hheadk : (nodeSplit3 u).2.headD ⟨0, []⟩ = k0 := by
      rw [hkE]
      rfl
    rw [hheadk]
    have hk0ent : k0.entries = u.entries := by
      rw [hkE] at hkflat
      simpa using hkflat
    have hk0wf : WFsub h pgu k0 := hkwf k0 (by rw [hkE]; simp)
    have hk0flat : flattenN h pgu k0 = flattenN h pgu u := by
      have h1 : flattenN h pgu k0 = flattenN h pgu ⟨k0.btype, u.entries⟩ := by
        rw [← hk0ent]
      rw [h1, flattenN_mk h pgu k0.btype u.btype]
    have hk0reach : reachN h pgu k0 = reachN h pgu u := by
      have h1 : reachN h pgu k0 = reachN h pgu ⟨k0.btype, u.entries⟩ := by
        rw [← hk0ent]
      rw [h1, reachN_mk h pgu k0.btype u.btype]
    -- the new store: `k0` on the fresh page `pgu.next`
    have hagree2 : agreeOn pgu (pageNew pgu k0).2 (reachN h pgu k0) := by
      intro q hq
      rw [pagesFind_new]
      rw [if_neg ?_]
      rw [hk0reach] at hq
      have h1 := (tireachm q hq).2.2
      omega
    have hk0wf2 : WFsub h (pageNew pgu k0).2 k0 :=
      WFsub_congr h pgu _ k0 hk0wf hagree2
    have hk0reach2 : reachN h (pageNew pgu k0).2 k0 = reachN h pgu k0 :=
      reachN_congr h pgu _ k0 hagree2
    have hk0flat2 : flattenN h (pageNew pgu k0).2 k0 = flattenN h pgu k0 :=
      flattenN_congr h pgu _ k0 hagree2
    refine ⟨rfl, h, by omega, ?_, ?_⟩
    · refine ⟨by show pgu.next ≠ 0; omega,
        by show pgu.next < pgu.next + 1; omega,
        k0, ?_, hk0wf2, ?_, ?_, ?_, ?_⟩
      · show pagesFind ((pgu.next, k0) :: pgu.tbl) pgu.next = some k0
        rw [pagesFind_cons, if_pos rfl]
      · show List.Pairwise bytesLt _
        rw [hk0flat2, hk0flat, tiflat]
        apply listUpsert_sorted
        rw [hcontents] at *
        exact hflatr
      · refine ⟨?_, ?_⟩
        · rw [hk0reach2, hk0reach]
          exact tinodup
        · intro q hq
          rw [hk0reach2, hk0reach] at hq
          have h1 := (tireachm q hq).2.1
          have h2 := (tireachm q hq).2.2
          show 0 < q ∧ q < pgu.next + 1
          omega
      · show pgu.next ∉ reachN h (pageNew pgu k0).2 k0
        intro hmem
        rw [hk0reach2, hk0reach] at hmem
        have h1 := (tireachm _ hmem).2.2
        omega
      · have h1 : k0.getKey 0 = u.getKey 0 := by
          rw [hkE] at hkhead
          exact hkhead
        rw [h1, tikey0, hrk0]
    · show flattenN h _ (pageGet (pageNew pgu k0).2 pgu.next)
        = listUpsert key val (treeContents h st)
      have hget2 : pageGet (pageNew pgu k0).2 pgu.next = k0 := by
        unfold pageGet
        rw [pagesFind_new, if_pos rfl]
        rfl
      rw [hget2, hk0flat2, hk0flat, tiflat, hcontents]

/-- C9: For every key and value and every well-formed tree state, applying
`Insert(key, val)` twice in succession yields a tree with exactly the same
key/value contents as applying it once — the second insert takes the
`leafUpdate` path and replaces the entry with identical bytes, so the
contents upsert is idempotent. -/
theorem C9_insert_idempotent (h fuel : Nat) (st : TreeState)
    (key val : List Nat) (r1 r2 : Option BErr) (st1 st2 : TreeState)
    (hfuel : h + 1 < fuel)
    (hwf : WFtree h st)
    (hkey : key.length ≤ BTREE_MAX_KEY_SIZE)
    (hval : val.length ≤ BTREE_MAX_VAL_SIZE)
    (h1 : BTreeInsert fuel st key val = (r1, st1))
    (h2 : BTreeInsert fuel st1 key val = (r2, st2)) :
    r1 = none ∧ r2 = none ∧
    ∃ ha hb, ha ≤ h + 1 ∧ hb ≤ ha + 1 ∧ WFtree ha st1 ∧ WFtree hb st2 ∧
      treeContents hb st2 = treeContents ha st1 := by
  obtain ⟨hr1, ha, hha, hwf1, hc1⟩ :=
    BTreeInsert_spec h fuel st key val r1 st1 (by omega) hwf hkey hval h1
  obtain ⟨hr2, hb, hhb, hwf2, hc2⟩ :=
    BTreeInsert_spec ha fuel st1 key val r2 st2 (by omega) hwf1 hkey hval h2
  refine ⟨hr1, hr2, ha, hb, hha, hhb, hwf1, hwf2, ?_⟩
  rw [hc2, hc1, listUpsert_idem]

instance : DecidableRel bytesLt := fun a b => by
  unfold bytesLt
  infer_instance

/-- A one-leaf tree mapping the sentinel empty key and `[5] ↦ [7]`, on
page 1. -/
def c9Start : TreeState :=
  ⟨1, ⟨[(1, ⟨BNODE_LEAF, [⟨0, [], []⟩, ⟨0, [5], [7]⟩]⟩)], 2⟩⟩

/-- The tree after inserting `[9] ↦ [3]` once. -/
def c9Mid : TreeState := (BTreeInsert 2 c9Start [9] [3]).2

/-- The tree after inserting `[9] ↦ [3]` twice. -/
def c9End : TreeState := (BTreeInsert 2 c9Mid [9] [3]).2

theorem C9_insert_idempotent_witness :
    (none : Option BErr) = none ∧ (none : Option BErr) = none ∧
    ∃ ha hb, ha ≤ 0 + 1 ∧ hb ≤ ha + 1 ∧ WFtree ha c9Mid ∧ WFtree hb c9End ∧
      treeContents hb c9End = treeContents ha c9Mid :=
  C9_insert_idempotent 0 2 c9Start [9] [3] none none c9Mid c9End
    (by decide)
    (by
      refine ⟨by decide, by decide,
        ⟨BNODE_LEAF, [⟨0, [], []⟩, ⟨0, [5], [7]⟩]⟩, rfl, ?_, ?_, ?_, ?_, rfl⟩
      · exact ⟨rfl, by decide, by decide, by decide, by decide⟩
      · unfold flatSorted
        decide
      · exact ⟨by decide, by decide⟩
      · decide)
    (by decide) (by decide) (by decide) (by decide)

end GoDB
